import Mathlib

/-!
Verification development for the EBM core training engine
(`src/core/ebmcore`: `MultiDimensionalTraining.h`, `SegmentedRegion.h`,
`DataSetByAttributeCombination.cpp`, `SamplingWithReplacement.cpp`).

Modelling conventions, fixed once for the whole file:

* `FractionalDataType` (a C `double`) is modelled by `ℚ`: every quantity the
  claims speak about is produced by `+`, `-`, `*`, `/` on values that start as
  exact integers, and the claims under study are algorithmic identities, not
  rounding statements.  Division by zero in `ℚ` is `0`, which coincides with
  the guarded uses in the source (`0 == cCases ? 0 : ...`).
* `size_t` counters inside accumulators are modelled by `ℤ`.  The C code
  computes them with wraparound mod `2^64`; every final value read by the
  algorithms is a true (small, non-negative) case count, for which the two
  semantics agree, while `ℤ` keeps intermediate inclusion–exclusion sums exact.
* Heap allocation always succeeds in the model; the `nullptr` early-outs of the
  source are therefore not reachable and are not part of the embedded state.
* Arrays are modelled by total functions `ℕ → _` or by `List`s holding exactly
  the live elements; a C array cell that is never read before being written is
  not represented.
-/

/-! ### Per-bin accumulator

`BinnedBucket` (from `BinnedBucket.h`, which is only *used* by the sources
under study; its fields and the componentwise `Add`/`Subtract`/`Copy`/`Zero`
operations are visible at the use sites `MultiDimensionalTraining.h:583-596`
and are described in the spec §3 "Per-bin accumulator").  One structure covers
both template variants: regression ignores `sumDenominator`. -/

structure BinnedBucket (cVectorLength : ℕ) where
  cCasesInBucket : ℤ
  sumResidualError : Fin cVectorLength → ℚ
  sumDenominator : Fin cVectorLength → ℚ
deriving DecidableEq

namespace BinnedBucket

variable {vl : ℕ}

@[ext] theorem ext {a b : BinnedBucket vl}
    (h1 : a.cCasesInBucket = b.cCasesInBucket)
    (h2 : a.sumResidualError = b.sumResidualError)
    (h3 : a.sumDenominator = b.sumDenominator) : a = b := by
  cases a; cases b; simp_all

/-- `BinnedBucket::Add` / `Subtract` / `Zero` are componentwise
(`MultiDimensionalTraining.h:583-596` shows the component layout); we package
them as an additive group so that sums over sets of buckets are available. -/
instance : Add (BinnedBucket vl) :=
  ⟨fun a b => ⟨a.cCasesInBucket + b.cCasesInBucket,
    a.sumResidualError + b.sumResidualError, a.sumDenominator + b.sumDenominator⟩⟩

instance : Zero (BinnedBucket vl) := ⟨⟨0, 0, 0⟩⟩

instance : Neg (BinnedBucket vl) :=
  ⟨fun a => ⟨-a.cCasesInBucket, -a.sumResidualError, -a.sumDenominator⟩⟩

@[simp] theorem add_cCases (a b : BinnedBucket vl) :
    (a + b).cCasesInBucket = a.cCasesInBucket + b.cCasesInBucket := rfl
@[simp] theorem add_res (a b : BinnedBucket vl) :
    (a + b).sumResidualError = a.sumResidualError + b.sumResidualError := rfl
@[simp] theorem add_den (a b : BinnedBucket vl) :
    (a + b).sumDenominator = a.sumDenominator + b.sumDenominator := rfl
@[simp] theorem zero_cCases : (0 : BinnedBucket vl).cCasesInBucket = 0 := rfl
@[simp] theorem zero_res : (0 : BinnedBucket vl).sumResidualError = 0 := rfl
@[simp] theorem zero_den : (0 : BinnedBucket vl).sumDenominator = 0 := rfl
@[simp] theorem neg_cCases (a : BinnedBucket vl) :
    (-a).cCasesInBucket = -a.cCasesInBucket := rfl
@[simp] theorem neg_res (a : BinnedBucket vl) :
    (-a).sumResidualError = -a.sumResidualError := rfl
@[simp] theorem neg_den (a : BinnedBucket vl) :
    (-a).sumDenominator = -a.sumDenominator := rfl
instance instAddCommGroup : AddCommGroup (BinnedBucket vl) where
  add_assoc a b c := by ext <;> simp [add_assoc]
  zero_add a := by ext <;> simp
  add_zero a := by ext <;> simp
  add_comm a b := by ext <;> simp [add_comm]
  neg_add_cancel a := by ext <;> simp [neg_add_cancel]
  nsmul := nsmulRec
  zsmul := zsmulRec

@[simp] theorem sub_cCases (a b : BinnedBucket vl) :
    (a - b).cCasesInBucket = a.cCasesInBucket - b.cCasesInBucket := by
  simp [sub_eq_add_neg]
@[simp] theorem sub_res (a b : BinnedBucket vl) :
    (a - b).sumResidualError = a.sumResidualError - b.sumResidualError := by
  simp [sub_eq_add_neg]
@[simp] theorem sub_den (a b : BinnedBucket vl) :
    (a - b).sumDenominator = a.sumDenominator - b.sumDenominator := by
  simp [sub_eq_add_neg]

end BinnedBucket

/-! ### Mixed-radix tuple index and grid enumeration

The sources flatten an `N`-dimensional grid point `(i_0, …, i_{N-1})` over per
dimension state counts `(c_0, …, c_{N-1})` into the flat index
`Σ_d i_d · Π_{d' < d} c_{d'}` — dimension 0 varies fastest.  This is the
`tensorIndex` computation of `DataSetByAttributeCombination.cpp:163-176` and
the `iBin`/`startingOffset` computations of `MultiDimensionalTraining.h`
(`GetTotalsDebugSlow:48-60`, `GetTotals:704-713`). -/

def tensorIndex : List ℕ → List ℕ → ℕ
  | c :: cs, i :: t => i + c * tensorIndex cs t
  | _, _ => 0

@[simp] theorem tensorIndex_nil_right (cs : List ℕ) : tensorIndex cs [] = 0 := by
  cases cs <;> rfl

@[simp] theorem tensorIndex_nil_left (t : List ℕ) : tensorIndex [] t = 0 := by
  cases t <;> rfl

@[simp] theorem tensorIndex_cons (c : ℕ) (cs : List ℕ) (i : ℕ) (t : List ℕ) :
    tensorIndex (c :: cs) (i :: t) = i + c * tensorIndex cs t := rfl

/-- All grid points of the cube with per-dimension state counts `cs`, listed
in flat-index order (dimension 0 fastest) — the traversal order of every
odometer loop in `MultiDimensionalTraining.h`. -/
def gridTuples : List ℕ → List (List ℕ)
  | [] => [[]]
  | c :: cs => (gridTuples cs).flatMap fun t => (List.range c).map (· :: t)

@[simp] theorem gridTuples_nil : gridTuples [] = [[]] := rfl

theorem gridTuples_cons (c : ℕ) (cs : List ℕ) :
    gridTuples (c :: cs) =
      (gridTuples cs).flatMap (fun t => (List.range c).map (· :: t)) := rfl

theorem mem_gridTuples {cs : List ℕ} {t : List ℕ} :
    t ∈ gridTuples cs ↔ List.Forall₂ (· < ·) t cs := by
  induction cs generalizing t with
  | nil =>
    simp only [gridTuples_nil, List.mem_singleton]
    constructor
    · rintro rfl; exact List.Forall₂.nil
    · intro h; cases h; rfl
  | cons c cs ih =>
    simp only [gridTuples_cons, List.mem_flatMap, List.mem_map, List.mem_range]
    constructor
    · rintro ⟨t', ht', i, hi, rfl⟩
      exact List.Forall₂.cons hi (ih.mp ht')
    · intro h
      cases h with
      | cons hab h => exact ⟨_, ih.mpr h, _, hab, rfl⟩

theorem map_tensorIndex_gridTuples (cs : List ℕ) :
    (gridTuples cs).map (tensorIndex cs) = List.range cs.prod := by
  induction cs with
  | nil =>
    have : List.range 1 = [0] := rfl
    simp [this]
  | cons c cs ih =>
    have expand : List.range (c * cs.prod) =
        (List.range cs.prod).flatMap (fun e => (List.range c).map (· + c * e)) := by
      induction cs.prod with
      | zero => simp
      | succ p ihp =>
        rw [Nat.mul_succ, List.range_succ, List.flatMap_append, ← ihp,
          List.range_add]
        simp [List.flatMap_singleton, Nat.add_comm]
    rw [gridTuples_cons, List.map_flatMap, List.prod_cons, expand, ← ih,
      List.flatMap_map]
    congr 1
    funext t
    simp [List.map_map, Function.comp_def]

theorem tensorIndex_lt_prod {cs t : List ℕ} (h : t ∈ gridTuples cs) :
    tensorIndex cs t < cs.prod := by
  have : tensorIndex cs t ∈ (gridTuples cs).map (tensorIndex cs) :=
    List.mem_map_of_mem _ h
  rw [map_tensorIndex_gridTuples] at this
  exact List.mem_range.mp this

theorem gridTuples_nodup_map (cs : List ℕ) :
    ((gridTuples cs).map (tensorIndex cs)).Nodup := by
  rw [map_tensorIndex_gridTuples]; exact List.nodup_range _

theorem tensorIndex_injOn {cs : List ℕ} {t₁ t₂ : List ℕ}
    (h₁ : t₁ ∈ gridTuples cs) (h₂ : t₂ ∈ gridTuples cs)
    (h : tensorIndex cs t₁ = tensorIndex cs t₂) : t₁ = t₂ :=
  List.inj_on_of_nodup_map (gridTuples_nodup_map cs) h₁ h₂ h

theorem gridTuples_nodup (cs : List ℕ) : (gridTuples cs).Nodup :=
  List.Nodup.of_map _ (gridTuples_nodup_map cs)

theorem gridTuples_length (cs : List ℕ) : (gridTuples cs).length = cs.prod := by
  have := congrArg List.length (map_tensorIndex_gridTuples cs)
  simpa using this

/-- Componentwise `≤` on grid tuples, as a boolean so it can filter lists. -/
def tupleLE : List ℕ → List ℕ → Bool
  | [], [] => true
  | a :: as, b :: bs => a ≤ b && tupleLE as bs
  | _, _ => false

@[simp] theorem tupleLE_nil : tupleLE [] [] = true := rfl

@[simp] theorem tupleLE_cons (a b : ℕ) (as bs : List ℕ) :
    tupleLE (a :: as) (b :: bs) = (a ≤ b && tupleLE as bs) := rfl

/-! ### Segmented tensor (`SegmentedRegion.h`)

`SegmentedRegionCore<TDivisions, TValues>` instantiated as in the trainer:
`TDivisions = ActiveDataType` (division values are state indices, modelled
`ℕ`), `TValues = FractionalDataType` (modelled `ℚ`).  Capacity fields
(`m_cValueCapacity`, `cDivisionCapacity`, `m_cDimensionsMax`) only govern
reallocation, which always succeeds in the model, so the embedded state keeps
just the live data: per-dimension division arrays of length `cDivisions` and
the value array of length `(Π_d (cDivisions_d + 1)) · cVectorLength`. -/

structure SegmentedRegionCore where
  cVectorLength : ℕ
  aDimensions : List (List ℕ)
  aValues : List ℚ
  bExpanded : Bool
deriving DecidableEq

namespace SegmentedRegionCore

/-- Number of regions of the value grid: `Π_d (cDivisions_d + 1)`. -/
def cRegions (s : SegmentedRegionCore) : ℕ :=
  (s.aDimensions.map (fun divs => divs.length + 1)).prod

/-- The one slice of `cVectorLength` values belonging to flat region index
`i1` of a value array (the `do { *pValueTop = *pValue1Move; … }` copy loop
moves exactly one such slice). -/
def regionSlice (values : List ℚ) (vl i1 : ℕ) : List ℚ :=
  (values.drop (i1 * vl)).take vl

/-- One step of the reverse-traversal odometer of `Expand`
(`SegmentedRegion.h:358-396`).  Stack entries are
`(pDivision1, iDivision2, cNewDivisions)`; `pDivision1` is kept as the ℤ index
into the division array (`-1` = one before the start, the source's
`aDivisions1 - 1` sentinel), `iDivision2` is the `ptrdiff_t` countdown.  The
value cursor `pValue1` is kept as the flat *region* index `i1` (the source's
pointer is `&aValues[cVectorLength * (i1 + 1) - 1]`, and its `multiplication1`
is `cVectorLength *` our region-unit `mult1`).  In the wrap branch the source
moves `pValue1` by `-multiplication1 + multiplication1 * (1 + cDivisions1)`,
i.e. a net `+ cDivisions1 * mult1` regions. -/
def ExpandWalk : List (List ℕ) → List (ℤ × ℤ × ℤ) → ℕ → ℕ →
    List (ℤ × ℤ × ℤ) × ℕ
  | aDivisions1 :: restDims, (pDivision1, iDivision2, cNew) :: restStack, i1,
      mult1 =>
    if 0 ≤ pDivision1 then
      -- `aDivisions1 <= pDivision1` branch, SegmentedRegion.h:364-373
      let d1 : ℤ := (aDivisions1.getD pDivision1.toNat 0 : ℕ)
      let change1 : ℕ := if iDivision2 ≤ d1 then 1 else 0
      ((pDivision1 - change1, iDivision2 - 1, cNew) :: restStack,
        i1 - change1 * mult1)
    else if 0 ≤ iDivision2 then
      -- SegmentedRegion.h:375-378
      ((pDivision1, iDivision2 - 1, cNew) :: restStack, i1)
    else
      -- wrap: SegmentedRegion.h:379-394
      let cDivisions1 := aDivisions1.length
      let res := ExpandWalk restDims restStack (i1 + cDivisions1 * mult1)
        (mult1 * (1 + cDivisions1))
      (((cDivisions1 : ℤ) - 1, cNew, cNew) :: res.1, res.2)
  | _, _, i1, _ => ([], i1)

/-- The reverse value traversal of `Expand` (`SegmentedRegion.h:335-397`):
`count` regions remain to be written; each iteration copies one region slice
of the old value array to the top of the new one and, unless the bottom is
reached (`aValuesEnd == pValueTop`, line 348), steps the odometer. -/
def ExpandValuesLoop (aDimensions : List (List ℕ)) (aValues : List ℚ)
    (vl : ℕ) : ℕ → List (ℤ × ℤ × ℤ) → ℕ → List ℚ → List ℚ
  | 0, _, _, acc => acc
  | count + 1, stack, i1, acc =>
    let acc' := regionSlice aValues vl i1 ++ acc
    if count = 0 then acc'
    else
      let step := ExpandWalk aDimensions stack i1 1
      ExpandValuesLoop aDimensions aValues vl count step.1 step.2 acc'

/-- `SegmentedRegionCore::Expand` (`SegmentedRegion.h:278-420`).  Returns the
new state and the error flag (`false` = success; allocation is modelled as
always succeeding).  A dimension whose division count already equals
`acDivisionsPlusOne[d] - 1` keeps its division array (line 405-407); otherwise
the divisions become the identity sequence `0, 1, …` (lines 413-415). -/
def Expand (s : SegmentedRegionCore) (acDivisionsPlusOne : List ℕ) :
    SegmentedRegionCore × Bool :=
  if s.bExpanded then (s, false)
  else
    let cNewValues := acDivisionsPlusOne.prod
    let stack0 := s.aDimensions.zipWith
      (fun divs rc => (((divs.length : ℤ) - 1, (rc : ℤ) - 2, (rc : ℤ) - 2)))
      acDivisionsPlusOne
    let newValues := ExpandValuesLoop s.aDimensions s.aValues s.cVectorLength
      cNewValues stack0 (s.cRegions - 1) []
    let newDims := s.aDimensions.zipWith
      (fun divs rc => if rc - 1 = divs.length then divs else List.range (rc - 1))
      acDivisionsPlusOne
    ({ cVectorLength := s.cVectorLength, aDimensions := newDims,
       aValues := newValues, bExpanded := true }, false)

/-- `SegmentedRegionCore::Multiply` (`SegmentedRegion.h:262-275`). -/
def Multiply (s : SegmentedRegionCore) (v : ℚ) : SegmentedRegionCore :=
  { s with aValues := s.aValues.map (· * v) }

/-- Region index of state value `x` along one axis: the binary search of
`GetValue` (`SegmentedRegion.h:203-256`) returns, for a strictly ascending
division array, the number of divisions strictly below `x`, except that `x`
equal to a division lands on that division's own index — which is again the
number of strictly smaller divisions.  So the region index is
`|{d ∈ divisions : d < x}|`. -/
def regionOf (divisions : List ℕ) (x : ℕ) : ℕ :=
  divisions.countP (fun d => decide (d < x))

/-- A segmented tensor evaluated as a piecewise-constant function: value
component `iVector` at grid point `p` (`GetValue` semantics,
`SegmentedRegion.h:203-256`). -/
def valueAt (s : SegmentedRegionCore) (p : List ℕ) (iVector : ℕ) : ℚ :=
  s.aValues.getD
    (tensorIndex (s.aDimensions.map (fun divs => divs.length + 1))
      (List.zipWith regionOf s.aDimensions p) * s.cVectorLength + iVector) 0

end SegmentedRegionCore

/-! ### Bootstrap sampling sets (`SamplingWithReplacement.cpp`) -/

namespace SamplingWithReplacement

/-- Modelled from the spec: `RandomStream::Next` (its header is not among the
sources) "supplies a per-case non-negative integer multiplicity (bootstrap
sampling)"; `Next(0, cCases-1)` draws a value in `[0, cCases-1]`.  The stream
is modelled as a given sequence `randomNext : ℕ → ℕ` of successive results,
with the range contract a hypothesis of the theorems. -/
def GenerateSingleSamplingSet (randomNext : ℕ → ℕ) (cCases : ℕ) : List ℕ :=
  (List.range cCases).foldl
    (fun aCountOccurrences iCase =>
      let iCountOccurrences := randomNext iCase
      aCountOccurrences.set iCountOccurrences
        (aCountOccurrences.getD iCountOccurrences 0 + 1))
    (List.replicate cCases 0)

/-- `SamplingWithReplacement::GenerateFlatSamplingSet`
(`SamplingWithReplacement.cpp:63-82`). -/
def GenerateFlatSamplingSet (cCases : ℕ) : List ℕ :=
  List.replicate cCases 1

/-- `SamplingWithReplacement::GetTotalCountCaseOccurrences`
(`SamplingWithReplacement.cpp:20-31`): returns the origin dataset's case
count (the debug build asserts it equals the sum of the occurrence array). -/
def GetTotalCountCaseOccurrences (cCases : ℕ) : ℕ := cCases

theorem sum_set_getD_add_one (l : List ℕ) (i : ℕ) (h : i < l.length) :
    (l.set i (l.getD i 0 + 1)).sum = l.sum + 1 := by
  induction l generalizing i with
  | nil => simp at h
  | cons a as ih =>
    cases i with
    | zero => simp [List.getD]; omega
    | succ n =>
      simp only [List.set, List.sum_cons, List.getD_cons_succ]
      rw [ih n (by simpa using h)]
      omega

theorem single_sampling_sum (randomNext : ℕ → ℕ) (cCases : ℕ)
    (h : ∀ i, i < cCases → randomNext i < cCases) :
    (GenerateSingleSamplingSet randomNext cCases).sum = cCases ∧
      (GenerateSingleSamplingSet randomNext cCases).length = cCases := by
  unfold GenerateSingleSamplingSet
  have main : ∀ (idxs : List ℕ) (l : List ℕ), (∀ i ∈ idxs, randomNext i < l.length) →
      (idxs.foldl (fun acc iCase =>
        acc.set (randomNext iCase) (acc.getD (randomNext iCase) 0 + 1)) l).sum
        = l.sum + idxs.length ∧
      (idxs.foldl (fun acc iCase =>
        acc.set (randomNext iCase) (acc.getD (randomNext iCase) 0 + 1)) l).length
        = l.length := by
    intro idxs
    induction idxs with
    | nil => intro l _; simp
    | cons j js ih =>
      intro l hl
      simp only [List.foldl_cons]
      have hj : randomNext j < l.length := hl j (List.mem_cons_self j js)
      have hlen : (l.set (randomNext j) (l.getD (randomNext j) 0 + 1)).length
          = l.length := by simp
      obtain ⟨hs, hn⟩ := ih (l.set (randomNext j) (l.getD (randomNext j) 0 + 1))
        (fun i hi => by rw [hlen]; exact hl i (List.mem_cons_of_mem _ hi))
      refine ⟨?_, by rw [hn, hlen]⟩
      rw [hs, sum_set_getD_add_one l _ hj]
      simp [List.length_cons]
      omega
  have := main (List.range cCases) (List.replicate cCases 0)
    (fun i hi => by
      simp only [List.length_replicate]
      exact h i (List.mem_range.mp hi))
  simpa using this

end SamplingWithReplacement

/-! ### Claim C9 and C10 theorems -/

/-- C9: calling `Expand` on an already-expanded segmented tensor is a no-op —
it returns success (`false`) immediately and leaves the divisions, values and
the expanded flag unchanged (`SegmentedRegion.h:279-282`).  (The source does
not even look at the requested region counts, so this holds for any counts,
in particular the same ones.) -/
theorem expand_noop_on_expanded (s : SegmentedRegionCore)
    (acDivisionsPlusOne : List ℕ) (h : s.bExpanded = true) :
    s.Expand acDivisionsPlusOne = (s, false) := by
  simp [SegmentedRegionCore.Expand, h]

theorem expand_noop_on_expanded_witness :
    (SegmentedRegionCore.mk 1 [[0], [1]] [1, 2, 3, 4] true).bExpanded = true ∧
      (SegmentedRegionCore.mk 1 [[0], [1]] [1, 2, 3, 4] true).Expand [2, 3]
        = (SegmentedRegionCore.mk 1 [[0], [1]] [1, 2, 3, 4] true, false) :=
  ⟨rfl, expand_noop_on_expanded _ [2, 3] rfl⟩

/-- C10: every sampling set produced by `GenerateSingleSamplingSet`
(`SamplingWithReplacement.cpp:33-61`) has per-case occurrence counts (one
`ℕ` per case of the origin dataset, hence non-negative) summing to exactly
the origin dataset's case count, the value `GetTotalCountCaseOccurrences`
reports; and `GenerateFlatSamplingSet` (`SamplingWithReplacement.cpp:63-82`)
sets every count to 1.  The hypothesis is the `RandomStream::Next(0, cCases-1)`
range contract. -/
theorem sampling_set_counts_invariant (randomNext : ℕ → ℕ) (cCases : ℕ)
    (h : ∀ i, i < cCases → randomNext i < cCases) :
    ((SamplingWithReplacement.GenerateSingleSamplingSet randomNext cCases).length
        = cCases ∧
      (SamplingWithReplacement.GenerateSingleSamplingSet randomNext cCases).sum
        = SamplingWithReplacement.GetTotalCountCaseOccurrences cCases) ∧
    ((SamplingWithReplacement.GenerateFlatSamplingSet cCases).length = cCases ∧
      (SamplingWithReplacement.GenerateFlatSamplingSet cCases).sum
        = SamplingWithReplacement.GetTotalCountCaseOccurrences cCases ∧
      ∀ x ∈ SamplingWithReplacement.GenerateFlatSamplingSet cCases, x = 1) := by
  obtain ⟨hs, hl⟩ := SamplingWithReplacement.single_sampling_sum randomNext cCases h
  refine ⟨⟨hl, hs⟩, ?_, ?_, ?_⟩
  · simp [SamplingWithReplacement.GenerateFlatSamplingSet]
  · simp [SamplingWithReplacement.GenerateFlatSamplingSet,
      SamplingWithReplacement.GetTotalCountCaseOccurrences, List.sum_replicate]
  · intro x hx
    exact List.eq_of_mem_replicate hx

theorem sampling_set_counts_invariant_witness :
    (∀ i, i < 3 → i % 3 < 3) ∧
      (SamplingWithReplacement.GenerateSingleSamplingSet (fun i => i % 3) 3).sum
        = SamplingWithReplacement.GetTotalCountCaseOccurrences 3 :=
  ⟨fun i _ => Nat.mod_lt i (by norm_num),
    (sampling_set_counts_invariant (fun i => i % 3) 3
      (fun i _ => Nat.mod_lt i (by norm_num))).1.2⟩

/-- C5 counterexample: expanding the 1-D tensor with division `[2]` and
values `[10, 20]` to 5 regions yields the value grid `[10, 10, 10, 20, 20]`
(state 2 sits on the *low* side of division 2, exactly as `GetValue` places
it), not the `[10, 10, 20, 20, 20]` of the claim's scenario; the divisions do
become the identity sequence `[0, 1, 2, 3]`. -/
theorem expand_scenario5_counterexample :
    (SegmentedRegionCore.Expand ⟨1, [[2]], [10, 20], false⟩ [5]).1.aValues
        = [10, 10, 10, 20, 20] ∧
      (SegmentedRegionCore.Expand ⟨1, [[2]], [10, 20], false⟩ [5]).1.aValues
        ≠ [10, 10, 20, 20, 20] ∧
      (SegmentedRegionCore.Expand ⟨1, [[2]], [10, 20], false⟩ [5]).1.aDimensions
        = [[0, 1, 2, 3]] ∧
      (SegmentedRegionCore.Expand ⟨1, [[2]], [10, 20], false⟩ [5]).1.bExpanded
        = true := by
  refine ⟨by decide, by decide, by decide, by decide⟩

/-! ### Bit-packed input store (`DataSetByAttributeCombination.cpp`)

`ConstructInputData` (lines 96-202), for one attribute combination.  The
per-combination constant `m_cItemsPerBitPackDataUnit` is computed outside the
sources under study, so it enters as a parameter, and the spec §3 invariant of
the bit-packing scheme — every tuple index fits in `bits_per_item` bits — is a
hypothesis of the theorem.  `StorageDataTypeCore` words are modelled as `ℕ`
(all shifts below stay within `wordBits` bits, so no wraparound occurs). -/

/-- `GetCountBits` (part_001 / `EbmInternal.h`):
`k_cBitsForStorageType / cItemsBitPacked`. -/
def GetCountBits (wordBits cItemsBitPacked : ℕ) : ℕ := wordBits / cItemsBitPacked

/-- The tuple index of one case: the inner `do { … tensorIndex += tensorMultiple
* inputData; tensorMultiple *= cStates; … }` loop of
`DataSetByAttributeCombination.cpp:163-176`.  `dimensionInfo` pairs each
dimension's input-data column with its state count. -/
def caseTensorIndex (dimensionInfo : List ((ℕ → ℕ) × ℕ)) (iCase : ℕ) : ℕ :=
  tensorIndex (dimensionInfo.map Prod.snd)
    (dimensionInfo.map (fun pd => pd.1 iCase))

/-- One packed word: the `do { … bits |= tensorIndex << shift; shift +=
cBitsPerItemMax; } while(shiftEnd != shift)` loop
(`DataSetByAttributeCombination.cpp:158-181`), filling `slots` bit-slots with
the tuple indices of consecutive cases starting at `firstCase`, first case in
the lowest-order slot. -/
def packWord (idxOf : ℕ → ℕ) (cBitsPerItemMax firstCase slots : ℕ) : ℕ :=
  (List.range slots).foldl
    (fun bits s => bits ||| (idxOf (firstCase + s) <<< (s * cBitsPerItemMax))) 0

/-- `ConstructInputData` (`DataSetByAttributeCombination.cpp:96-202`) for one
attribute combination: `(cCases - 1) / cItemsPerBitPackDataUnit + 1` words;
every word but the last holds `cItemsPerBitPackDataUnit` cases, the last holds
the remaining `(cCases - 1) % cItemsPerBitPackDataUnit + 1` (the
`one_last_loop` re-entry with reduced `shiftEnd`, lines 182-196). -/
def ConstructInputData (wordBits cItemsPerBitPackDataUnit cCases : ℕ)
    (dimensionInfo : List ((ℕ → ℕ) × ℕ)) : List ℕ :=
  let cBitsPerItemMax := GetCountBits wordBits cItemsPerBitPackDataUnit
  let cDataUnits := (cCases - 1) / cItemsPerBitPackDataUnit + 1
  (List.range cDataUnits).map fun w =>
    let slots := if w + 1 = cDataUnits
      then (cCases - 1) % cItemsPerBitPackDataUnit + 1
      else cItemsPerBitPackDataUnit
    packWord (caseTensorIndex dimensionInfo) cBitsPerItemMax
      (w * cItemsPerBitPackDataUnit) slots

/-- Reading back one slot: fetch the word, shift down by the slot offset, mask
with `(1 << bits_per_item) - 1` (spec §4.1; the histogram builders in
`BinnedBucket.h` do exactly this).  `x % 2^b = x &&& (2^b - 1)`. -/
def extractSlot (word cBitsPerItemMax slot : ℕ) : ℕ :=
  (word >>> (slot * cBitsPerItemMax)) % 2 ^ cBitsPerItemMax

theorem lor_shiftLeft_eq_add {a : ℕ} {n : ℕ} (h : a < 2 ^ n) (x : ℕ) :
    a ||| (x <<< n) = a + x * 2 ^ n := by
  apply Nat.eq_of_testBit_eq
  intro i
  have hx : x <<< n = x * 2 ^ n := Nat.shiftLeft_eq x n
  have hadd : a + x * 2 ^ n = 2 ^ n * x + a := by ring
  rw [Nat.testBit_lor, Nat.testBit_shiftLeft, hadd,
    Nat.testBit_mul_pow_two_add x h i]
  rcases lt_or_le i n with hi | hi
  · simp [hi, Nat.not_le.mpr hi]
  · have : a.testBit i = false :=
      Nat.testBit_lt_two_pow (lt_of_lt_of_le h (Nat.pow_le_pow_right (by norm_num) hi))
    simp [this, hi, Nat.le_of_lt]

/-- The packed word as a positional sum of its slot digits. -/
theorem packWord_eq_sum (idxOf : ℕ → ℕ) (b firstCase : ℕ)
    (hidx : ∀ i, idxOf i < 2 ^ b) (slots : ℕ) :
    packWord idxOf b firstCase slots
      = ∑ s ∈ Finset.range slots, idxOf (firstCase + s) * 2 ^ (s * b) ∧
    packWord idxOf b firstCase slots < 2 ^ (slots * b) := by
  induction slots with
  | zero => simp [packWord]
  | succ k ih =>
    obtain ⟨ihsum, ihlt⟩ := ih
    have hfold : packWord idxOf b firstCase (k + 1)
        = packWord idxOf b firstCase k
          ||| (idxOf (firstCase + k) <<< (k * b)) := by
      unfold packWord
      rw [List.range_succ, List.foldl_append, List.foldl_cons, List.foldl_nil]
    have hlor := lor_shiftLeft_eq_add ihlt (idxOf (firstCase + k))
    constructor
    · rw [hfold, hlor, ihsum, Finset.sum_range_succ]
    · rw [hfold, hlor, ihsum, ← Finset.sum_range_succ]
      have : ∀ m, (∑ s ∈ Finset.range m, idxOf (firstCase + s) * 2 ^ (s * b))
          < 2 ^ (m * b) := by
        intro m
        induction m with
        | zero => simp
        | succ j ihj =>
          rw [Finset.sum_range_succ]
          have h1 : idxOf (firstCase + j) * 2 ^ (j * b)
              ≤ (2 ^ b - 1) * 2 ^ (j * b) :=
            Nat.mul_le_mul_right _ (Nat.le_sub_one_of_lt (hidx _))
          have h2 : (0:ℕ) < 2 ^ b := Nat.pos_pow_of_pos b (by norm_num)
          have h3 : (0:ℕ) < 2 ^ (j * b) := Nat.pos_pow_of_pos _ (by norm_num)
          calc (∑ s ∈ Finset.range j, idxOf (firstCase + s) * 2 ^ (s * b))
                + idxOf (firstCase + j) * 2 ^ (j * b)
              ≤ (2 ^ (j * b) - 1) + (2 ^ b - 1) * 2 ^ (j * b) := by
                have := Nat.le_sub_one_of_lt ihj
                omega
            _ < 2 ^ ((j + 1) * b) := by
                have : 2 ^ ((j + 1) * b) = 2 ^ b * 2 ^ (j * b) := by
                  rw [← pow_add]; ring_nf
                rw [this]
                have h4 : (2 ^ b - 1) * 2 ^ (j * b) + 2 ^ (j * b)
                    = 2 ^ b * 2 ^ (j * b) := by
                  rw [Nat.sub_mul, Nat.one_mul]
                  have hle : 2 ^ (j * b) ≤ 2 ^ b * 2 ^ (j * b) :=
                    Nat.le_mul_of_pos_left _ h2
                  omega
                omega
      rw [ihsum] at ihlt
      exact this (k + 1)

/-- Digit extraction from a positional sum. -/
theorem extractSlot_sum (idxOf : ℕ → ℕ) (b firstCase : ℕ)
    (hidx : ∀ i, idxOf i < 2 ^ b) (slots s₀ : ℕ) (hs : s₀ < slots) :
    extractSlot (packWord idxOf b firstCase slots) b s₀
      = idxOf (firstCase + s₀) := by
  obtain ⟨hsum, _⟩ := packWord_eq_sum idxOf b firstCase hidx slots
  have hsplit : packWord idxOf b firstCase slots
      = (∑ s ∈ Finset.range s₀, idxOf (firstCase + s) * 2 ^ (s * b))
        + idxOf (firstCase + s₀) * 2 ^ (s₀ * b)
        + (∑ s ∈ Finset.Ico (s₀ + 1) slots, idxOf (firstCase + s) * 2 ^ (s * b)) := by
    rw [hsum, Finset.range_eq_Ico,
      ← Finset.sum_Ico_consecutive _ (Nat.zero_le (s₀ + 1)) hs,
      ← Finset.range_eq_Ico, Finset.sum_range_succ]
  have hlow : (∑ s ∈ Finset.range s₀, idxOf (firstCase + s) * 2 ^ (s * b))
      < 2 ^ (s₀ * b) := by
    obtain ⟨e, l⟩ := packWord_eq_sum idxOf b firstCase hidx s₀
    exact e ▸ l
  have hhigh : (∑ s ∈ Finset.Ico (s₀ + 1) slots, idxOf (firstCase + s) * 2 ^ (s * b))
      = (∑ k ∈ Finset.range (slots - (s₀ + 1)),
          idxOf (firstCase + (s₀ + 1 + k)) * 2 ^ (k * b)) * (2 ^ b * 2 ^ (s₀ * b)) := by
    rw [Finset.sum_Ico_eq_sum_range, Finset.sum_mul]
    refine Finset.sum_congr rfl fun k _ => ?_
    have : (s₀ + 1 + k) * b = k * b + (b + s₀ * b) := by ring
    rw [this, pow_add, pow_add]
    ring
  set L := ∑ s ∈ Finset.range s₀, idxOf (firstCase + s) * 2 ^ (s * b) with hL
  set H := ∑ k ∈ Finset.range (slots - (s₀ + 1)),
    idxOf (firstCase + (s₀ + 1 + k)) * 2 ^ (k * b) with hH
  have hP : (0:ℕ) < 2 ^ (s₀ * b) := Nat.pos_pow_of_pos _ (by norm_num)
  have hrepr : packWord idxOf b firstCase slots
      = L + (idxOf (firstCase + s₀) + H * 2 ^ b) * 2 ^ (s₀ * b) := by
    rw [hsplit, hhigh]; ring
  unfold extractSlot
  rw [hrepr, Nat.shiftRight_eq_div_pow, Nat.add_mul_div_right _ _ hP,
    Nat.div_eq_of_lt hlow, Nat.zero_add, Nat.add_mul_mod_self_right,
    Nat.mod_eq_of_lt (hidx _)]

theorem caseTensorIndex_lt (dimensionInfo : List ((ℕ → ℕ) × ℕ))
    (hinput : ∀ pd ∈ dimensionInfo, ∀ i, pd.1 i < pd.2) (i : ℕ) :
    caseTensorIndex dimensionInfo i < (dimensionInfo.map Prod.snd).prod := by
  apply tensorIndex_lt_prod
  rw [mem_gridTuples]
  induction dimensionInfo with
  | nil => exact List.Forall₂.nil
  | cons pd pds ih =>
    exact List.Forall₂.cons (hinput pd (List.mem_cons_self pd pds) i)
      (ih fun q hq => hinput q (List.mem_cons_of_mem _ hq))

/-- C8: for every case `i` of an attribute combination, `ConstructInputData`
stores the case's mixed-radix tuple index in bit-slot `i % itemsPerWord`
(lowest-order slot = first case) of word `i / itemsPerWord`, and every bit of
the final word at or above its last used slot is zero.  Hypotheses: at least
one case, a positive slot count, the bit-packing-scheme invariant that the
grid size fits in `bits_per_item` bits, and in-range input data. -/
theorem construct_input_data_layout
    (wordBits cItemsPerBitPackDataUnit cCases : ℕ)
    (dimensionInfo : List ((ℕ → ℕ) × ℕ))
    (hCases : 0 < cCases)
    (hItems : 0 < cItemsPerBitPackDataUnit)
    (hfit : (dimensionInfo.map Prod.snd).prod
      ≤ 2 ^ GetCountBits wordBits cItemsPerBitPackDataUnit)
    (hinput : ∀ pd ∈ dimensionInfo, ∀ i, pd.1 i < pd.2) :
    (∀ i, i < cCases →
      extractSlot
        ((ConstructInputData wordBits cItemsPerBitPackDataUnit cCases
            dimensionInfo).getD (i / cItemsPerBitPackDataUnit) 0)
        (GetCountBits wordBits cItemsPerBitPackDataUnit)
        (i % cItemsPerBitPackDataUnit)
      = caseTensorIndex dimensionInfo i) ∧
    (∀ k, ((cCases - 1) % cItemsPerBitPackDataUnit + 1)
        * GetCountBits wordBits cItemsPerBitPackDataUnit ≤ k →
      ((ConstructInputData wordBits cItemsPerBitPackDataUnit cCases
          dimensionInfo).getD ((cCases - 1) / cItemsPerBitPackDataUnit) 0).testBit k
        = false) ∧
    (ConstructInputData wordBits cItemsPerBitPackDataUnit cCases
        dimensionInfo).length
      = (cCases - 1) / cItemsPerBitPackDataUnit + 1 := by
  set b := GetCountBits wordBits cItemsPerBitPackDataUnit with hb
  set items := cItemsPerBitPackDataUnit with hit
  set cDataUnits := (cCases - 1) / items + 1 with hdu
  have hidx : ∀ i, caseTensorIndex dimensionInfo i < 2 ^ b :=
    fun i => lt_of_lt_of_le (caseTensorIndex_lt dimensionInfo hinput i) hfit
  have hlen : (ConstructInputData wordBits items cCases dimensionInfo).length
      = cDataUnits := by
    simp [ConstructInputData]
  have hword : ∀ w, w < cDataUnits →
      (ConstructInputData wordBits items cCases dimensionInfo).getD w 0
        = packWord (caseTensorIndex dimensionInfo) b (w * items)
            (if w + 1 = cDataUnits then (cCases - 1) % items + 1 else items) := by
    intro w hw
    unfold ConstructInputData
    rw [List.getD_eq_getElem?_getD, List.getElem?_map, List.getElem?_range hw]
    rfl
  refine ⟨?_, ?_, hlen⟩
  · intro i hi
    have hdivle : i / items ≤ (cCases - 1) / items :=
      Nat.div_le_div_right (by omega)
    have hwlt : i / items < cDataUnits := by omega
    rw [hword _ hwlt]
    have hslot : i % items
        < (if i / items + 1 = cDataUnits then (cCases - 1) % items + 1 else items) := by
      split
      · next heq =>
        -- last word: `i` and `cCases - 1` share the quotient, so the
        -- remainder of `i` is at most that of `cCases - 1`
        have hq : i / items = (cCases - 1) / items := by omega
        have h1 := Nat.div_add_mod i items
        have h2 := Nat.div_add_mod (cCases - 1) items
        rw [hq] at h1
        omega
      · exact Nat.mod_lt _ hItems
    rw [extractSlot_sum (caseTensorIndex dimensionInfo) b _ hidx _ _ hslot]
    congr 1
    exact Nat.div_add_mod' i items
  · intro k hk
    have hlast : (cCases - 1) / items < cDataUnits := by omega
    rw [hword _ hlast]
    have : (cCases - 1) / items + 1 = cDataUnits := rfl
    rw [if_pos this]
    obtain ⟨_, hlt⟩ := packWord_eq_sum (caseTensorIndex dimensionInfo) b
      ((cCases - 1) / items * items) hidx ((cCases - 1) % items + 1)
    exact Nat.testBit_lt_two_pow
      (lt_of_lt_of_le hlt (Nat.pow_le_pow_right (by norm_num) hk))

theorem construct_input_data_layout_witness :
    extractSlot
        ((ConstructInputData 64 32 5 [(fun _ => 1, 2), (fun i => i % 2, 2)]).getD 0 0)
        (GetCountBits 64 32) 3
      = caseTensorIndex [(fun _ => 1, 2), (fun i => i % 2, 2)] 3 := by
  exact (construct_input_data_layout 64 32 5 [(fun _ => 1, 2), (fun i => i % 2, 2)]
    (by norm_num) (by norm_num) (by norm_num [GetCountBits])
    (by
      intro pd hpd i
      simp only [List.mem_cons, List.not_mem_nil, or_false] at hpd
      rcases hpd with rfl | rfl
      · norm_num
      · exact Nat.mod_lt _ (by norm_num))).1 3 (by norm_num)

/-! ### Range-sum query (`MultiDimensionalTraining.h:679-790`, `GetTotals`)

The prefix-summed cube lives in flat memory; `cube : ℕ → BinnedBucket vl`
models `aBinnedBuckets` (reading flat offset `o` yields the bucket stored
there).  `pRet` accumulation via `Zero`/`Add`/`Subtract` is a signed fold. -/

structure TotalsDimension where
  cIncrement : ℕ
  cLast : ℕ
deriving DecidableEq

/-- The setup loop of `GetTotals` (`MultiDimensionalTraining.h:734-753`,
shared accumulation with the `0 == directionVector` loop at 704-713): walk the
`(cStates, point)` pairs consuming direction bits; a low axis folds
`multipleTotalInitialize * p` into `startingOffset`, a high axis appends a
`TotalsDimension` entry.  Returns the entry list and the starting offset. -/
def GetTotalsSetup : List (ℕ × ℕ) → ℕ → ℕ → ℕ → List TotalsDimension × ℕ
  | [], _, _, startingOffset => ([], startingOffset)
  | (cStates, p) :: rest, directionVectorDestroy, multipleTotalInitialize,
      startingOffset =>
    if directionVectorDestroy % 2 = 1 then
      let cLast := multipleTotalInitialize * (cStates - 1)
      let res := GetTotalsSetup rest (directionVectorDestroy / 2)
        (multipleTotalInitialize + cLast) startingOffset
      (⟨multipleTotalInitialize * p, cLast⟩ :: res.1, res.2)
    else
      GetTotalsSetup rest (directionVectorDestroy / 2)
        (multipleTotalInitialize * cStates)
        (startingOffset + multipleTotalInitialize * p)

/-- The inner offset/parity loop of `GetTotals`
(`MultiDimensionalTraining.h:764-771`): consume one permute bit per
`TotalsDimension` entry, adding `cLast` (bit set) or `cIncrement` (bit clear)
to the offset and xor-ing the shifted permute vector into `evenOdd`. -/
def permuteStep : List TotalsDimension → ℕ → ℕ → ℕ → ℕ × ℕ
  | [], _, offsetPointer, evenOdd => (offsetPointer, evenOdd)
  | td :: rest, permuteVectorDestroy, offsetPointer, evenOdd =>
    permuteStep rest (permuteVectorDestroy / 2)
      (offsetPointer +
        (if permuteVectorDestroy % 2 = 1 then td.cLast else td.cIncrement))
      (evenOdd ^^^ permuteVectorDestroy)

/-- `GetTotals` (`MultiDimensionalTraining.h:684-790`).  `directionVector = 0`
is the single-read special case (lines 704-720); otherwise the
`permuteVector` loop adds or subtracts one cube cell per subset of the high
axes, subtracting when bit 0 of the final `evenOdd` is set. -/
def GetTotals {vl : ℕ} (cube : ℕ → BinnedBucket vl) (cStates point : List ℕ)
    (directionVector : ℕ) : BinnedBucket vl :=
  if directionVector = 0 then
    cube (GetTotalsSetup (cStates.zip point) 0 1 0).2
  else
    let setup := GetTotalsSetup (cStates.zip point) directionVector 1 0
    let totalsDimension := setup.1
    let startingOffset := setup.2
    let cAllBits := totalsDimension.length
    (List.range (2 ^ cAllBits)).foldl
      (fun pRet permuteVector =>
        let st := permuteStep totalsDimension permuteVector startingOffset
          cAllBits
        if st.2 % 2 = 1 then pRet - cube st.1 else pRet + cube st.1)
      0

/-- Membership in the box selected by a point and a direction vector: axis
extent `[0..p_d]` where bit `d` is clear, `[p_d+1 .. cStates_d-1]` where set
(upper end automatic for grid tuples). -/
def dirBoxMem : List ℕ → List ℕ → ℕ → Bool
  | [], [], _ => true
  | q :: qs, p :: ps, v =>
    (if v % 2 = 1 then decide (p + 1 ≤ q) else decide (q ≤ p))
      && dirBoxMem qs ps (v / 2)
  | _, _, _ => false

/-- The sum of `f` over the grid tuples of `cs` satisfying `P`. -/
def tupleSum {M : Type} [AddCommGroup M] (cs : List ℕ) (P : List ℕ → Bool)
    (f : List ℕ → M) : M :=
  (((gridTuples cs).filter P).map f).sum

/-- The corner of the prefix cube read for permute vector `m`: a high axis
(direction bit set) reads `cStates - 1` when its permute bit is set and `p`
otherwise; a low axis always reads `p`. -/
def cornerTuple : List ℕ → List ℕ → ℕ → ℕ → List ℕ
  | c :: cs, p :: ps, v, m =>
    if v % 2 = 1 then
      (if m % 2 = 1 then c - 1 else p) :: cornerTuple cs ps (v / 2) (m / 2)
    else p :: cornerTuple cs ps (v / 2) m
  | _, _, _, _ => []

/-- Number of set direction bits among the axes (`cAllBits`). -/
def cHighBits : List ℕ → ℕ → ℕ
  | [], _ => 0
  | _ :: cs, v => v % 2 + cHighBits cs (v / 2)

/-- Number of set bits of a permute vector. -/
def countOnes (m : ℕ) : ℕ :=
  if m = 0 then 0 else m % 2 + countOnes (m / 2)
termination_by m
decreasing_by exact Nat.div_lt_self (Nat.pos_of_ne_zero (by assumption)) one_lt_two

/-! Generic finite-sum helpers used by the range-sum and fast-totals proofs. -/

section SumHelpers

variable {α β : Type} {M : Type} [AddCommGroup M]

theorem sum_flatMap (l : List α) (g : α → List M) :
    (l.flatMap g).sum = (l.map (fun a => (g a).sum)).sum := by
  induction l with
  | nil => rfl
  | cons a l ih => simp [List.flatMap_cons, List.sum_append, ih]

theorem list_sum_comm (l1 : List α) (l2 : List β) (g : α → β → M) :
    (l1.map (fun a => (l2.map (g a)).sum)).sum
      = (l2.map (fun b => (l1.map (fun a => g a b)).sum)).sum := by
  induction l1 with
  | nil => simp
  | cons a l1 ih =>
    simp only [List.map_cons, List.sum_cons, ih]
    rw [← List.sum_map_add]

theorem finset_list_sum_comm (s : Finset α) (l : List β) (g : α → β → M) :
    ∑ a ∈ s, (l.map (g a)).sum = (l.map (fun b => ∑ a ∈ s, g a b)).sum := by
  induction l with
  | nil => simp
  | cons b l ih =>
    simp only [List.map_cons, List.sum_cons, Finset.sum_add_distrib, ih]

theorem list_sum_map_neg (l : List α) (f : α → M) :
    (l.map (fun a => -f a)).sum = -(l.map f).sum := by
  induction l with
  | nil => simp
  | cons a l ih => simp [ih]; abel

theorem sum_map_ite_filter (l : List α) (P : α → Bool) (f : α → M) :
    (l.map (fun a => if P a then f a else 0)).sum = ((l.filter P).map f).sum := by
  induction l with
  | nil => rfl
  | cons a l ih =>
    by_cases h : P a <;> simp [List.filter_cons, h, ih]

theorem sum_filter_sub_sum_filter (l : List α) (P : α → Bool) (f : α → M) :
    (l.map f).sum - ((l.filter P).map f).sum
      = ((l.filter (fun a => !P a)).map f).sum := by
  induction l with
  | nil => simp
  | cons a l ih =>
    by_cases h : P a <;> simp [List.filter_cons, h, ← ih] <;> abel

theorem sum_range_double (f : ℕ → M) (n : ℕ) :
    ∑ m ∈ Finset.range (2 * n), f m
      = ∑ j ∈ Finset.range n, (f (2 * j) + f (2 * j + 1)) := by
  induction n with
  | zero => simp
  | succ k ih =>
    have h2 : 2 * (k + 1) = (2 * k + 1) + 1 := by ring
    rw [h2, Finset.sum_range_succ, Finset.sum_range_succ, ih,
      Finset.sum_range_succ]
    rw [add_assoc]

theorem sum_finset_range_eq_list (f : ℕ → M) (n : ℕ) :
    ∑ i ∈ Finset.range n, f i = ((List.range n).map f).sum := by
  induction n with
  | zero => simp
  | succ k ih =>
    rw [Finset.sum_range_succ, List.range_succ, List.map_append,
      List.sum_append, ih]
    simp

theorem foldl_signed_sum (sign : ℕ → Prop) [DecidablePred sign] (g : ℕ → M)
    (l : List ℕ) (init : M) :
    l.foldl (fun acc m => if sign m then acc - g m else acc + g m) init
      = init + (l.map (fun m => if sign m then -g m else g m)).sum := by
  induction l generalizing init with
  | nil => simp
  | cons a l ih =>
    simp only [List.foldl_cons, ih, List.map_cons, List.sum_cons]
    split <;> abel

end SumHelpers

theorem xor_mod_two (a b : ℕ) : (a ^^^ b) % 2 = (a % 2 + b % 2) % 2 := by
  rw [← Nat.and_one_is_mod, Nat.and_xor_distrib_right, Nat.and_one_is_mod,
    Nat.and_one_is_mod]
  have ha := Nat.mod_two_eq_zero_or_one a
  have hb := Nat.mod_two_eq_zero_or_one b
  rcases ha with h1 | h1 <;> rcases hb with h2 | h2 <;> rw [h1, h2] <;> rfl

theorem countOnes_zero : countOnes 0 = 0 := by unfold countOnes; simp

theorem countOnes_eq (m : ℕ) : countOnes m = m % 2 + countOnes (m / 2) := by
  by_cases h : m = 0
  · subst h; simp [countOnes_zero]
  · conv_lhs => rw [countOnes]
    rw [if_neg h]

theorem countOnes_two_mul (j : ℕ) : countOnes (2 * j) = countOnes j := by
  rw [countOnes_eq]
  simp [Nat.mul_div_cancel_left, Nat.mul_mod_right]

theorem countOnes_two_mul_add_one (j : ℕ) :
    countOnes (2 * j + 1) = 1 + countOnes j := by
  rw [countOnes_eq]
  have h1 : (2 * j + 1) % 2 = 1 := by omega
  have h2 : (2 * j + 1) / 2 = j := by omega
  rw [h1, h2]

/-- Offset contribution of the subset encoded by permute vector `m`. -/
def subsetOffset : List TotalsDimension → ℕ → ℕ
  | [], _ => 0
  | td :: rest, m =>
    (if m % 2 = 1 then td.cLast else td.cIncrement) + subsetOffset rest (m / 2)

theorem permuteStep_spec (tds : List TotalsDimension) :
    ∀ m off eo, m < 2 ^ tds.length →
      (permuteStep tds m off eo).1 = off + subsetOffset tds m ∧
      (permuteStep tds m off eo).2 % 2 = (eo + countOnes m) % 2 := by
  induction tds with
  | nil =>
    intro m off eo hm
    have : m = 0 := by simpa using hm
    subst this
    simp [permuteStep, subsetOffset, countOnes_zero]
  | cons td rest ih =>
    intro m off eo hm
    have hm2 : m / 2 < 2 ^ rest.length := by
      have h2 : (2:ℕ) ^ (td :: rest).length = 2 * 2 ^ rest.length := by
        rw [List.length_cons, pow_succ]; ring
      omega
    obtain ⟨h1, h2⟩ := ih (m / 2)
      (off + (if m % 2 = 1 then td.cLast else td.cIncrement)) (eo ^^^ m) hm2
    constructor
    · rw [permuteStep, h1, subsetOffset]
      ring
    · rw [permuteStep, h2, countOnes_eq m]
      conv_lhs => rw [Nat.add_mod, xor_mod_two]
      conv_rhs => rw [Nat.add_mod, Nat.add_mod (m % 2) (countOnes (m / 2))]
      omega

/-- `cornerTuple` with direction `0` is the point itself. -/
theorem cornerTuple_zero {point cs : List ℕ}
    (h : List.Forall₂ (· < ·) point cs) (m : ℕ) :
    cornerTuple cs point 0 m = point := by
  induction h generalizing m with
  | nil => rfl
  | cons hab hrest ih => simp [cornerTuple, ih]

theorem cornerTuple_mem {point cs : List ℕ}
    (h : List.Forall₂ (· < ·) point cs) (v m : ℕ) :
    cornerTuple cs point v m ∈ gridTuples cs := by
  rw [mem_gridTuples]
  induction h generalizing v m with
  | nil => exact List.Forall₂.nil
  | @cons p c ps cs hab hrest ih =>
    by_cases hv : v % 2 = 1
    · simp only [cornerTuple, hv, if_true]
      refine List.Forall₂.cons ?_ (ih _ _)
      split
      · omega
      · exact hab
    · simp only [cornerTuple, hv, if_false]
      exact List.Forall₂.cons hab (ih _ _)

/-- Relation between the setup loop, the per-subset offsets, and the flat
index of the corner tuple. -/
theorem GetTotalsSetup_spec {point cs : List ℕ}
    (h : List.Forall₂ (· < ·) point cs) :
    ∀ (v mult acc : ℕ),
      (GetTotalsSetup (cs.zip point) v mult acc).1.length = cHighBits cs v ∧
      ∀ m, acc + mult * tensorIndex cs (cornerTuple cs point v m)
          = (GetTotalsSetup (cs.zip point) v mult acc).2
            + subsetOffset (GetTotalsSetup (cs.zip point) v mult acc).1 m := by
  induction h with
  | nil =>
    intro v mult acc
    exact ⟨rfl, fun m => by simp [GetTotalsSetup, subsetOffset]⟩
  | @cons p c ps cs hab hrest ih =>
    intro v mult acc
    have hc1 : 1 ≤ c := Nat.one_le_iff_ne_zero.mpr (by omega)
    by_cases hv : v % 2 = 1
    · have hmult : mult + mult * (c - 1) = mult * c := by
        have : 1 + (c - 1) = c := by omega
        calc mult + mult * (c - 1) = mult * (1 + (c - 1)) := by ring
          _ = mult * c := by rw [this]
      obtain ⟨ihlen, ihoff⟩ := ih (v / 2) (mult + mult * (c - 1)) acc
      simp only [List.zip] at ihlen ihoff
      constructor
      · simp only [List.zip_cons_cons, GetTotalsSetup, hv, if_true,
          List.length_cons, cHighBits]
        rw [ihlen]
        omega
      · intro m
        simp only [List.zip_cons_cons, GetTotalsSetup, hv, if_true,
          subsetOffset, cornerTuple, tensorIndex_cons]
        have key := ihoff (m / 2)
        rcases Nat.mod_two_eq_zero_or_one m with hm | hm
        · rw [if_neg (by omega), if_neg (by omega)]
          have e1 : mult * (p + c * tensorIndex cs (cornerTuple cs ps (v / 2) (m / 2)))
              = mult * p
                + (mult + mult * (c - 1))
                  * tensorIndex cs (cornerTuple cs ps (v / 2) (m / 2)) := by
            rw [hmult]; ring
          omega
        · rw [if_pos hm, if_pos hm]
          have e1 : mult * ((c - 1) + c * tensorIndex cs (cornerTuple cs ps (v / 2) (m / 2)))
              = mult * (c - 1)
                + (mult + mult * (c - 1))
                  * tensorIndex cs (cornerTuple cs ps (v / 2) (m / 2)) := by
            rw [hmult]; ring
          omega
    · obtain ⟨ihlen, ihoff⟩ := ih (v / 2) (mult * c) (acc + mult * p)
      simp only [List.zip] at ihlen ihoff
      constructor
      · simp only [List.zip_cons_cons, GetTotalsSetup, hv, if_false, ihlen,
          cHighBits]
        omega
      · intro m
        simp only [List.zip_cons_cons, GetTotalsSetup, hv, if_false,
          cornerTuple, tensorIndex_cons]
        rw [← ihoff m]
        ring

/-- Splitting a grid sum along dimension 0 for a predicate that decomposes
componentwise. -/
theorem tupleSum_cons {M : Type} [AddCommGroup M] (c : ℕ) (cs : List ℕ)
    (P : List ℕ → Bool) (p0 : ℕ → Bool) (prest : List ℕ → Bool)
    (hP : ∀ q0 qs, P (q0 :: qs) = (p0 q0 && prest qs)) (f : List ℕ → M) :
    tupleSum (c :: cs) P f
      = (((gridTuples cs).filter prest).map
          (fun t => (((List.range c).filter p0).map (fun q0 => f (q0 :: t))).sum)).sum := by
  unfold tupleSum
  rw [gridTuples_cons, List.filter_flatMap, List.map_flatMap, sum_flatMap]
  have inner : ∀ t, ((List.filter P ((List.range c).map (· :: t))).map f).sum
      = if prest t then (((List.range c).filter p0).map (fun q0 => f (q0 :: t))).sum
        else 0 := by
    intro t
    rw [List.filter_map]
    have : (P ∘ (· :: t)) = fun q0 => p0 q0 && prest t := by
      funext q0; exact hP q0 t
    rw [this]
    by_cases h : prest t
    · rw [if_pos h]
      have hfilter : (List.range c).filter (fun q0 => p0 q0 && prest t)
          = (List.range c).filter p0 :=
        List.filter_congr fun q0 _ => by rw [h, Bool.and_true]
      rw [hfilter, List.map_map]
      rfl
    · rw [if_neg h]
      have : (List.range c).filter (fun q0 => p0 q0 && prest t) = [] := by
        refine List.filter_eq_nil_iff.mpr fun q0 _ => ?_
        simp [Bool.eq_false_iff.mpr h]
      rw [this]
      rfl
  calc ((gridTuples cs).map
          (fun t => ((List.filter P ((List.range c).map (· :: t))).map f).sum)).sum
      = ((gridTuples cs).map (fun t => if prest t
          then (((List.range c).filter p0).map (fun q0 => f (q0 :: t))).sum
          else 0)).sum := by
        congr 1; exact List.map_congr_left fun t _ => inner t
    _ = (((gridTuples cs).filter prest).map
          (fun t => (((List.range c).filter p0).map (fun q0 => f (q0 :: t))).sum)).sum := by
        rw [sum_map_ite_filter]

theorem ite_neg_sum {α : Type} {M : Type} [AddCommGroup M] (b : Prop)
    [Decidable b] (l : List α) (F : α → M) :
    (if b then -(l.map F).sum else (l.map F).sum)
      = (l.map (fun a => if b then -F a else F a)).sum := by
  by_cases h : b
  · simp only [h, if_true, list_sum_map_neg]
  · simp only [h, if_false]

/-- Inclusion–exclusion over the high axes: the signed sum of prefix-box
sums at the `2^k` corner tuples equals the direction-box sum. -/
theorem inclusion_exclusion {vl : ℕ} :
    ∀ (cs point : List ℕ), List.Forall₂ (· < ·) point cs →
    ∀ (orig : List ℕ → BinnedBucket vl) (v : ℕ),
    (∑ m ∈ Finset.range (2 ^ cHighBits cs v),
      if (cHighBits cs v + countOnes m) % 2 = 1
        then -(tupleSum cs (fun r => tupleLE r (cornerTuple cs point v m)) orig)
        else tupleSum cs (fun r => tupleLE r (cornerTuple cs point v m)) orig)
      = tupleSum cs (fun q => dirBoxMem q point v) orig := by
  intro cs
  induction cs with
  | nil =>
    intro point h orig v
    cases h
    simp [cHighBits, countOnes_zero, tupleSum, cornerTuple, dirBoxMem,
      tupleLE]
  | cons c cs ih =>
    intro point h orig v
    cases h with
    | cons hab hrest =>
      rename_i p ps
      have hc1 : 1 ≤ c := by omega
      rcases Nat.mod_two_eq_zero_or_one v with hv | hv
      · -- dimension 0 is a low axis
        have hk : cHighBits (c :: cs) v = cHighBits cs (v / 2) := by
          simp [cHighBits, hv]
        have hcorner : ∀ m, cornerTuple (c :: cs) (p :: ps) v m
            = p :: cornerTuple cs ps (v / 2) m := by
          intro m; simp [cornerTuple, hv]
        have hLHSm : ∀ m,
            tupleSum (c :: cs)
                (fun r => tupleLE r (cornerTuple (c :: cs) (p :: ps) v m)) orig
              = (((List.range c).filter (fun q0 => decide (q0 ≤ p))).map
                  (fun q0 => tupleSum cs
                    (fun r => tupleLE r (cornerTuple cs ps (v / 2) m))
                    (fun qs => orig (q0 :: qs)))).sum := by
          intro m
          rw [hcorner m,
            tupleSum_cons c cs _ (fun q0 => decide (q0 ≤ p))
              (fun qs => tupleLE qs (cornerTuple cs ps (v / 2) m))
              (fun q0 qs => rfl) orig,
            list_sum_comm]
          rfl
        rw [hk]
        calc (∑ m ∈ Finset.range (2 ^ cHighBits cs (v / 2)),
              if (cHighBits cs (v / 2) + countOnes m) % 2 = 1
                then -(tupleSum (c :: cs)
                  (fun r => tupleLE r (cornerTuple (c :: cs) (p :: ps) v m)) orig)
                else tupleSum (c :: cs)
                  (fun r => tupleLE r (cornerTuple (c :: cs) (p :: ps) v m)) orig)
            = ∑ m ∈ Finset.range (2 ^ cHighBits cs (v / 2)),
                (((List.range c).filter (fun q0 => decide (q0 ≤ p))).map
                  (fun q0 => if (cHighBits cs (v / 2) + countOnes m) % 2 = 1
                    then -(tupleSum cs
                      (fun r => tupleLE r (cornerTuple cs ps (v / 2) m))
                      (fun qs => orig (q0 :: qs)))
                    else tupleSum cs
                      (fun r => tupleLE r (cornerTuple cs ps (v / 2) m))
                      (fun qs => orig (q0 :: qs)))).sum := by
              refine Finset.sum_congr rfl fun m _ => ?_
              rw [hLHSm m, ite_neg_sum]
          _ = (((List.range c).filter (fun q0 => decide (q0 ≤ p))).map
                (fun q0 => tupleSum cs (fun q => dirBoxMem q ps (v / 2))
                  (fun qs => orig (q0 :: qs)))).sum := by
              rw [finset_list_sum_comm]
              congr 1
              refine List.map_congr_left fun q0 _ => ?_
              exact ih ps hrest (fun qs => orig (q0 :: qs)) (v / 2)
          _ = tupleSum (c :: cs) (fun q => dirBoxMem q (p :: ps) v) orig := by
              rw [tupleSum_cons c cs _ (fun q0 => decide (q0 ≤ p))
                (fun qs => dirBoxMem qs ps (v / 2))
                (fun q0 qs => by simp [dirBoxMem, hv]) orig,
                list_sum_comm]
              rfl
      · -- dimension 0 is a high axis
        have hk : cHighBits (c :: cs) v = 1 + cHighBits cs (v / 2) := by
          simp [cHighBits, hv]
        have hpow : (2:ℕ) ^ (1 + cHighBits cs (v / 2))
            = 2 * 2 ^ cHighBits cs (v / 2) := by
          rw [pow_add, pow_one]
        have hcornerEven : ∀ j, cornerTuple (c :: cs) (p :: ps) v (2 * j)
            = p :: cornerTuple cs ps (v / 2) j := by
          intro j
          have h1 : (2 * j) % 2 = 0 := by omega
          have h2 : (2 * j) / 2 = j := by omega
          simp [cornerTuple, hv, h1, h2]
        have hcornerOdd : ∀ j, cornerTuple (c :: cs) (p :: ps) v (2 * j + 1)
            = (c - 1) :: cornerTuple cs ps (v / 2) j := by
          intro j
          have h1 : (2 * j + 1) % 2 = 1 := by omega
          have h2 : (2 * j + 1) / 2 = j := by omega
          simp [cornerTuple, hv, h1, h2]
        -- the two reads of one pair combine to a sum over the high q0-range
        have hsplit : ∀ (x : List ℕ),
            tupleSum (c :: cs) (fun r => tupleLE r ((c - 1) :: x)) orig
              - tupleSum (c :: cs) (fun r => tupleLE r (p :: x)) orig
            = (((List.range c).filter (fun q0 => decide (p + 1 ≤ q0))).map
                (fun q0 => tupleSum cs (fun r => tupleLE r x)
                  (fun qs => orig (q0 :: qs)))).sum := by
          intro x
          have hall : (List.range c).filter (fun q0 => decide (q0 ≤ c - 1))
              = List.range c := by
            refine List.filter_eq_self.mpr fun q0 hq0 => ?_
            have := List.mem_range.mp hq0
            simp; omega
          have hcompl : (List.range c).filter (fun q0 => !decide (q0 ≤ p))
              = (List.range c).filter (fun q0 => decide (p + 1 ≤ q0)) := by
            refine List.filter_congr fun q0 _ => ?_
            by_cases h : q0 ≤ p
            · simp [h]; omega
            · simp [h]; omega
          have e1 : tupleSum (c :: cs) (fun r => tupleLE r ((c - 1) :: x)) orig
              = ((List.range c).map
                  (fun q0 => tupleSum cs (fun r => tupleLE r x)
                    (fun qs => orig (q0 :: qs)))).sum := by
            rw [tupleSum_cons c cs _ (fun q0 => decide (q0 ≤ c - 1))
              (fun qs => tupleLE qs x) (fun q0 qs => rfl) orig, hall,
              list_sum_comm]
            rfl
          have e2 : tupleSum (c :: cs) (fun r => tupleLE r (p :: x)) orig
              = (((List.range c).filter (fun q0 => decide (q0 ≤ p))).map
                  (fun q0 => tupleSum cs (fun r => tupleLE r x)
                    (fun qs => orig (q0 :: qs)))).sum := by
            rw [tupleSum_cons c cs _ (fun q0 => decide (q0 ≤ p))
              (fun qs => tupleLE qs x) (fun q0 qs => rfl) orig,
              list_sum_comm]
            rfl
          rw [e1, e2, ← hcompl, ← sum_filter_sub_sum_filter]
        rw [hk, hpow, sum_range_double]
        calc (∑ j ∈ Finset.range (2 ^ cHighBits cs (v / 2)),
              ((if (1 + cHighBits cs (v / 2) + countOnes (2 * j)) % 2 = 1
                then -(tupleSum (c :: cs)
                  (fun r => tupleLE r (cornerTuple (c :: cs) (p :: ps) v (2 * j))) orig)
                else tupleSum (c :: cs)
                  (fun r => tupleLE r (cornerTuple (c :: cs) (p :: ps) v (2 * j))) orig)
              + (if (1 + cHighBits cs (v / 2) + countOnes (2 * j + 1)) % 2 = 1
                then -(tupleSum (c :: cs)
                  (fun r => tupleLE r (cornerTuple (c :: cs) (p :: ps) v (2 * j + 1))) orig)
                else tupleSum (c :: cs)
                  (fun r => tupleLE r (cornerTuple (c :: cs) (p :: ps) v (2 * j + 1))) orig)))
            = ∑ j ∈ Finset.range (2 ^ cHighBits cs (v / 2)),
                (((List.range c).filter (fun q0 => decide (p + 1 ≤ q0))).map
                  (fun q0 => if (cHighBits cs (v / 2) + countOnes j) % 2 = 1
                    then -(tupleSum cs
                      (fun r => tupleLE r (cornerTuple cs ps (v / 2) j))
                      (fun qs => orig (q0 :: qs)))
                    else tupleSum cs
                      (fun r => tupleLE r (cornerTuple cs ps (v / 2) j))
                      (fun qs => orig (q0 :: qs)))).sum := by
              refine Finset.sum_congr rfl fun j _ => ?_
              rw [hcornerEven j, hcornerOdd j, countOnes_two_mul,
                countOnes_two_mul_add_one, ← ite_neg_sum, ← hsplit]
              rcases Nat.mod_two_eq_zero_or_one
                  (cHighBits cs (v / 2) + countOnes j) with hpar | hpar
              · rw [if_pos (by omega), if_neg (by omega), if_neg (by omega)]
                abel
              · rw [if_neg (by omega), if_pos (by omega), if_pos (by omega)]
                abel
          _ = (((List.range c).filter (fun q0 => decide (p + 1 ≤ q0))).map
                (fun q0 => tupleSum cs (fun q => dirBoxMem q ps (v / 2))
                  (fun qs => orig (q0 :: qs)))).sum := by
              rw [finset_list_sum_comm]
              congr 1
              refine List.map_congr_left fun q0 _ => ?_
              exact ih ps hrest (fun qs => orig (q0 :: qs)) (v / 2)
          _ = tupleSum (c :: cs) (fun q => dirBoxMem q (p :: ps) v) orig := by
              rw [tupleSum_cons c cs _ (fun q0 => decide (p + 1 ≤ q0))
                (fun qs => dirBoxMem qs ps (v / 2))
                (fun q0 qs => by simp [dirBoxMem, hv]) orig,
                list_sum_comm]
              rfl

theorem cHighBits_zero (cs : List ℕ) : cHighBits cs 0 = 0 := by
  induction cs with
  | nil => rfl
  | cons c cs ih => simp [cHighBits, ih]

theorem dirBoxMem_zero (q point : List ℕ) :
    dirBoxMem q point 0 = tupleLE q point := by
  induction q generalizing point with
  | nil => cases point <;> rfl
  | cons q0 qs ih =>
    cases point with
    | nil => rfl
    | cons p ps => simp [dirBoxMem, tupleLE, ih]

/-- C3: on a prefix-summed cube (`hcube`), `GetTotals` returns the sum of the
original histogram's accumulators over the box whose axis-`d` extent is
`[0..p_d]` when direction bit `d` is clear and `[p_d+1..cStates_d-1]` when
set; and for `directionVector = 0` the result is the single cube value read
at `p`. -/
theorem GetTotals_range_sum {vl : ℕ} (orig cube : ℕ → BinnedBucket vl)
    (cs point : List ℕ) (hpoint : List.Forall₂ (· < ·) point cs)
    (v : ℕ) (hv : v < 2 ^ cs.length)
    (hcube : ∀ q ∈ gridTuples cs,
      cube (tensorIndex cs q)
        = tupleSum cs (fun r => tupleLE r q) (fun r => orig (tensorIndex cs r))) :
    GetTotals cube cs point v
        = tupleSum cs (fun q => dirBoxMem q point v)
            (fun r => orig (tensorIndex cs r))
      ∧ (v = 0 → GetTotals cube cs point v = cube (tensorIndex cs point)) := by
  obtain ⟨hlen, hoff⟩ := GetTotalsSetup_spec hpoint v 1 0
  have hoff' : ∀ m, tensorIndex cs (cornerTuple cs point v m)
      = (GetTotalsSetup (cs.zip point) v 1 0).2
        + subsetOffset (GetTotalsSetup (cs.zip point) v 1 0).1 m := by
    intro m
    have := hoff m
    omega
  by_cases hv0 : v = 0
  · subst hv0
    obtain ⟨hlen0, hoff0⟩ := GetTotalsSetup_spec hpoint 0 1 0
    have htds : (GetTotalsSetup (cs.zip point) 0 1 0).1 = [] := by
      rw [← List.length_eq_zero, hlen0, cHighBits_zero]
    have hso : (GetTotalsSetup (cs.zip point) 0 1 0).2
        = tensorIndex cs point := by
      have := hoff0 0
      rw [htds] at this
      simp only [subsetOffset, Nat.add_zero, Nat.zero_add, Nat.one_mul] at this
      rw [← this, cornerTuple_zero hpoint]
    have hval : GetTotals cube cs point 0 = cube (tensorIndex cs point) := by
      simp [GetTotals, hso]
    refine ⟨?_, fun _ => hval⟩
    rw [hval, hcube point (mem_gridTuples.mpr hpoint)]
    unfold tupleSum
    congr 1
    refine congrArg _ (List.filter_congr fun q _ => ?_)
    rw [dirBoxMem_zero]
  · have hunfold : GetTotals cube cs point v
        = (List.range
            (2 ^ (GetTotalsSetup (cs.zip point) v 1 0).1.length)).foldl
          (fun pRet permuteVector =>
            if (permuteStep (GetTotalsSetup (cs.zip point) v 1 0).1
                permuteVector (GetTotalsSetup (cs.zip point) v 1 0).2
                (GetTotalsSetup (cs.zip point) v 1 0).1.length).2 % 2 = 1
            then pRet - cube (permuteStep (GetTotalsSetup (cs.zip point) v 1 0).1
                permuteVector (GetTotalsSetup (cs.zip point) v 1 0).2
                (GetTotalsSetup (cs.zip point) v 1 0).1.length).1
            else pRet + cube (permuteStep (GetTotalsSetup (cs.zip point) v 1 0).1
                permuteVector (GetTotalsSetup (cs.zip point) v 1 0).2
                (GetTotalsSetup (cs.zip point) v 1 0).1.length).1) 0 := by
      simp only [GetTotals, if_neg hv0]
    constructor
    swap
    · intro h; exact absurd h hv0
    rw [hunfold,
      foldl_signed_sum
        (fun m => (permuteStep (GetTotalsSetup (cs.zip point) v 1 0).1 m
          (GetTotalsSetup (cs.zip point) v 1 0).2
          (GetTotalsSetup (cs.zip point) v 1 0).1.length).2 % 2 = 1)
        (fun m => cube (permuteStep (GetTotalsSetup (cs.zip point) v 1 0).1 m
          (GetTotalsSetup (cs.zip point) v 1 0).2
          (GetTotalsSetup (cs.zip point) v 1 0).1.length).1),
      zero_add, ← sum_finset_range_eq_list]
    rw [← inclusion_exclusion cs point hpoint
      (fun r => orig (tensorIndex cs r)) v, hlen]
    refine Finset.sum_congr rfl fun m hm => ?_
    have hmlt : m < 2 ^ (GetTotalsSetup (cs.zip point) v 1 0).1.length := by
      rw [hlen]; exact Finset.mem_range.mp hm
    obtain ⟨hs1, hs2⟩ := permuteStep_spec (GetTotalsSetup (cs.zip point) v 1 0).1
      m (GetTotalsSetup (cs.zip point) v 1 0).2 (cHighBits cs v) hmlt
    rw [hs1, ← hoff' m,
      hcube (cornerTuple cs point v m) (cornerTuple_mem hpoint v m)]
    have hcond : ((permuteStep (GetTotalsSetup (cs.zip point) v 1 0).1 m
        (GetTotalsSetup (cs.zip point) v 1 0).2 (cHighBits cs v)).2 % 2 = 1)
        ↔ ((cHighBits cs v + countOnes m) % 2 = 1) := by
      rw [hs2]
    by_cases hpar : (cHighBits cs v + countOnes m) % 2 = 1
    · rw [if_pos (hcond.mpr hpar), if_pos hpar]
    · rw [if_neg (fun hh => hpar (hcond.mp hh)), if_neg hpar]

/-- Spec scenario 3 histogram `[[1,2],[3,4]]` with its prefix cube
`[[1,3],[4,10]]` (counts only, `cVectorLength = 0`). -/
def scenario3orig : ℕ → BinnedBucket 0 :=
  fun k => ⟨([1, 2, 3, 4] : List ℤ).getD k 0, fun i => i.elim0, fun i => i.elim0⟩

def scenario3cube : ℕ → BinnedBucket 0 :=
  fun k => ⟨([1, 3, 4, 10] : List ℤ).getD k 0, fun i => i.elim0, fun i => i.elim0⟩

theorem GetTotals_range_sum_witness :
    GetTotals scenario3cube [2, 2] [0, 0] 3
      = tupleSum [2, 2] (fun q => dirBoxMem q [0, 0] 3)
          (fun r => scenario3orig (tensorIndex [2, 2] r)) :=
  (GetTotals_range_sum scenario3orig scenario3cube [2, 2] [0, 0]
    (by decide) 3 (by decide)
    (by
      intro q hq
      fin_cases hq <;>
        exact BinnedBucket.ext (by decide) (funext fun i => i.elim0)
          (funext fun i => i.elim0))).1

/-! ### Fast-totals transform (`MultiDimensionalTraining.h:376-491`,
`BuildFastTotals`)

State: the flat bucket cube `main` (`aBinnedBuckets`) and one wraparound ring
per dimension (`FastTotalState2`; ring `d` occupies the `Π_{d'<d} cStates_{d'}`
buckets starting at `pDimensionalFirst`, disjoint from the main space).  Ring
`d`'s cursor `pDimensionalCur` starts at its first bucket and advances by one
per processed cell, wrapping at the ring size, so at the cell with tuple `t`
it sits at ring position `tensorIndex (cs.take d) (t.take d)`; the odometer
(`iCur`/`cStates`, lines 470-489) zeroes ring `d` (`memset`, line 479) at the
end of an iteration exactly when dimensions `0..d` all just wrapped, i.e. when
the processed cell is at the maximum state in every dimension `≤ d`.  A ring
is modelled as a total function `ℕ → BinnedBucket vl` and the `memset` as
zeroing the whole function (positions at or beyond the ring size are never
read or written). -/

structure FastTotalState (vl : ℕ) where
  main : ℕ → BinnedBucket vl
  rings : List (ℕ → BinnedBucket vl)

/-- One rung of the cascade `for(iDimension = cDimensions-1; 0 <= iDimension;
--iDimension) { pAddTo->Add(*pAddPrev); pAddPrev = pAddTo; … }`
(`MultiDimensionalTraining.h:444-453`): fold the running value into ring
`iDimension` at its cursor and pass the updated bucket down. -/
def cascadeStep {vl : ℕ} (cs t : List ℕ)
    (st : List (ℕ → BinnedBucket vl) × BinnedBucket vl) (iDimension : ℕ) :
    List (ℕ → BinnedBucket vl) × BinnedBucket vl :=
  let pos := tensorIndex (cs.take iDimension) (t.take iDimension)
  let ring := st.1.getD iDimension (fun _ => 0)
  let pAddTo := ring pos + st.2
  (st.1.set iDimension (Function.update ring pos pAddTo), pAddTo)

/-- Whether dimensions `0..d` of cell `t` are all at their maximum state —
the odometer wrap condition that zeroes ring `d`. -/
def ringWraps (cs t : List ℕ) (d : ℕ) : Bool :=
  ((t.take (d + 1)).zip (cs.take (d + 1))).all fun pc => pc.1 + 1 = pc.2

/-- One iteration of the main loop of `BuildFastTotals`
(`MultiDimensionalTraining.h:440-490`) at the cell with tuple `t`: cascade
from dimension `cDimensions-1` down to `0` starting from the cell's bucket,
copy the result back into the cell, then zero the rings of the dimensions
that wrap. -/
def BuildFastTotalsStep {vl : ℕ} (cs : List ℕ) (st : FastTotalState vl)
    (t : List ℕ) : FastTotalState vl :=
  let cell := tensorIndex cs t
  let res := ((List.range cs.length).reverse).foldl (cascadeStep cs t)
    (st.rings, st.main cell)
  { main := Function.update st.main cell res.2
    rings := (List.range cs.length).foldl
      (fun rs d => if ringWraps cs t d then rs.set d (fun _ => 0) else rs)
      res.1 }

/-- `BuildFastTotals` (`MultiDimensionalTraining.h:385-491`): walk all cells
in flat order.  The rings start zeroed (`TrainMultiDimensional` memsets the
whole buffer, line 882, and the debug build asserts it, lines 417-421). -/
def BuildFastTotals {vl : ℕ} (cs : List ℕ)
    (aBinnedBuckets : ℕ → BinnedBucket vl) : FastTotalState vl :=
  (gridTuples cs).foldl (BuildFastTotalsStep cs)
    ⟨aBinnedBuckets, List.replicate cs.length (fun _ => 0)⟩

theorem tensorIndex_append {ds t : List ℕ} (h : t.length = ds.length)
    (ds2 t2 : List ℕ) :
    tensorIndex (ds ++ ds2) (t ++ t2)
      = tensorIndex ds t + ds.prod * tensorIndex ds2 t2 := by
  induction ds generalizing t with
  | nil =>
    rw [List.length_nil, List.length_eq_zero] at h
    subst h
    simp
  | cons c cs ih =>
    cases t with
    | nil => simp at h
    | cons i tt =>
      simp only [List.cons_append, tensorIndex_cons, List.prod_cons,
        ih (by simpa using h)]
      ring

theorem flatMap_single {α β : Type} (l : List α) (f : α → β) :
    (l.flatMap fun x => [f x]) = l.map f := by
  induction l with
  | nil => rfl
  | cons a l ih => simp [List.flatMap_cons, ih]

theorem gridTuples_append_singleton (ds : List ℕ) (c : ℕ) :
    gridTuples (ds ++ [c])
      = (List.range c).flatMap (fun j => (gridTuples ds).map (· ++ [j])) := by
  induction ds with
  | nil =>
    simp only [List.nil_append, gridTuples_cons, gridTuples_nil,
      List.flatMap_cons, List.flatMap_nil, List.append_nil, List.map_cons,
      List.map_nil]
    exact (flatMap_single (List.range c) (fun x => [x])).symm
  | cons a ds ih =>
    rw [List.cons_append, gridTuples_cons, ih, gridTuples_cons,
      List.flatMap_assoc]
    congr 1
    funext j
    rw [List.flatMap_map, List.map_flatMap]
    congr 1
    funext t
    rw [List.map_map]
    rfl

theorem cascade_fold_length {vl : ℕ} (cs t : List ℕ) :
    ∀ (idxs : List ℕ) (rs : List (ℕ → BinnedBucket vl)) (acc : BinnedBucket vl),
      ((idxs.foldl (cascadeStep cs t) (rs, acc)).1).length = rs.length := by
  intro idxs
  induction idxs with
  | nil => intro rs acc; rfl
  | cons d idxs ih =>
    intro rs acc
    simp only [List.foldl_cons]
    rw [ih]
    simp [cascadeStep]

theorem zerofold_length {vl : ℕ} (W : ℕ → Bool) :
    ∀ (idxs : List ℕ) (rs : List (ℕ → BinnedBucket vl)),
      (idxs.foldl (fun rs d => if W d then rs.set d (fun _ => 0) else rs) rs).length
        = rs.length := by
  intro idxs
  induction idxs with
  | nil => intro rs; rfl
  | cons d idxs ih =>
    intro rs
    simp only [List.foldl_cons]
    rw [ih]
    by_cases h : W d <;> simp [h]

theorem cascade_fold_append {vl : ℕ} (ds : List ℕ) (c : ℕ) (t : List ℕ)
    (j : ℕ) (ht : t.length = ds.length) :
    ∀ (idxs : List ℕ), (∀ d ∈ idxs, d < ds.length) →
    ∀ (rs : List (ℕ → BinnedBucket vl)) (g : ℕ → BinnedBucket vl)
      (acc : BinnedBucket vl), rs.length = ds.length →
    idxs.foldl (cascadeStep (ds ++ [c]) (t ++ [j])) (rs ++ [g], acc)
      = ((idxs.foldl (cascadeStep ds t) (rs, acc)).1 ++ [g],
         (idxs.foldl (cascadeStep ds t) (rs, acc)).2) := by
  intro idxs
  induction idxs with
  | nil => intro _ rs g acc _; rfl
  | cons d idxs ih =>
    intro hd rs g acc hrs
    have hdD : d < ds.length := hd d (List.mem_cons_self d idxs)
    have htake1 : (ds ++ [c]).take d = ds.take d :=
      List.take_append_of_le_length (le_of_lt hdD)
    have htake2 : (t ++ [j]).take d = t.take d :=
      List.take_append_of_le_length (by omega)
    have hgetD : (rs ++ [g]).getD d (fun _ => 0) = rs.getD d (fun _ => 0) :=
      List.getD_append _ _ _ _ (hrs ▸ hdD)
    have hset : ∀ x, (rs ++ [g]).set d x = rs.set d x ++ [g] :=
      fun x => List.set_append_left _ _ (hrs ▸ hdD)
    simp only [List.foldl_cons]
    have hstep : cascadeStep (ds ++ [c]) (t ++ [j]) (rs ++ [g], acc) d
        = ((cascadeStep ds t (rs, acc) d).1 ++ [g],
           (cascadeStep ds t (rs, acc) d).2) := by
      simp only [cascadeStep, htake1, htake2, hgetD, hset]
    rw [hstep]
    have hlen2 : ((cascadeStep ds t (rs, acc) d).1).length = ds.length := by
      simp [cascadeStep, hrs]
    exact ih (fun x hx => hd x (List.mem_cons_of_mem _ hx)) _ g _ hlen2

theorem zerofold_append {vl : ℕ} (ds : List ℕ) (c : ℕ) (t : List ℕ) (j : ℕ)
    (ht : t.length = ds.length) :
    ∀ (idxs : List ℕ), (∀ d ∈ idxs, d < ds.length) →
    ∀ (rs : List (ℕ → BinnedBucket vl)) (g : ℕ → BinnedBucket vl),
      rs.length = ds.length →
    idxs.foldl (fun rs d => if ringWraps (ds ++ [c]) (t ++ [j]) d
        then rs.set d (fun _ => 0) else rs) (rs ++ [g])
      = (idxs.foldl (fun rs d => if ringWraps ds t d
          then rs.set d (fun _ => 0) else rs) rs) ++ [g] := by
  intro idxs
  induction idxs with
  | nil => intro _ rs g _; rfl
  | cons d idxs ih =>
    intro hd rs g hrs
    have hdD : d < ds.length := hd d (List.mem_cons_self d idxs)
    have hwrap : ringWraps (ds ++ [c]) (t ++ [j]) d = ringWraps ds t d := by
      unfold ringWraps
      rw [List.take_append_of_le_length (by omega),
        List.take_append_of_le_length (by omega)]
    simp only [List.foldl_cons, hwrap]
    by_cases h : ringWraps ds t d
    · rw [if_pos h, if_pos h, List.set_append_left _ _ (hrs ▸ hdD)]
      exact ih (fun x hx => hd x (List.mem_cons_of_mem _ hx)) _ g (by simp [hrs])
    · rw [if_neg h, if_neg h]
      exact ih (fun x hx => hd x (List.mem_cons_of_mem _ hx)) _ g hrs

theorem range_succ_reverse (D : ℕ) :
    (List.range (D + 1)).reverse = D :: (List.range D).reverse := by
  rw [List.range_succ, List.reverse_append]
  rfl

theorem tensorIndex_append_singleton {ds t : List ℕ}
    (ht : t.length = ds.length) (c j : ℕ) :
    tensorIndex (ds ++ [c]) (t ++ [j]) = tensorIndex ds t + ds.prod * j := by
  rw [tensorIndex_append ht [c] [j]]
  simp [tensorIndex]

/-- Peeling the outermost dimension off one fast-totals step: on a cell of
slab `j`, the step first folds the cell into the top ring at position
`tensorIndex ds t` and then behaves exactly like the `ds`-dimensional step
with that updated top-ring bucket as input; the top ring is zeroed only when
the whole odometer wraps. -/
theorem BuildFastTotalsStep_append {vl : ℕ} (ds : List ℕ) (c : ℕ) (t : List ℕ)
    (j : ℕ) (ht : t.length = ds.length) (m : ℕ → BinnedBucket vl)
    (rs : List (ℕ → BinnedBucket vl)) (g : ℕ → BinnedBucket vl)
    (hrs : rs.length = ds.length) :
    BuildFastTotalsStep (ds ++ [c]) ⟨m, rs ++ [g]⟩ (t ++ [j])
      = { main := Function.update m (tensorIndex ds t + ds.prod * j)
            (((List.range ds.length).reverse).foldl (cascadeStep ds t)
              (rs, g (tensorIndex ds t)
                + m (tensorIndex ds t + ds.prod * j))).2,
          rings :=
            ((List.range ds.length).foldl
              (fun rs d => if ringWraps ds t d then rs.set d (fun _ => 0)
                else rs)
              (((List.range ds.length).reverse).foldl (cascadeStep ds t)
                (rs, g (tensorIndex ds t)
                  + m (tensorIndex ds t + ds.prod * j))).1)
            ++ [if ringWraps (ds ++ [c]) (t ++ [j]) ds.length
                then (fun _ => 0)
                else Function.update g (tensorIndex ds t)
                  (g (tensorIndex ds t)
                    + m (tensorIndex ds t + ds.prod * j))] } := by
  have hcell := tensorIndex_append_singleton ht c j
  have hlenapp : (ds ++ [c]).length = ds.length + 1 := by simp
  simp only [BuildFastTotalsStep]
  rw [hlenapp, range_succ_reverse, List.foldl_cons]
  have hstepD : cascadeStep (ds ++ [c]) (t ++ [j])
      (rs ++ [g], FastTotalState.main ⟨m, rs ++ [g]⟩
        (tensorIndex (ds ++ [c]) (t ++ [j]))) ds.length
      = (rs ++ [Function.update g (tensorIndex ds t)
          (g (tensorIndex ds t) + m (tensorIndex ds t + ds.prod * j))],
         g (tensorIndex ds t) + m (tensorIndex ds t + ds.prod * j)) := by
    simp only [cascadeStep, hcell]
    have ht1 : (ds ++ [c]).take ds.length = ds := List.take_left ds [c]
    have ht2 : (t ++ [j]).take ds.length = t := by
      rw [← ht]; exact List.take_left t [j]
    have hg1 : (rs ++ [g]).getD ds.length (fun _ => 0) = g := by
      rw [List.getD_append_right _ _ _ _ (le_of_eq hrs)]
      simp [hrs]
    have hs1 : ∀ x, (rs ++ [g]).set ds.length x = rs ++ [x] := by
      intro x
      rw [List.set_append_right _ _ (le_of_eq hrs)]
      simp [hrs]
    rw [ht1, ht2, hg1, hs1]
  rw [hstepD]
  have hmem : ∀ d ∈ (List.range ds.length).reverse, d < ds.length := by
    intro d hd
    exact List.mem_range.mp (List.mem_reverse.mp hd)
  rw [cascade_fold_append ds c t j ht _ hmem rs _ _ hrs]
  have hzrange : List.range (ds.length + 1)
      = List.range ds.length ++ [ds.length] := List.range_succ ds.length
  rw [hzrange, List.foldl_append]
  have hclen : ((List.range ds.length).reverse.foldl (cascadeStep ds t)
      (rs, g (tensorIndex ds t) + m (tensorIndex ds t + ds.prod * j))).1.length
      = ds.length := by
    rw [cascade_fold_length]; exact hrs
  rw [zerofold_append ds c t j ht _ (fun d hd => List.mem_range.mp hd) _ _ hclen]
  simp only [List.foldl_cons, List.foldl_nil]
  have hzlen : ((List.range ds.length).foldl
      (fun rs d => if ringWraps ds t d then rs.set d (fun _ => 0) else rs)
      ((List.range ds.length).reverse.foldl (cascadeStep ds t)
        (rs, g (tensorIndex ds t)
          + m (tensorIndex ds t + ds.prod * j))).1).length = ds.length := by
    rw [zerofold_length]; exact hclen
  by_cases hw : ringWraps (ds ++ [c]) (t ++ [j]) ds.length
  · rw [if_pos hw, if_pos hw, List.set_append_right _ _ (le_of_eq hzlen),
      hzlen, Nat.sub_self]
    simp [hcell]
  · rw [if_neg hw, if_neg hw]
    simp [hcell]

theorem BuildFastTotalsStep_rings_length {vl : ℕ} (cs : List ℕ)
    (σ : FastTotalState vl) (t : List ℕ) :
    (BuildFastTotalsStep cs σ t).rings.length = σ.rings.length := by
  simp only [BuildFastTotalsStep]
  rw [zerofold_length, cascade_fold_length]

theorem BuildFastTotalsStep_main_untouched {vl : ℕ} (cs : List ℕ)
    (σ : FastTotalState vl) (t : List ℕ) (x : ℕ)
    (hx : tensorIndex cs t ≠ x) :
    (BuildFastTotalsStep cs σ t).main x = σ.main x := by
  simp only [BuildFastTotalsStep]
  exact Function.update_noteq (Ne.symm hx) _ _

theorem run_main_untouched {vl : ℕ} (cs : List ℕ) :
    ∀ (ts : List (List ℕ)) (σ : FastTotalState vl) (x : ℕ),
      (∀ t ∈ ts, tensorIndex cs t ≠ x) →
      (ts.foldl (BuildFastTotalsStep cs) σ).main x = σ.main x := by
  intro ts
  induction ts with
  | nil => intro σ x _; rfl
  | cons t ts ih =>
    intro σ x hx
    simp only [List.foldl_cons]
    rw [ih _ x (fun t' ht' => hx t' (List.mem_cons_of_mem _ ht'))]
    exact BuildFastTotalsStep_main_untouched cs σ t x
      (hx t (List.mem_cons_self t ts))

theorem run_rings_length {vl : ℕ} (cs : List ℕ) :
    ∀ (ts : List (List ℕ)) (σ : FastTotalState vl),
      (ts.foldl (BuildFastTotalsStep cs) σ).rings.length
        = σ.rings.length := by
  intro ts
  induction ts with
  | nil => intro σ; rfl
  | cons t ts ih =>
    intro σ
    simp only [List.foldl_cons]
    rw [ih, BuildFastTotalsStep_rings_length]

theorem tupleLE_append_singleton {as bs : List ℕ} (h : as.length = bs.length)
    (a b : ℕ) :
    tupleLE (as ++ [a]) (bs ++ [b]) = (tupleLE as bs && decide (a ≤ b)) := by
  induction as generalizing bs with
  | nil =>
    rw [List.length_nil, eq_comm, List.length_eq_zero] at h
    subst h
    simp [tupleLE]
  | cons x xs ih =>
    cases bs with
    | nil => simp at h
    | cons y ys =>
      simp only [List.cons_append, tupleLE_cons, ih (by simpa using h)]
      rw [Bool.and_assoc]

theorem range_filter_le (c j : ℕ) (hj : j < c) :
    (List.range c).filter (fun x => decide (x ≤ j)) = List.range (j + 1) := by
  obtain ⟨k, rfl⟩ : ∃ k, c = (j + 1) + k := ⟨c - (j + 1), by omega⟩
  rw [List.range_add, List.filter_append]
  have h1 : (List.range (j + 1)).filter (fun x => decide (x ≤ j))
      = List.range (j + 1) :=
    List.filter_eq_self.mpr (fun x hx => by
      simp only [decide_eq_true_eq]
      exact Nat.lt_succ_iff.mp (List.mem_range.mp hx))
  have h2 : ((List.range k).map fun x => (j + 1) + x).filter
      (fun x => decide (x ≤ j)) = [] := by
    rw [List.filter_map]
    have : (List.range k).filter ((fun x => decide (x ≤ j)) ∘ fun x => (j+1)+x)
        = [] := by
      apply List.filter_eq_nil.mpr
      intro x hx
      simp only [Function.comp, decide_eq_true_eq]
      omega
    rw [this, List.map_nil]
  rw [h1, h2, List.append_nil]

theorem tupleSum_append_singleton {M : Type} [AddCommGroup M] (ds : List ℕ)
    (c : ℕ) (P : List ℕ → Bool) (f : List ℕ → M) :
    tupleSum (ds ++ [c]) P f
      = ((List.range c).map
          (fun j => tupleSum ds (fun q => P (q ++ [j]))
            (fun q => f (q ++ [j])))).sum := by
  unfold tupleSum
  rw [gridTuples_append_singleton]
  induction (List.range c) with
  | nil => simp
  | cons j js ih =>
    simp only [List.flatMap_cons, List.filter_append, List.map_append,
      List.sum_append, List.map_cons, List.sum_cons, ih]
    congr 1
    rw [List.filter_map, List.map_map]
    rfl

theorem foldl_flatMap {α β γ : Type} (l : List α) (g : α → List β)
    (f : γ → β → γ) (init : γ) :
    (l.flatMap g).foldl f init
      = l.foldl (fun s a => (g a).foldl f s) init := by
  induction l generalizing init with
  | nil => rfl
  | cons a l ih =>
    simp only [List.flatMap_cons, List.foldl_append, List.foldl_cons, ih]

theorem gridTuples_concat_max (ds : List ℕ) (hpos : ∀ d ∈ ds, 0 < d) :
    ∃ front, gridTuples ds = front ++ [ds.map (· - 1)] := by
  induction ds with
  | nil => exact ⟨[], rfl⟩
  | cons c cs ih =>
    obtain ⟨front, hfront⟩ := ih (fun d hd => hpos d (List.mem_cons_of_mem _ hd))
    have hc : 0 < c := hpos c (List.mem_cons_self c cs)
    refine ⟨front.flatMap (fun t => (List.range c).map (· :: t))
      ++ (List.range (c - 1)).map (· :: cs.map (· - 1)), ?_⟩
    rw [gridTuples_cons, hfront, List.flatMap_append]
    simp only [List.flatMap_cons, List.flatMap_nil, List.append_nil]
    have hr : List.range c = List.range (c - 1) ++ [c - 1] := by
      conv_lhs => rw [show c = (c - 1) + 1 by omega]
      exact List.range_succ (c - 1)
    rw [hr, List.map_append, List.append_assoc]
    simp [List.map_cons]

theorem allmax_eq_max {ds : List ℕ} :
    ∀ {t : List ℕ}, t ∈ gridTuples ds →
      ((t.zip ds).all fun pc => pc.1 + 1 = pc.2) = true →
      t = ds.map (· - 1) := by
  induction ds with
  | nil =>
    intro t h _
    rw [mem_gridTuples] at h
    cases h
    rfl
  | cons c cs ih =>
    intro t h hall
    rw [mem_gridTuples] at h
    cases h with
    | cons h1 h2 =>
      simp only [List.zip_cons_cons, List.all_cons, Bool.and_eq_true,
        decide_eq_true_eq] at hall
      simp only [List.map_cons, List.cons.injEq]
      exact ⟨by omega, ih (mem_gridTuples.mpr h2) hall.2⟩

theorem zip_map_pred_all (l : List ℕ) (hpos : ∀ d ∈ l, 0 < d) :
    (((l.map (· - 1)).zip l).all fun pc => pc.1 + 1 = pc.2) = true := by
  induction l with
  | nil => rfl
  | cons c cs ih =>
    simp only [List.map_cons, List.zip_cons_cons, List.all_cons,
      Bool.and_eq_true, decide_eq_true_eq]
    exact ⟨by have := hpos c (List.mem_cons_self c cs); omega,
           ih (fun d hd => hpos d (List.mem_cons_of_mem _ hd))⟩

theorem ringWraps_top {ds : List ℕ} (c : ℕ) {t : List ℕ}
    (ht : t.length = ds.length) (j : ℕ) :
    ringWraps (ds ++ [c]) (t ++ [j]) ds.length
      = (((t.zip ds).all fun pc => pc.1 + 1 = pc.2) && decide (j + 1 = c)) := by
  unfold ringWraps
  rw [List.take_of_length_le (by simp [ht]),
    List.take_of_length_le (by simp),
    List.zip_append ht, List.all_append]
  simp

theorem foldl_if_all_true {α : Type} (W : ℕ → Bool) (g : α → ℕ → α) :
    ∀ (l : List ℕ) (s : α), (∀ d ∈ l, W d = true) →
      l.foldl (fun s d => if W d then g s d else s) s = l.foldl g s := by
  intro l
  induction l with
  | nil => intro s _; rfl
  | cons d l ih =>
    intro s h
    simp only [List.foldl_cons, h d (List.mem_cons_self d l), if_pos]
    exact ih _ (fun x hx => h x (List.mem_cons_of_mem _ hx))

theorem setAllFold {vl : ℕ} :
    ∀ (n : ℕ) (rs : List (ℕ → BinnedBucket vl)), n ≤ rs.length →
      (List.range n).foldl (fun rs d => rs.set d (fun _ => 0)) rs
        = List.replicate n (fun _ => (0 : BinnedBucket vl)) ++ rs.drop n := by
  intro n
  induction n with
  | zero => intro rs _; simp
  | succ n ih =>
    intro rs h
    rw [List.range_succ, List.foldl_append, ih rs (by omega)]
    simp only [List.foldl_cons, List.foldl_nil]
    have hn : n < rs.length := h
    have hdrop : rs.drop n = rs.get ⟨n, hn⟩ :: rs.drop (n + 1) :=
      List.drop_eq_getElem_cons hn
    rw [List.set_append_right _ _ (le_of_eq (List.length_replicate _ _)),
      List.length_replicate, Nat.sub_self, hdrop, List.set_cons_zero]
    rw [show List.replicate (n + 1) (fun _ => (0 : BinnedBucket vl))
        = List.replicate n (fun _ => (0 : BinnedBucket vl)) ++ [fun _ => 0]
      from List.replicate_succ' _ _, List.append_assoc]
    rfl

theorem ringWraps_max (ds : List ℕ) (hpos : ∀ d ∈ ds, 0 < d) (d : ℕ) :
    ringWraps ds (ds.map (· - 1)) d = true := by
  unfold ringWraps
  rw [← List.map_take]
  exact zip_map_pred_all (ds.take (d + 1))
    (fun x hx => hpos x (List.mem_of_mem_take hx))

theorem BuildFastTotalsStep_max_rings {vl : ℕ} (ds : List ℕ)
    (hpos : ∀ d ∈ ds, 0 < d) (σ : FastTotalState vl)
    (hlen : σ.rings.length = ds.length) :
    (BuildFastTotalsStep ds σ (ds.map (· - 1))).rings
      = List.replicate ds.length (fun _ => 0) := by
  simp only [BuildFastTotalsStep]
  have hW : ∀ d ∈ List.range ds.length,
      ringWraps ds (ds.map (· - 1)) d = true :=
    fun d _ => ringWraps_max ds hpos d
  rw [foldl_if_all_true _ _ _ _ hW,
    setAllFold ds.length _ (by rw [cascade_fold_length, hlen])]
  rw [List.drop_eq_nil_of_le (by rw [cascade_fold_length, hlen]),
    List.append_nil]

theorem run_rings_reset {vl : ℕ} (ds : List ℕ)
    (hpos : ∀ d ∈ ds, 0 < d) (σ : FastTotalState vl)
    (hlen : σ.rings.length = ds.length) :
    ((gridTuples ds).foldl (BuildFastTotalsStep ds) σ).rings
      = List.replicate ds.length (fun _ => 0) := by
  obtain ⟨front, hfront⟩ := gridTuples_concat_max ds hpos
  rw [hfront, List.foldl_append]
  simp only [List.foldl_cons, List.foldl_nil]
  exact BuildFastTotalsStep_max_rings ds hpos _
    (by rw [run_rings_length, hlen])

/-- A single fast-totals iteration on a slab cell `t ++ [j]`, with the top
ring exposed, equals the `ds`-dimensional iteration on the virtual state whose
main holds `top-ring + cell` values, plus the top-ring bookkeeping. -/
theorem sim_step {vl : ℕ} (ds : List ℕ) (c j : ℕ) (t : List ℕ)
    (ht : t.length = ds.length) (m τm : ℕ → BinnedBucket vl)
    (rs : List (ℕ → BinnedBucket vl)) (g : ℕ → BinnedBucket vl)
    (hrs : rs.length = ds.length)
    (hτt : τm (tensorIndex ds t)
      = g (tensorIndex ds t) + m (tensorIndex ds t + ds.prod * j)) :
    BuildFastTotalsStep (ds ++ [c]) ⟨m, rs ++ [g]⟩ (t ++ [j])
      = ⟨Function.update m (tensorIndex ds t + ds.prod * j)
          ((BuildFastTotalsStep ds ⟨τm, rs⟩ t).main (tensorIndex ds t)),
         (BuildFastTotalsStep ds ⟨τm, rs⟩ t).rings
           ++ [if ringWraps (ds ++ [c]) (t ++ [j]) ds.length
               then (fun _ => 0)
               else Function.update g (tensorIndex ds t)
                 (τm (tensorIndex ds t))]⟩ := by
  rw [BuildFastTotalsStep_append ds c t j ht m rs g hrs]
  simp only [BuildFastTotalsStep, Function.update_same, hτt]

/-- Simulation of one slab of the outermost dimension: running the
`(ds ++ [c])`-dimensional fast-totals loop over cells `t ++ [j]` (`t` drawn
from `ts`) behaves like the `ds`-dimensional loop over `ts` on a virtual main
array formed by adding the top ring to the slab's cells; the top ring ends up
holding the virtual main values of the visited positions unless the odometer
wrapped it away. -/
theorem slab_sim {vl : ℕ} (ds : List ℕ) (c j : ℕ) :
    ∀ (ts : List (List ℕ)),
      (∀ t ∈ ts, t.length = ds.length) →
      (ts.map (tensorIndex ds)).Nodup →
      (∀ t ∈ ts.dropLast,
        ringWraps (ds ++ [c]) (t ++ [j]) ds.length = false) →
      ∀ (m τm : ℕ → BinnedBucket vl) (rs : List (ℕ → BinnedBucket vl))
        (g : ℕ → BinnedBucket vl), rs.length = ds.length →
      (∀ t ∈ ts, τm (tensorIndex ds t)
        = g (tensorIndex ds t) + m (tensorIndex ds t + ds.prod * j)) →
      ((∀ t ∈ ts,
          ((ts.map (· ++ [j])).foldl (BuildFastTotalsStep (ds ++ [c]))
              ⟨m, rs ++ [g]⟩).main (tensorIndex ds t + ds.prod * j)
            = (ts.foldl (BuildFastTotalsStep ds) ⟨τm, rs⟩).main
                (tensorIndex ds t))
        ∧ (∀ x, (∀ t ∈ ts, x ≠ tensorIndex ds t + ds.prod * j) →
            ((ts.map (· ++ [j])).foldl (BuildFastTotalsStep (ds ++ [c]))
                ⟨m, rs ++ [g]⟩).main x = m x)
        ∧ ∃ gfin,
            ((ts.map (· ++ [j])).foldl (BuildFastTotalsStep (ds ++ [c]))
                ⟨m, rs ++ [g]⟩).rings
              = (ts.foldl (BuildFastTotalsStep ds) ⟨τm, rs⟩).rings ++ [gfin]
            ∧ ((∀ t ∈ ts,
                  ringWraps (ds ++ [c]) (t ++ [j]) ds.length = false) →
                gfin = fun x => if x ∈ ts.map (tensorIndex ds)
                  then g x + m (x + ds.prod * j) else g x)) := by
  intro ts
  induction ts with
  | nil =>
    intro _ _ _ m τm rs g hrs _
    refine ⟨fun t ht => absurd ht (List.not_mem_nil t), fun x _ => rfl,
      g, rfl, fun _ => ?_⟩
    funext x
    simp
  | cons t ts ih =>
    intro hlen hnodup hnw m τm rs g hrs hτ
    have htlen : t.length = ds.length := hlen t (List.mem_cons_self t ts)
    have hτt := hτ t (List.mem_cons_self t ts)
    have hcancel : ∀ a b : ℕ,
        a + ds.prod * j = b + ds.prod * j → a = b := by
      intro a b h; omega
    have hdl : (t :: ts).dropLast = t :: ts.dropLast ∨ ts = [] := by
      cases ts with
      | nil => exact Or.inr rfl
      | cons a l => exact Or.inl rfl
    simp only [List.map_cons, List.foldl_cons]
    rw [sim_step ds c j t htlen m τm rs g hrs hτt]
    by_cases hts : ts = []
    · subst hts
      simp only [List.map_nil, List.foldl_nil]
      refine ⟨?_, ?_,
        if ringWraps (ds ++ [c]) (t ++ [j]) ds.length
          then (fun _ => 0)
          else Function.update g (tensorIndex ds t) (τm (tensorIndex ds t)),
        rfl, ?_⟩
      · intro t'' ht''
        have ht2 : t'' = t := List.mem_singleton.mp ht''
        subst ht2
        show Function.update m _ _ _ = _
        rw [Function.update_same]
      · intro x hx
        exact Function.update_noteq (hx t (List.mem_cons_self t [])) _ _
      · intro hall
        rw [if_neg (by simp [hall t (List.mem_cons_self t [])])]
        funext x
        by_cases hx : x = tensorIndex ds t
        · subst hx
          rw [if_pos (by simp), Function.update_same]
          exact hτt
        · rw [if_neg (by simp [hx]), Function.update_noteq hx]
    · have hdl' : (t :: ts).dropLast = t :: ts.dropLast := by
        rcases hdl with h | h
        · exact h
        · exact absurd h hts
      have hwfalse : ringWraps (ds ++ [c]) (t ++ [j]) ds.length = false :=
        hnw t (by rw [hdl']; exact List.mem_cons_self t _)
      rw [if_neg (by simp [hwfalse])]
      have hlen' : ∀ t'' ∈ ts, t''.length = ds.length :=
        fun t'' h => hlen t'' (List.mem_cons_of_mem _ h)
      have hnodupc : (tensorIndex ds t :: ts.map (tensorIndex ds)).Nodup := by
        rw [← List.map_cons]; exact hnodup
      have hnodup' : (ts.map (tensorIndex ds)).Nodup :=
        (List.nodup_cons.mp hnodupc).2
      have hnotmem : tensorIndex ds t ∉ ts.map (tensorIndex ds) :=
        (List.nodup_cons.mp hnodupc).1
      have hnw' : ∀ t'' ∈ ts.dropLast,
          ringWraps (ds ++ [c]) (t'' ++ [j]) ds.length = false :=
        fun t'' h => hnw t'' (by rw [hdl']; exact List.mem_cons_of_mem _ h)
      have hrs' : (BuildFastTotalsStep ds ⟨τm, rs⟩ t).rings.length
          = ds.length := by
        rw [BuildFastTotalsStep_rings_length]; exact hrs
      have hτ' : ∀ t'' ∈ ts,
          (BuildFastTotalsStep ds ⟨τm, rs⟩ t).main (tensorIndex ds t'')
            = Function.update g (tensorIndex ds t) (τm (tensorIndex ds t))
                (tensorIndex ds t'')
              + Function.update m (tensorIndex ds t + ds.prod * j)
                  ((BuildFastTotalsStep ds ⟨τm, rs⟩ t).main
                    (tensorIndex ds t))
                  (tensorIndex ds t'' + ds.prod * j) := by
        intro t'' h
        have hne : tensorIndex ds t'' ≠ tensorIndex ds t :=
          fun he => hnotmem (he ▸ List.mem_map_of_mem _ h)
        rw [BuildFastTotalsStep_main_untouched ds ⟨τm, rs⟩ t _ hne.symm,
          Function.update_noteq hne,
          Function.update_noteq (fun he => hne (hcancel _ _ he))]
        exact hτ t'' (List.mem_cons_of_mem _ h)
      obtain ⟨IH1, IH2, gfin, IH3, IH4⟩ :=
        ih hlen' hnodup' hnw'
          (Function.update m (tensorIndex ds t + ds.prod * j)
            ((BuildFastTotalsStep ds ⟨τm, rs⟩ t).main (tensorIndex ds t)))
          (BuildFastTotalsStep ds ⟨τm, rs⟩ t).main
          (BuildFastTotalsStep ds ⟨τm, rs⟩ t).rings
          (Function.update g (tensorIndex ds t) (τm (tensorIndex ds t)))
          hrs' hτ'
      have hheadne : ∀ t3 ∈ ts, tensorIndex ds t + ds.prod * j
          ≠ tensorIndex ds t3 + ds.prod * j := by
        intro t3 h3 he
        exact hnotmem (by
          rw [hcancel _ _ he]; exact List.mem_map_of_mem _ h3)
      have hheadne2 : ∀ t3 ∈ ts, tensorIndex ds t3 ≠ tensorIndex ds t := by
        intro t3 h3 he
        exact hnotmem (he ▸ List.mem_map_of_mem _ h3)
      refine ⟨?_, ?_, gfin, ?_, ?_⟩
      · intro t'' ht''
        rcases List.mem_cons.mp ht'' with rfl | h
        · rw [IH2 _ hheadne, Function.update_same,
            run_main_untouched ds ts _ _ hheadne2]
        · exact IH1 t'' h
      · intro x hx
        rw [IH2 x (fun t3 h3 => hx t3 (List.mem_cons_of_mem _ h3))]
        exact Function.update_noteq (hx t (List.mem_cons_self t ts)) _ _
      · exact IH3
      · intro hall
        have hallts : ∀ t3 ∈ ts,
            ringWraps (ds ++ [c]) (t3 ++ [j]) ds.length = false :=
          fun t3 h3 => hall t3 (List.mem_cons_of_mem _ h3)
        rw [IH4 hallts]
        funext x
        by_cases hx1 : x ∈ ts.map (tensorIndex ds)
        · have hxne : x ≠ tensorIndex ds t := fun he => hnotmem (he ▸ hx1)
          rw [if_pos hx1,
            if_pos (List.mem_cons_of_mem _ hx1),
            Function.update_noteq hxne,
            Function.update_noteq (fun he => hxne (hcancel _ _ he))]
        · by_cases hx2 : x = tensorIndex ds t
          · subst hx2
            rw [if_neg hx1,
              if_pos (List.mem_cons_self _ _),
              Function.update_same]
            exact hτt
          · rw [if_neg hx1,
              if_neg (by
                rw [List.mem_cons]
                push_neg
                exact ⟨hx2, hx1⟩),
              Function.update_noteq hx2]

theorem tupleSum_congr {M : Type} [AddCommGroup M] (cs : List ℕ)
    (P P' : List ℕ → Bool) (f f' : List ℕ → M)
    (hP : ∀ q ∈ gridTuples cs, P q = P' q)
    (hf : ∀ q ∈ gridTuples cs, f q = f' q) :
    tupleSum cs P f = tupleSum cs P' f' := by
  unfold tupleSum
  rw [List.filter_congr hP]
  congr 1
  exact List.map_congr_left
    (fun q hq => hf q (List.mem_filter.mp hq).1)

theorem gridTuples_mem_len {cs t : List ℕ} (h : t ∈ gridTuples cs) :
    t.length = cs.length :=
  (mem_gridTuples.mp h).length_eq

theorem gridTuples_mem_pos {cs t : List ℕ} (h : t ∈ gridTuples cs) :
    ∀ d ∈ cs, 0 < d := by
  rw [mem_gridTuples] at h
  induction h with
  | nil => intro d hd; simp at hd
  | cons ha htail ih =>
    intro d hd
    rcases List.mem_cons.mp hd with rfl | hd'
    · omega
    · exact ih d hd'

/-- Invariant of the slab-by-slab processing of the outermost dimension of
`BuildFastTotals`: after `n` complete slabs, each processed cell holds its
within-slab box sum accumulated across the slabs below it, untouched cells
still hold the input, and (before the final slab) the lower rings are zero
while the top ring holds the column sums of the processed slabs. -/
theorem slab_invariant {vl : ℕ} (ds : List ℕ) (c : ℕ)
    (hpos : ∀ d ∈ ds, 0 < d)
    (A : ℕ → BinnedBucket vl)
    (IH : ∀ (B : ℕ → BinnedBucket vl), ∀ t ∈ gridTuples ds,
      (BuildFastTotals ds B).main (tensorIndex ds t)
        = tupleSum ds (fun q => tupleLE q t)
            (fun q => B (tensorIndex ds q))) :
    ∀ n, n ≤ c →
      ((∀ j', j' < n → ∀ q0 ∈ gridTuples ds,
          (((List.range n).flatMap fun j => (gridTuples ds).map (· ++ [j])).foldl (BuildFastTotalsStep (ds ++ [c])) ⟨A, List.replicate (ds.length + 1) (fun _ => 0)⟩).main (tensorIndex ds q0 + ds.prod * j')
            = tupleSum ds (fun q => tupleLE q q0)
                (fun q => ((List.range (j' + 1)).map
                  (fun j3 => A (tensorIndex ds q + ds.prod * j3))).sum))
        ∧ (∀ x, (∀ j', j' < n → ∀ q0 ∈ gridTuples ds,
              x ≠ tensorIndex ds q0 + ds.prod * j') →
            (((List.range n).flatMap fun j => (gridTuples ds).map (· ++ [j])).foldl (BuildFastTotalsStep (ds ++ [c])) ⟨A, List.replicate (ds.length + 1) (fun _ => 0)⟩).main x = A x)
        ∧ (n < c → (((List.range n).flatMap fun j => (gridTuples ds).map (· ++ [j])).foldl (BuildFastTotalsStep (ds ++ [c])) ⟨A, List.replicate (ds.length + 1) (fun _ => 0)⟩).rings
            = List.replicate ds.length (fun _ => 0) ++ [(fun x => if x < ds.prod then ((List.range n).map (fun j3 => A (x + ds.prod * j3))).sum else 0)])) := by
  intro n
  induction n with
  | zero =>
    intro _
    refine ⟨fun j' hj' => absurd hj' (Nat.not_lt_zero j'), fun x _ => ?_, fun _ => ?_⟩
    · simp only [List.range_zero, List.flatMap_nil, List.foldl_nil]
    · simp only [List.range_zero, List.flatMap_nil, List.foldl_nil]
      show List.replicate (ds.length + 1) (fun _ => (0 : BinnedBucket vl)) = _
      rw [List.replicate_succ']
      congr 2
      funext x
      by_cases hx : x < ds.prod <;> simp [hx]
  | succ n ihn =>
    intro hn1
    have hnclt : n < c := hn1
    obtain ⟨I1, I2, I3⟩ := ihn (le_of_lt hnclt)
    have hlt : ∀ (j' n' : ℕ), j' < n' → ∀ q0 ∈ gridTuples ds, ∀ x : ℕ,
        tensorIndex ds q0 + ds.prod * j' ≠ x + ds.prod * n' := by
      intro j' n' hj q0 hq0 x
      have h1 : tensorIndex ds q0 < ds.prod := tensorIndex_lt_prod hq0
      have hchain : tensorIndex ds q0 + ds.prod * j' < x + ds.prod * n' :=
        calc tensorIndex ds q0 + ds.prod * j'
            < ds.prod + ds.prod * j' := Nat.add_lt_add_right h1 _
          _ = ds.prod * (j' + 1) := by ring
          _ ≤ ds.prod * n' := Nat.mul_le_mul_left _ hj
          _ ≤ x + ds.prod * n' := Nat.le_add_left _ _
      exact Nat.ne_of_lt hchain
    have hlenG : ∀ t ∈ gridTuples ds, t.length = ds.length :=
      fun t ht => gridTuples_mem_len ht
    have hnwDL : ∀ t ∈ (gridTuples ds).dropLast,
        ringWraps (ds ++ [c]) (t ++ [n]) ds.length = false := by
      obtain ⟨front, hfr⟩ := gridTuples_concat_max ds hpos
      intro t htd
      have htd' : t ∈ front := by
        rw [hfr, List.dropLast_concat] at htd
        exact htd
      have htmem : t ∈ gridTuples ds := by
        rw [hfr]
        exact List.mem_append_left _ htd'
      have htne : t ≠ ds.map (· - 1) := by
        intro he
        have hnd : (gridTuples ds).Nodup := gridTuples_nodup ds
        rw [hfr] at hnd
        exact (List.nodup_append.mp hnd).2.2 (he ▸ htd')
          (List.mem_singleton_self _)
      rw [ringWraps_top c (hlenG t htmem) n]
      cases hA : ((t.zip ds).all fun pc => pc.1 + 1 = pc.2) with
      | false => simp
      | true => exact absurd (allmax_eq_max htmem hA) htne
    have hsig : (((List.range n).flatMap fun j => (gridTuples ds).map (· ++ [j])).foldl (BuildFastTotalsStep (ds ++ [c])) ⟨A, List.replicate (ds.length + 1) (fun _ => 0)⟩) = ⟨(((List.range n).flatMap fun j => (gridTuples ds).map (· ++ [j])).foldl (BuildFastTotalsStep (ds ++ [c])) ⟨A, List.replicate (ds.length + 1) (fun _ => 0)⟩).main, List.replicate ds.length (fun _ => 0) ++ [(fun x => if x < ds.prod then ((List.range n).map (fun j3 => A (x + ds.prod * j3))).sum else 0)]⟩ := by
      rw [← I3 hnclt]
    have hfold : (((List.range (n + 1)).flatMap fun j => (gridTuples ds).map (· ++ [j])).foldl (BuildFastTotalsStep (ds ++ [c])) ⟨A, List.replicate (ds.length + 1) (fun _ => 0)⟩)
        = ((gridTuples ds).map (· ++ [n])).foldl
            (BuildFastTotalsStep (ds ++ [c])) ⟨(((List.range n).flatMap fun j => (gridTuples ds).map (· ++ [j])).foldl (BuildFastTotalsStep (ds ++ [c])) ⟨A, List.replicate (ds.length + 1) (fun _ => 0)⟩).main, List.replicate ds.length (fun _ => 0) ++ [(fun x => if x < ds.prod then ((List.range n).map (fun j3 => A (x + ds.prod * j3))).sum else 0)]⟩ := by
      conv_lhs => rw [List.range_succ]
      rw [List.flatMap_append, List.foldl_append]
      simp only [List.flatMap_cons, List.flatMap_nil, List.append_nil]
      rw [hsig]
    obtain ⟨S1, S2, gfin, S3, S4⟩ :=
      slab_sim ds c n (gridTuples ds) hlenG (gridTuples_nodup_map ds) hnwDL
        (((List.range n).flatMap fun j => (gridTuples ds).map (· ++ [j])).foldl (BuildFastTotalsStep (ds ++ [c])) ⟨A, List.replicate (ds.length + 1) (fun _ => 0)⟩).main (fun x => (fun x => if x < ds.prod then ((List.range n).map (fun j3 => A (x + ds.prod * j3))).sum else 0) x + (((List.range n).flatMap fun j => (gridTuples ds).map (· ++ [j])).foldl (BuildFastTotalsStep (ds ++ [c])) ⟨A, List.replicate (ds.length + 1) (fun _ => 0)⟩).main (x + ds.prod * n))
        (List.replicate ds.length (fun _ => 0)) (fun x => if x < ds.prod then ((List.range n).map (fun j3 => A (x + ds.prod * j3))).sum else 0)
        (List.length_replicate _ _) (fun t ht => rfl)
    have hIHv : ∀ q0 ∈ gridTuples ds,
        ((gridTuples ds).foldl (BuildFastTotalsStep ds)
          ⟨(fun x => (fun x => if x < ds.prod then ((List.range n).map (fun j3 => A (x + ds.prod * j3))).sum else 0) x + (((List.range n).flatMap fun j => (gridTuples ds).map (· ++ [j])).foldl (BuildFastTotalsStep (ds ++ [c])) ⟨A, List.replicate (ds.length + 1) (fun _ => 0)⟩).main (x + ds.prod * n)), List.replicate ds.length (fun _ => 0)⟩).main
            (tensorIndex ds q0)
          = tupleSum ds (fun q => tupleLE q q0)
              (fun q => (fun x => (fun x => if x < ds.prod then ((List.range n).map (fun j3 => A (x + ds.prod * j3))).sum else 0) x + (((List.range n).flatMap fun j => (gridTuples ds).map (· ++ [j])).foldl (BuildFastTotalsStep (ds ++ [c])) ⟨A, List.replicate (ds.length + 1) (fun _ => 0)⟩).main (x + ds.prod * n)) (tensorIndex ds q)) :=
      fun q0 hq0 => IH (fun x => (fun x => if x < ds.prod then ((List.range n).map (fun j3 => A (x + ds.prod * j3))).sum else 0) x + (((List.range n).flatMap fun j => (gridTuples ds).map (· ++ [j])).foldl (BuildFastTotalsStep (ds ++ [c])) ⟨A, List.replicate (ds.length + 1) (fun _ => 0)⟩).main (x + ds.prod * n)) q0 hq0
    have hτv : ∀ q ∈ gridTuples ds,
        (fun x => (fun x => if x < ds.prod then ((List.range n).map (fun j3 => A (x + ds.prod * j3))).sum else 0) x + (((List.range n).flatMap fun j => (gridTuples ds).map (· ++ [j])).foldl (BuildFastTotalsStep (ds ++ [c])) ⟨A, List.replicate (ds.length + 1) (fun _ => 0)⟩).main (x + ds.prod * n)) (tensorIndex ds q)
          = ((List.range (n + 1)).map
              (fun j3 => A (tensorIndex ds q + ds.prod * j3))).sum := by
      intro q hq
      show (if tensorIndex ds q < ds.prod
          then ((List.range n).map
            (fun j3 => A (tensorIndex ds q + ds.prod * j3))).sum
          else 0) + (((List.range n).flatMap fun j => (gridTuples ds).map (· ++ [j])).foldl (BuildFastTotalsStep (ds ++ [c])) ⟨A, List.replicate (ds.length + 1) (fun _ => 0)⟩).main (tensorIndex ds q + ds.prod * n) = _
      rw [if_pos (tensorIndex_lt_prod hq),
        I2 _ (fun j' hj' q0 hq0 => (hlt j' n hj' q0 hq0 _).symm),
        List.range_succ, List.map_append, List.sum_append]
      simp
    refine ⟨?_, ?_, ?_⟩
    · intro j' hj' q0 hq0
      rw [hfold]
      by_cases hj : j' = n
      · subst hj
        rw [S1 q0 hq0, hIHv q0 hq0]
        exact tupleSum_congr ds _ _ _ _ (fun q hq => rfl)
          (fun q hq => hτv q hq)
      · have hj2 : j' < n := by omega
        rw [S2 _ (fun t ht => hlt j' n hj2 q0 hq0 _)]
        exact I1 j' hj2 q0 hq0
    · intro x hx
      rw [hfold, S2 x (fun t ht => hx n (Nat.lt_succ_self n) t ht)]
      exact I2 x (fun j' hj' q0 hq0 => hx j' (by omega) q0 hq0)
    · intro hc1
      have hwall : ∀ t ∈ gridTuples ds,
          ringWraps (ds ++ [c]) (t ++ [n]) ds.length = false := by
        intro t ht
        rw [ringWraps_top c (hlenG t ht) n]
        have hd : decide (n + 1 = c) = false := by
          simp only [decide_eq_false_iff_not]
          omega
        rw [hd, Bool.and_false]
      rw [hfold, S3, S4 hwall,
        run_rings_reset ds hpos _ (List.length_replicate _ _)]
      congr 2
      funext x
      by_cases hx : x < ds.prod
      · have hmem : x ∈ (gridTuples ds).map (tensorIndex ds) := by
          rw [map_tensorIndex_gridTuples]
          exact List.mem_range.mpr hx
        rw [if_pos hmem]
        show (if x < ds.prod
            then ((List.range n).map (fun j3 => A (x + ds.prod * j3))).sum
            else 0) + (((List.range n).flatMap fun j => (gridTuples ds).map (· ++ [j])).foldl (BuildFastTotalsStep (ds ++ [c])) ⟨A, List.replicate (ds.length + 1) (fun _ => 0)⟩).main (x + ds.prod * n) = _
        rw [if_pos hx,
          I2 _ (fun j' hj' q0 hq0 => (hlt j' n hj' q0 hq0 _).symm),
          if_pos hx, List.range_succ, List.map_append, List.sum_append]
        simp
      · have hmem : x ∉ (gridTuples ds).map (tensorIndex ds) := by
          rw [map_tensorIndex_gridTuples, List.mem_range]
          omega
        rw [if_neg hmem]
        show (if x < ds.prod
            then ((List.range n).map (fun j3 => A (x + ds.prod * j3))).sum
            else 0) = _
        rw [if_neg hx, if_neg hx]

theorem mem_gridTuples_append {ds : List ℕ} {c : ℕ} {t : List ℕ}
    (h : t ∈ gridTuples (ds ++ [c])) :
    ∃ t0 j, t0 ∈ gridTuples ds ∧ j < c ∧ t = t0 ++ [j] := by
  rw [gridTuples_append_singleton, List.mem_flatMap] at h
  obtain ⟨j, hj, ht⟩ := h
  rw [List.mem_map] at ht
  obtain ⟨t0, ht0, rfl⟩ := ht
  exact ⟨t0, j, ht0, List.mem_range.mp hj, rfl⟩

theorem tupleSum_swap {M : Type} [AddCommGroup M] {β : Type} (cs : List ℕ)
    (P : List ℕ → Bool) (l : List β) (f : List ℕ → β → M) :
    tupleSum cs P (fun q => (l.map (f q)).sum)
      = (l.map (fun b => tupleSum cs P (fun q => f q b))).sum := by
  unfold tupleSum
  exact list_sum_comm _ _ _

theorem tupleSum_false {M : Type} [AddCommGroup M] (cs : List ℕ)
    (P : List ℕ → Bool) (f : List ℕ → M)
    (hP : ∀ q ∈ gridTuples cs, P q = false) :
    tupleSum cs P f = 0 := by
  unfold tupleSum
  rw [List.filter_eq_nil.mpr (fun q hq => by simp [hP q hq])]
  rfl

theorem sum_range_tail_zero {M : Type} [AddCommGroup M] (T : ℕ → M)
    (c j : ℕ) (hj : j < c)
    (hz : ∀ j', j < j' → j' < c → T j' = 0) :
    ((List.range c).map T).sum = ((List.range (j + 1)).map T).sum := by
  obtain ⟨k, rfl⟩ : ∃ k, c = (j + 1) + k := ⟨c - (j + 1), by omega⟩
  rw [List.range_add, List.map_append, List.sum_append]
  have hzs : (((List.range k).map (fun x => j + 1 + x)).map T).sum = 0 := by
    apply List.sum_eq_zero
    intro x hx
    rw [List.mem_map] at hx
    obtain ⟨y, hy, rfl⟩ := hx
    rw [List.mem_map] at hy
    obtain ⟨z, hz2, rfl⟩ := hy
    exact hz _ (by omega) (by rw [List.mem_range] at hz2; omega)
  rw [hzs, add_zero]

/-- **C2**: after the fast-totals transform (`BuildFastTotals`,
`MultiDimensionalTraining.h:385-491`) runs in place on a histogram over an
N-dimensional grid, the accumulator at every grid point `p` holds the
componentwise sum (case count, residual-error sums and denominators) of the
original accumulators over the box `[0..p_0] × … × [0..p_{N-1}]`. -/
theorem BuildFastTotals_box_sum {vl : ℕ} (cs : List ℕ)
    (A : ℕ → BinnedBucket vl) (t : List ℕ) (ht : t ∈ gridTuples cs) :
    (BuildFastTotals cs A).main (tensorIndex cs t)
      = tupleSum cs (fun q => tupleLE q t)
          (fun q => A (tensorIndex cs q)) := by
  induction cs using List.reverseRecOn generalizing A t with
  | nil =>
    have htn : t = [] := List.mem_singleton.mp ht
    subst htn
    simp [BuildFastTotals, BuildFastTotalsStep, tupleSum,
      Function.update_same]
  | append_singleton ds c ih =>
    obtain ⟨t0, j, ht0, hj, rfl⟩ := mem_gridTuples_append ht
    have hpos : ∀ d ∈ ds, 0 < d := gridTuples_mem_pos ht0
    have hlen0 : t0.length = ds.length := gridTuples_mem_len ht0
    obtain ⟨J1, J2, J3⟩ :=
      slab_invariant ds c hpos A (fun B q hq => ih B q hq) c (le_refl c)
    have hidx : tensorIndex (ds ++ [c]) (t0 ++ [j])
        = tensorIndex ds t0 + ds.prod * j :=
      tensorIndex_append_singleton hlen0 c j
    have hBF : BuildFastTotals (ds ++ [c]) A
        = ((List.range c).flatMap
            fun j => (gridTuples ds).map (· ++ [j])).foldl
          (BuildFastTotalsStep (ds ++ [c]))
          ⟨A, List.replicate (ds.length + 1) (fun _ => 0)⟩ := by
      unfold BuildFastTotals
      rw [gridTuples_append_singleton]
      have hl : (ds ++ [c]).length = ds.length + 1 := by simp
      rw [hl]
    rw [hBF, hidx, J1 j hj t0 ht0, tupleSum_append_singleton]
    have hterm : ∀ j' ∈ List.range (j + 1),
        tupleSum ds (fun q => tupleLE (q ++ [j']) (t0 ++ [j]))
            (fun q => A (tensorIndex (ds ++ [c]) (q ++ [j'])))
          = tupleSum ds (fun q => tupleLE q t0)
              (fun q => A (tensorIndex ds q + ds.prod * j')) := by
      intro j' hj'
      have hj'le : j' ≤ j := Nat.lt_succ_iff.mp (List.mem_range.mp hj')
      apply tupleSum_congr
      · intro q hq
        rw [tupleLE_append_singleton
            ((gridTuples_mem_len hq).trans hlen0.symm),
          decide_eq_true hj'le, Bool.and_true]
      · intro q hq
        rw [tensorIndex_append_singleton (gridTuples_mem_len hq)]
    have hzero : ∀ j', j < j' → j' < c →
        tupleSum ds (fun q => tupleLE (q ++ [j']) (t0 ++ [j]))
            (fun q => A (tensorIndex (ds ++ [c]) (q ++ [j']))) = 0 := by
      intro j' hjj hjc
      apply tupleSum_false
      intro q hq
      rw [tupleLE_append_singleton
          ((gridTuples_mem_len hq).trans hlen0.symm)]
      have hd : decide (j' ≤ j) = false := by
        simp only [decide_eq_false_iff_not]
        omega
      rw [hd, Bool.and_false]
    rw [sum_range_tail_zero _ c j hj hzero, List.map_congr_left hterm,
      tupleSum_swap]

theorem BuildFastTotals_box_sum_witness :
    [1, 1] ∈ gridTuples [2, 2]
    ∧ (BuildFastTotals [2, 2]
          (fun x => (⟨(x : ℤ), Fin.elim0, Fin.elim0⟩ : BinnedBucket 0))).main
        (tensorIndex [2, 2] [1, 1])
      = tupleSum [2, 2] (fun q => tupleLE q [1, 1])
          (fun q => (⟨(tensorIndex [2, 2] q : ℤ), Fin.elim0, Fin.elim0⟩
            : BinnedBucket 0)) :=
  ⟨by decide, BuildFastTotals_box_sum [2, 2] _ [1, 1] (by decide)⟩

/-! ### Pair splitter (`MultiDimensionalTraining.h:792-1273`,
`SweepMultiDiemensional` — source-spelling kept — and the 2-dimensional
branch of `TrainMultiDimensional`)

`EbmStatistics.h` is absent from `src/`, so the three statistics kernels are
modelled from the spec (§4.6); we model the regression path
(`IsRegression(countCompilerClassificationTargetStates)`), whose guards
`0 == cCasesInBucket ? 0 : …` appear verbatim in `MultiDimensionalTraining.h`.
The output segmented tensor is modelled by the concrete cut arrays and
region-value vectors that the source writes through `SetCountDivisions`,
`GetDivisionPointer` and `GetValuePointer`, plus the returned error flag. -/

/-- Modelled from the spec (§4.6): regression splitting score
`sumResidualError² / weight` (callers guard the `weight = 0` case). -/
def ComputeNodeSplittingScore (sumResidualError : ℚ) (cCases : ℤ) : ℚ :=
  sumResidualError ^ 2 / (cCases : ℚ)

/-- Modelled from the spec (§4.6): regression per-region prediction
`sumResidualError / weight` (callers guard the `weight = 0` case). -/
def ComputeSmallChangeInRegressionPredictionForOneSegment
    (sumResidualError : ℚ) (cCases : ℤ) : ℚ :=
  sumResidualError / (cCases : ℚ)

/-- The per-candidate score of the sweep loop body
(`MultiDimensionalTraining.h:843-849`): over the vector components, the
guarded low-side and high-side node scores. -/
def SweepScoreStep {vl : ℕ} (totalsLow totalsHigh : BinnedBucket vl) : ℚ :=
  ((List.finRange vl).map (fun iVector =>
    (if totalsLow.cCasesInBucket = 0 then 0
     else ComputeNodeSplittingScore (totalsLow.sumResidualError iVector)
       totalsLow.cCasesInBucket)
    + (if totalsHigh.cCasesInBucket = 0 then 0
       else ComputeNodeSplittingScore (totalsHigh.sumResidualError iVector)
         totalsHigh.cCasesInBucket))).sum

/-- `SweepMultiDiemensional` (`MultiDimensionalTraining.h:792-859`; the
source's spelling): sweep every candidate cut of dimension `iDimensionSweep`
starting from `-∞` (`⊥`), keeping the first strict improvement's score, cut
and pair of range totals.  `init` stands for the previous contents of the
two `pBinnedBucketBestAndTemp` output buckets, which the source leaves
untouched when the loop body never improves. -/
def SweepMultiDiemensional {vl : ℕ} (cube : ℕ → BinnedBucket vl)
    (cs aiPoint : List ℕ) (directionVectorLow iDimensionSweep : ℕ)
    (init : BinnedBucket vl × BinnedBucket vl) :
    WithBot ℚ × ℕ × (BinnedBucket vl × BinnedBucket vl) :=
  (List.range (cs.getD iDimensionSweep 0 - 1)).foldl
    (fun st iState =>
      let point := aiPoint.set iDimensionSweep iState
      let totalsLow := GetTotals cube cs point directionVectorLow
      let totalsHigh := GetTotals cube cs point
        (directionVectorLow ||| 2 ^ iDimensionSweep)
      let splittingScore := SweepScoreStep totalsLow totalsHigh
      if st.1 < (splittingScore : WithBot ℚ) then
        ((splittingScore : WithBot ℚ), iState, (totalsLow, totalsHigh))
      else st)
    (⊥, 0, init)

/-- A region's prediction vector (`MultiDimensionalTraining.h:1153-1160` and
1217-1224, regression path): the guarded small-change prediction per vector
component. -/
def regionPrediction {vl : ℕ} (b : BinnedBucket vl) : Fin vl → ℚ :=
  fun iVector =>
    if b.cCasesInBucket = 0 then 0
    else ComputeSmallChangeInRegressionPredictionForOneSegment
      (b.sumResidualError iVector) b.cCasesInBucket

/-- The segmented-tensor content written by the 2-dimensional splitter:
per-axis cut arrays, region value vectors (axis-0 region index moving
fastest, as `GetValuePointer()[iRegion * cVectorLength + iVector]` does) and
the returned error flag. -/
structure PairSplit (vl : ℕ) where
  divisions0 : List ℕ
  divisions1 : List ℕ
  values : List (Fin vl → ℚ)
  bError : Bool
deriving DecidableEq

/-- One retained candidate of either primary loop of
`TrainMultiDimensional`: primary cut, the per-side secondary cuts, and the
two pairs of quadrant totals copied on improvement. -/
structure PairCand (vl : ℕ) where
  cutPrimary : ℕ
  cutSecondLow : ℕ
  cutSecondHigh : ℕ
  totalsSecondLow : BinnedBucket vl × BinnedBucket vl
  totalsSecondHigh : BinnedBucket vl × BinnedBucket vl

/-- The output written when the axis-0 primary candidate wins (the
`else` branch in `MultiDimensionalTraining.h:1196-1262`): one cut on axis 0,
the two per-side secondary cuts on axis 1 merged sorted, and the quadrant
predictions spread over the 4 or 6 regions. -/
def EmitFirst {vl : ℕ} (cut1 low1 high1 : ℕ)
    (LL LH HL HH : BinnedBucket vl) : PairSplit vl :=
  if low1 < high1 then
    ⟨[cut1], [low1, high1],
     [regionPrediction LL, regionPrediction HL, regionPrediction LH,
      regionPrediction HL, regionPrediction LH, regionPrediction HH],
     false⟩
  else if high1 < low1 then
    ⟨[cut1], [high1, low1],
     [regionPrediction LL, regionPrediction HL, regionPrediction LL,
      regionPrediction HH, regionPrediction LH, regionPrediction HH],
     false⟩
  else
    ⟨[cut1], [low1],
     [regionPrediction LL, regionPrediction HL, regionPrediction LH,
      regionPrediction HH],
     false⟩

/-- The output written when the axis-1 primary candidate wins (the
`bCutFirst2` branch in `MultiDimensionalTraining.h:1129-1195`). -/
def EmitSecond {vl : ℕ} (cut2 low2 high2 : ℕ)
    (LL LH HL HH : BinnedBucket vl) : PairSplit vl :=
  if low2 < high2 then
    ⟨[low2, high2], [cut2],
     [regionPrediction LL, regionPrediction LH, regionPrediction LH,
      regionPrediction HL, regionPrediction HL, regionPrediction HH],
     false⟩
  else if high2 < low2 then
    ⟨[high2, low2], [cut2],
     [regionPrediction LL, regionPrediction LL, regionPrediction LH,
      regionPrediction HL, regionPrediction HH, regionPrediction HH],
     false⟩
  else
    ⟨[low2], [cut2],
     [regionPrediction LL, regionPrediction LH, regionPrediction HL,
      regionPrediction HH],
     false⟩

/-- The fast-totals cube that `TrainMultiDimensional` builds before
splitting (`MultiDimensionalTraining.h:910-915`). -/
def fastCube {vl : ℕ} (A : ℕ → BinnedBucket vl) (cs1 cs2 : ℕ) :
    ℕ → BinnedBucket vl :=
  (BuildFastTotals [cs1, cs2] A).main

/-- The 2-dimensional branch of `TrainMultiDimensional`
(`MultiDimensionalTraining.h:1020-1266`): the first loop sweeps primary cuts
on axis 0 (the secondary sweeps run on axis 1 with direction bits `0x0` /
`0x1`), the second loop continues with the same running best score and
raises `bCutFirst2` when an axis-1 primary candidate wins; the winner's data
is written out.  `A` is the binned histogram (the buffer is zeroed and then
binned before the transform, lines 882-893). -/
def TrainMultiDimensional2D {vl : ℕ} (A : ℕ → BinnedBucket vl)
    (cStatesDimension1 cStatesDimension2 : ℕ) : PairSplit vl :=
  let cube := fastCube A cStatesDimension1 cStatesDimension2
  let cs := [cStatesDimension1, cStatesDimension2]
  let r1 := (List.range (cStatesDimension1 - 1)).foldl
    (fun st iState1 =>
      let swLow := SweepMultiDiemensional cube cs [iState1, 0] 0 1 (0, 0)
      let swHigh := SweepMultiDiemensional cube cs [iState1, 0] 1 1 (0, 0)
      if st.1 < swLow.1 + swHigh.1 then
        (swLow.1 + swHigh.1,
         (⟨iState1, swLow.2.1, swHigh.2.1, swLow.2.2, swHigh.2.2⟩
           : PairCand vl))
      else st)
    ((⊥ : WithBot ℚ), (⟨0, 0, 0, (0, 0), (0, 0)⟩ : PairCand vl))
  let r2 := (List.range (cStatesDimension2 - 1)).foldl
    (fun st iState2 =>
      let swLow := SweepMultiDiemensional cube cs [0, iState2] 0 0 (0, 0)
      let swHigh := SweepMultiDiemensional cube cs [0, iState2] 2 0 (0, 0)
      if st.1 < swLow.1 + swHigh.1 then
        (swLow.1 + swHigh.1,
         (true,
          (⟨iState2, swLow.2.1, swHigh.2.1, swLow.2.2, swHigh.2.2⟩
            : PairCand vl)))
      else st)
    (r1.1, (false, (⟨0, 0, 0, (0, 0), (0, 0)⟩ : PairCand vl)))
  if r2.2.1 then
    EmitSecond r2.2.2.cutPrimary r2.2.2.cutSecondLow r2.2.2.cutSecondHigh
      r2.2.2.totalsSecondLow.1 r2.2.2.totalsSecondLow.2
      r2.2.2.totalsSecondHigh.1 r2.2.2.totalsSecondHigh.2
  else
    EmitFirst r1.2.cutPrimary r1.2.cutSecondLow r1.2.cutSecondHigh
      r1.2.totalsSecondLow.1 r1.2.totalsSecondLow.2
      r1.2.totalsSecondHigh.1 r1.2.totalsSecondHigh.2

/-- The four-quadrant additive score of the candidate with primary cut `c1`
on axis 0 and per-side secondary cuts `c2lo` (low side) and `c2hi` (high
side) on axis 1, as range-sum queries against the prefix cube. -/
def candScoreFirst {vl : ℕ} (cube : ℕ → BinnedBucket vl)
    (cs1 cs2 c1 c2lo c2hi : ℕ) : ℚ :=
  SweepScoreStep (GetTotals cube [cs1, cs2] [c1, c2lo] 0)
      (GetTotals cube [cs1, cs2] [c1, c2lo] 2)
    + SweepScoreStep (GetTotals cube [cs1, cs2] [c1, c2hi] 1)
      (GetTotals cube [cs1, cs2] [c1, c2hi] 3)

/-- The four-quadrant additive score of the candidate with primary cut `c2`
on axis 1 and per-side secondary cuts `c1lo`, `c1hi` on axis 0. -/
def candScoreSecond {vl : ℕ} (cube : ℕ → BinnedBucket vl)
    (cs1 cs2 c2 c1lo c1hi : ℕ) : ℚ :=
  SweepScoreStep (GetTotals cube [cs1, cs2] [c1lo, c2] 0)
      (GetTotals cube [cs1, cs2] [c1lo, c2] 1)
    + SweepScoreStep (GetTotals cube [cs1, cs2] [c1hi, c2] 2)
      (GetTotals cube [cs1, cs2] [c1hi, c2] 3)

/-- The tensor an axis-0-primary candidate would emit. -/
def candEmitFirst {vl : ℕ} (cube : ℕ → BinnedBucket vl)
    (cs1 cs2 c1 c2lo c2hi : ℕ) : PairSplit vl :=
  EmitFirst c1 c2lo c2hi
    (GetTotals cube [cs1, cs2] [c1, c2lo] 0)
    (GetTotals cube [cs1, cs2] [c1, c2lo] 2)
    (GetTotals cube [cs1, cs2] [c1, c2hi] 1)
    (GetTotals cube [cs1, cs2] [c1, c2hi] 3)

/-- The tensor an axis-1-primary candidate would emit. -/
def candEmitSecond {vl : ℕ} (cube : ℕ → BinnedBucket vl)
    (cs1 cs2 c2 c1lo c1hi : ℕ) : PairSplit vl :=
  EmitSecond c2 c1lo c1hi
    (GetTotals cube [cs1, cs2] [c1lo, c2] 0)
    (GetTotals cube [cs1, cs2] [c1lo, c2] 1)
    (GetTotals cube [cs1, cs2] [c1hi, c2] 2)
    (GetTotals cube [cs1, cs2] [c1hi, c2] 3)

/-- A keep-first-strict-improvement fold dominates every scanned score,
never drops below its seed, and ends at the seed or at some scanned
element. -/
theorem foldl_best_spec {α : Type} (f : ℕ → WithBot ℚ) (g : ℕ → α)
    (step : WithBot ℚ × α → ℕ → WithBot ℚ × α)
    (hstep : ∀ st i, step st i = if st.1 < f i then (f i, g i) else st) :
    ∀ (l : List ℕ) (b0 : WithBot ℚ) (a0 : α),
      (∀ i ∈ l, f i ≤ (l.foldl step (b0, a0)).1)
      ∧ b0 ≤ (l.foldl step (b0, a0)).1
      ∧ (l.foldl step (b0, a0) = (b0, a0)
          ∨ ∃ i ∈ l, l.foldl step (b0, a0) = (f i, g i)) := by
  intro l
  induction l with
  | nil =>
    intro b0 a0
    exact ⟨fun i hi => absurd hi (List.not_mem_nil i), le_refl _,
      Or.inl rfl⟩
  | cons i l ih =>
    intro b0 a0
    rw [List.foldl_cons, hstep]
    by_cases h : b0 < f i
    · rw [if_pos h]
      obtain ⟨ih1, ih2, ih3⟩ := ih (f i) (g i)
      refine ⟨?_, le_trans (le_of_lt h) ih2, ?_⟩
      · intro j hj
        rcases List.mem_cons.mp hj with rfl | hj'
        · exact ih2
        · exact ih1 j hj'
      · rcases ih3 with h3 | ⟨j, hj, h3⟩
        · exact Or.inr ⟨i, List.mem_cons_self i l, h3⟩
        · exact Or.inr ⟨j, List.mem_cons_of_mem _ hj, h3⟩
    · rw [if_neg h]
      obtain ⟨ih1, ih2, ih3⟩ := ih b0 a0
      refine ⟨?_, ih2, ?_⟩
      · intro j hj
        rcases List.mem_cons.mp hj with rfl | hj'
        · exact le_trans (not_lt.mp h) ih2
        · exact ih1 j hj'
      · rcases ih3 with h3 | ⟨j, hj, h3⟩
        · exact Or.inl h3
        · exact Or.inr ⟨j, List.mem_cons_of_mem _ hj, h3⟩

/-- A keep-first-strict-improvement fold that never sees an improvement
keeps its seed. -/
theorem foldl_best_noimprove {α : Type} (f : ℕ → WithBot ℚ) (g : ℕ → α)
    (step : WithBot ℚ × α → ℕ → WithBot ℚ × α)
    (hstep : ∀ st i, step st i = if st.1 < f i then (f i, g i) else st) :
    ∀ (l : List ℕ) (b0 : WithBot ℚ) (a0 : α),
      (∀ i ∈ l, ¬ b0 < f i) →
      l.foldl step (b0, a0) = (b0, a0) := by
  intro l
  induction l with
  | nil => intro b0 a0 _; rfl
  | cons i l ih =>
    intro b0 a0 h
    rw [List.foldl_cons, hstep, if_neg (h i (List.mem_cons_self i l))]
    exact ih b0 a0 (fun j hj => h j (List.mem_cons_of_mem _ hj))

/-- A keep-first-strict-improvement fold over constant scores, seeded at
`⊥`, settles on the first element. -/
theorem foldl_best_const {α : Type} (f : ℕ → WithBot ℚ) (g : ℕ → α)
    (step : WithBot ℚ × α → ℕ → WithBot ℚ × α)
    (hstep : ∀ st i, step st i = if st.1 < f i then (f i, g i) else st)
    (s : ℚ) (l : List ℕ) (a0 : α)
    (hconst : ∀ i ∈ l, f i = (s : WithBot ℚ)) :
    ∀ i0 l', l = i0 :: l' →
      l.foldl step ((⊥ : WithBot ℚ), a0) = ((s : WithBot ℚ), g i0) := by
  intro i0 l' hl
  subst hl
  rw [List.foldl_cons, hstep, hconst i0 (List.mem_cons_self i0 l'),
    if_pos (WithBot.bot_lt_coe s)]
  exact foldl_best_noimprove f g step hstep l' _ _
    (fun j hj => by
      rw [hconst j (List.mem_cons_of_mem _ hj)]
      exact lt_irrefl _)

/-- Specification of `SweepMultiDiemensional` when the swept dimension has
at least two states: the result is the score, cut and range-total pair of
some candidate cut dominating every candidate cut. -/
theorem SweepMultiDiemensional_spec {vl : ℕ} (cube : ℕ → BinnedBucket vl)
    (cs aiPoint : List ℕ) (dirLow iSweep : ℕ)
    (init : BinnedBucket vl × BinnedBucket vl)
    (hc : 2 ≤ cs.getD iSweep 0) :
    ∃ c2, c2 < cs.getD iSweep 0 - 1
      ∧ SweepMultiDiemensional cube cs aiPoint dirLow iSweep init
        = (((SweepScoreStep
              (GetTotals cube cs (aiPoint.set iSweep c2) dirLow)
              (GetTotals cube cs (aiPoint.set iSweep c2)
                (dirLow ||| 2 ^ iSweep)) : ℚ) : WithBot ℚ),
           c2,
           (GetTotals cube cs (aiPoint.set iSweep c2) dirLow,
            GetTotals cube cs (aiPoint.set iSweep c2)
              (dirLow ||| 2 ^ iSweep)))
      ∧ ∀ c2', c2' < cs.getD iSweep 0 - 1 →
          SweepScoreStep
              (GetTotals cube cs (aiPoint.set iSweep c2') dirLow)
              (GetTotals cube cs (aiPoint.set iSweep c2')
                (dirLow ||| 2 ^ iSweep))
            ≤ SweepScoreStep
              (GetTotals cube cs (aiPoint.set iSweep c2) dirLow)
              (GetTotals cube cs (aiPoint.set iSweep c2)
                (dirLow ||| 2 ^ iSweep)) := by
  obtain ⟨H1, H2, H3⟩ := foldl_best_spec
    (fun c2 => ((SweepScoreStep
      (GetTotals cube cs (aiPoint.set iSweep c2) dirLow)
      (GetTotals cube cs (aiPoint.set iSweep c2)
        (dirLow ||| 2 ^ iSweep)) : ℚ) : WithBot ℚ))
    (fun c2 => (c2,
      (GetTotals cube cs (aiPoint.set iSweep c2) dirLow,
       GetTotals cube cs (aiPoint.set iSweep c2)
         (dirLow ||| 2 ^ iSweep))))
    _ (fun st i => rfl)
    (List.range (cs.getD iSweep 0 - 1)) ⊥ (0, init)
  have h0mem : 0 ∈ List.range (cs.getD iSweep 0 - 1) :=
    List.mem_range.mpr (by omega)
  rcases H3 with h3 | ⟨i, hi, h3⟩
  · exfalso
    have := H1 0 h0mem
    rw [h3] at this
    exact WithBot.not_coe_le_bot _ this
  · refine ⟨i, List.mem_range.mp hi, h3, ?_⟩
    intro c2' hc2'
    have := H1 c2' (List.mem_range.mpr hc2')
    rw [h3] at this
    exact WithBot.coe_le_coe.mp this

/-- Each secondary sweep of the first primary loop returns the data of a
best secondary cut on axis 1. -/
theorem train2D_sweep1 {vl : ℕ} (A : ℕ → BinnedBucket vl) (cs1 cs2 : ℕ)
    (h2 : 2 ≤ cs2) (i : ℕ) :
    ∃ lo hi, lo < cs2 - 1 ∧ hi < cs2 - 1
      ∧ (SweepMultiDiemensional (fastCube A cs1 cs2) [cs1, cs2] [i, 0] 0 1 (0, 0))
        = ((((SweepScoreStep (GetTotals (fastCube A cs1 cs2) [cs1, cs2] [i, lo] 0) (GetTotals (fastCube A cs1 cs2) [cs1, cs2] [i, lo] 2)) : ℚ) : WithBot ℚ), lo,
           ((GetTotals (fastCube A cs1 cs2) [cs1, cs2] [i, lo] 0), (GetTotals (fastCube A cs1 cs2) [cs1, cs2] [i, lo] 2)))
      ∧ (SweepMultiDiemensional (fastCube A cs1 cs2) [cs1, cs2] [i, 0] 1 1 (0, 0))
        = ((((SweepScoreStep (GetTotals (fastCube A cs1 cs2) [cs1, cs2] [i, hi] 1) (GetTotals (fastCube A cs1 cs2) [cs1, cs2] [i, hi] 3)) : ℚ) : WithBot ℚ), hi,
           ((GetTotals (fastCube A cs1 cs2) [cs1, cs2] [i, hi] 1), (GetTotals (fastCube A cs1 cs2) [cs1, cs2] [i, hi] 3)))
      ∧ (∀ c, c < cs2 - 1 → (SweepScoreStep (GetTotals (fastCube A cs1 cs2) [cs1, cs2] [i, c] 0) (GetTotals (fastCube A cs1 cs2) [cs1, cs2] [i, c] 2)) ≤ (SweepScoreStep (GetTotals (fastCube A cs1 cs2) [cs1, cs2] [i, lo] 0) (GetTotals (fastCube A cs1 cs2) [cs1, cs2] [i, lo] 2)))
      ∧ (∀ c, c < cs2 - 1 → (SweepScoreStep (GetTotals (fastCube A cs1 cs2) [cs1, cs2] [i, c] 1) (GetTotals (fastCube A cs1 cs2) [cs1, cs2] [i, c] 3)) ≤ (SweepScoreStep (GetTotals (fastCube A cs1 cs2) [cs1, cs2] [i, hi] 1) (GetTotals (fastCube A cs1 cs2) [cs1, cs2] [i, hi] 3))) := by
  obtain ⟨lo, hlo, heqlo, hoptlo⟩ :=
    SweepMultiDiemensional_spec (fastCube A cs1 cs2) [cs1, cs2] [i, 0] 0 1 (0, 0) h2
  obtain ⟨hi, hhi, heqhi, hopthi⟩ :=
    SweepMultiDiemensional_spec (fastCube A cs1 cs2) [cs1, cs2] [i, 0] 1 1 (0, 0) h2
  exact ⟨lo, hi, hlo, hhi, heqlo, heqhi, hoptlo, hopthi⟩

/-- Each secondary sweep of the second primary loop returns the data of a
best secondary cut on axis 0. -/
theorem train2D_sweep2 {vl : ℕ} (A : ℕ → BinnedBucket vl) (cs1 cs2 : ℕ)
    (h1 : 2 ≤ cs1) (j : ℕ) :
    ∃ lo hi, lo < cs1 - 1 ∧ hi < cs1 - 1
      ∧ (SweepMultiDiemensional (fastCube A cs1 cs2) [cs1, cs2] [0, j] 0 0 (0, 0))
        = ((((SweepScoreStep (GetTotals (fastCube A cs1 cs2) [cs1, cs2] [lo, j] 0) (GetTotals (fastCube A cs1 cs2) [cs1, cs2] [lo, j] 1)) : ℚ) : WithBot ℚ), lo,
           ((GetTotals (fastCube A cs1 cs2) [cs1, cs2] [lo, j] 0), (GetTotals (fastCube A cs1 cs2) [cs1, cs2] [lo, j] 1)))
      ∧ (SweepMultiDiemensional (fastCube A cs1 cs2) [cs1, cs2] [0, j] 2 0 (0, 0))
        = ((((SweepScoreStep (GetTotals (fastCube A cs1 cs2) [cs1, cs2] [hi, j] 2) (GetTotals (fastCube A cs1 cs2) [cs1, cs2] [hi, j] 3)) : ℚ) : WithBot ℚ), hi,
           ((GetTotals (fastCube A cs1 cs2) [cs1, cs2] [hi, j] 2), (GetTotals (fastCube A cs1 cs2) [cs1, cs2] [hi, j] 3)))
      ∧ (∀ c, c < cs1 - 1 → (SweepScoreStep (GetTotals (fastCube A cs1 cs2) [cs1, cs2] [c, j] 0) (GetTotals (fastCube A cs1 cs2) [cs1, cs2] [c, j] 1)) ≤ (SweepScoreStep (GetTotals (fastCube A cs1 cs2) [cs1, cs2] [lo, j] 0) (GetTotals (fastCube A cs1 cs2) [cs1, cs2] [lo, j] 1)))
      ∧ (∀ c, c < cs1 - 1 → (SweepScoreStep (GetTotals (fastCube A cs1 cs2) [cs1, cs2] [c, j] 2) (GetTotals (fastCube A cs1 cs2) [cs1, cs2] [c, j] 3)) ≤ (SweepScoreStep (GetTotals (fastCube A cs1 cs2) [cs1, cs2] [hi, j] 2) (GetTotals (fastCube A cs1 cs2) [cs1, cs2] [hi, j] 3))) := by
  obtain ⟨lo, hlo, heqlo, hoptlo⟩ :=
    SweepMultiDiemensional_spec (fastCube A cs1 cs2) [cs1, cs2] [0, j] 0 0 (0, 0) h1
  obtain ⟨hi, hhi, heqhi, hopthi⟩ :=
    SweepMultiDiemensional_spec (fastCube A cs1 cs2) [cs1, cs2] [0, j] 2 0 (0, 0) h1
  exact ⟨lo, hi, hlo, hhi, heqlo, heqhi, hoptlo, hopthi⟩

/-- Full characterization of the 2-dimensional splitter: its output is the
tensor of some enumerated two-level candidate whose four-quadrant additive
score dominates the whole enumerated split space (both primary axes, every
primary cut, and every per-side secondary cut). -/
theorem train2D_characterization {vl : ℕ} (A : ℕ → BinnedBucket vl)
    (cs1 cs2 : ℕ) (h1 : 2 ≤ cs1) (h2 : 2 ≤ cs2) :
    ∃ best : ℚ,
      ((∃ c1 c2lo c2hi, c1 < cs1 - 1 ∧ c2lo < cs2 - 1 ∧ c2hi < cs2 - 1
          ∧ best = candScoreFirst (fastCube A cs1 cs2) cs1 cs2 c1 c2lo c2hi
          ∧ TrainMultiDimensional2D A cs1 cs2
              = candEmitFirst (fastCube A cs1 cs2) cs1 cs2 c1 c2lo c2hi)
        ∨ (∃ c2 c1lo c1hi, c2 < cs2 - 1 ∧ c1lo < cs1 - 1 ∧ c1hi < cs1 - 1
          ∧ best = candScoreSecond (fastCube A cs1 cs2) cs1 cs2 c2 c1lo c1hi
          ∧ TrainMultiDimensional2D A cs1 cs2
              = candEmitSecond (fastCube A cs1 cs2) cs1 cs2 c2 c1lo c1hi))
      ∧ (∀ c1 c2lo c2hi, c1 < cs1 - 1 → c2lo < cs2 - 1 → c2hi < cs2 - 1 →
          candScoreFirst (fastCube A cs1 cs2) cs1 cs2 c1 c2lo c2hi ≤ best)
      ∧ (∀ c2 c1lo c1hi, c2 < cs2 - 1 → c1lo < cs1 - 1 → c1hi < cs1 - 1 →
          candScoreSecond (fastCube A cs1 cs2) cs1 cs2 c2 c1lo c1hi ≤ best) := by
  obtain ⟨L1all, L1seed, L1end⟩ := foldl_best_spec
    (fun i => (SweepMultiDiemensional (fastCube A cs1 cs2) [cs1, cs2] [i, 0] 0 1 (0, 0)).1 + (SweepMultiDiemensional (fastCube A cs1 cs2) [cs1, cs2] [i, 0] 1 1 (0, 0)).1)
    (fun i => (⟨i, (SweepMultiDiemensional (fastCube A cs1 cs2) [cs1, cs2] [i, 0] 0 1 (0, 0)).2.1, (SweepMultiDiemensional (fastCube A cs1 cs2) [cs1, cs2] [i, 0] 1 1 (0, 0)).2.1, (SweepMultiDiemensional (fastCube A cs1 cs2) [cs1, cs2] [i, 0] 0 1 (0, 0)).2.2, (SweepMultiDiemensional (fastCube A cs1 cs2) [cs1, cs2] [i, 0] 1 1 (0, 0)).2.2⟩ : PairCand vl))
    _ (fun st i => rfl) (List.range (cs1 - 1)) ⊥ (⟨0, 0, 0, (0, 0), (0, 0)⟩ : PairCand vl)
  beta_reduce at L1all L1seed L1end
  have h0m1 : 0 ∈ List.range (cs1 - 1) := List.mem_range.mpr (by omega)
  rcases L1end with L1e | ⟨i1, hi1mem, L1e⟩
  · exfalso
    obtain ⟨lo0, hi0, _, _, heqlo0, heqhi0, _, _⟩ :=
      train2D_sweep1 A cs1 cs2 h2 0
    have hle := L1all 0 h0m1
    rw [L1e, heqlo0, heqhi0] at hle
    have hle2 : (((SweepScoreStep (GetTotals (fastCube A cs1 cs2) [cs1, cs2] [0, lo0] 0) (GetTotals (fastCube A cs1 cs2) [cs1, cs2] [0, lo0] 2)) + (SweepScoreStep (GetTotals (fastCube A cs1 cs2) [cs1, cs2] [0, hi0] 1) (GetTotals (fastCube A cs1 cs2) [cs1, cs2] [0, hi0] 3)) : ℚ) : WithBot ℚ) ≤ (⊥ : WithBot ℚ) := by
      rw [WithBot.coe_add]
      exact hle
    exact WithBot.not_coe_le_bot _ hle2
  · obtain ⟨lo, hi, hlolt, hhilt, heqlo, heqhi, hoptlo, hopthi⟩ :=
      train2D_sweep1 A cs1 cs2 h2 i1
    rw [heqlo, heqhi] at L1e
    obtain ⟨L2all, L2seed, L2end⟩ := foldl_best_spec
      (fun j => (SweepMultiDiemensional (fastCube A cs1 cs2) [cs1, cs2] [0, j] 0 0 (0, 0)).1 + (SweepMultiDiemensional (fastCube A cs1 cs2) [cs1, cs2] [0, j] 2 0 (0, 0)).1)
      (fun j => ((true, (⟨j, (SweepMultiDiemensional (fastCube A cs1 cs2) [cs1, cs2] [0, j] 0 0 (0, 0)).2.1, (SweepMultiDiemensional (fastCube A cs1 cs2) [cs1, cs2] [0, j] 2 0 (0, 0)).2.1, (SweepMultiDiemensional (fastCube A cs1 cs2) [cs1, cs2] [0, j] 0 0 (0, 0)).2.2, (SweepMultiDiemensional (fastCube A cs1 cs2) [cs1, cs2] [0, j] 2 0 (0, 0)).2.2⟩ : PairCand vl)) : Bool × PairCand vl))
      _ (fun st j => rfl) (List.range (cs2 - 1))
      ((((SweepScoreStep (GetTotals (fastCube A cs1 cs2) [cs1, cs2] [i1, lo] 0) (GetTotals (fastCube A cs1 cs2) [cs1, cs2] [i1, lo] 2)) : ℚ) : WithBot ℚ) + (((SweepScoreStep (GetTotals (fastCube A cs1 cs2) [cs1, cs2] [i1, hi] 1) (GetTotals (fastCube A cs1 cs2) [cs1, cs2] [i1, hi] 3)) : ℚ) : WithBot ℚ)) ((false, (⟨0, 0, 0, (0, 0), (0, 0)⟩ : PairCand vl)) : Bool × PairCand vl)
    beta_reduce at L2all L2seed L2end
    rcases L2end with L2e | ⟨j2, hj2mem, L2e⟩
    · -- second loop never improves: the axis-0 winner is emitted
      refine ⟨(SweepScoreStep (GetTotals (fastCube A cs1 cs2) [cs1, cs2] [i1, lo] 0) (GetTotals (fastCube A cs1 cs2) [cs1, cs2] [i1, lo] 2)) + (SweepScoreStep (GetTotals (fastCube A cs1 cs2) [cs1, cs2] [i1, hi] 1) (GetTotals (fastCube A cs1 cs2) [cs1, cs2] [i1, hi] 3)),
        Or.inl ⟨i1, lo, hi, List.mem_range.mp hi1mem, hlolt, hhilt, rfl, ?_⟩,
        ?_, ?_⟩
      · -- output equality
        simp only [TrainMultiDimensional2D]
        rw [L1e]
        dsimp only
        rw [L2e]
        rfl
      · -- axis-0 candidates dominated
        intro c1 c2lo c2hi hb1 hb2 hb3
        obtain ⟨lo3, hi3, _, _, heqlo3, heqhi3, hoptlo3, hopthi3⟩ :=
          train2D_sweep1 A cs1 cs2 h2 c1
        have h := L1all c1 (List.mem_range.mpr hb1)
        rw [L1e, heqlo3, heqhi3] at h
        have h3 : (((SweepScoreStep (GetTotals (fastCube A cs1 cs2) [cs1, cs2] [c1, lo3] 0) (GetTotals (fastCube A cs1 cs2) [cs1, cs2] [c1, lo3] 2)) + (SweepScoreStep (GetTotals (fastCube A cs1 cs2) [cs1, cs2] [c1, hi3] 1) (GetTotals (fastCube A cs1 cs2) [cs1, cs2] [c1, hi3] 3)) : ℚ) : WithBot ℚ)
            ≤ (((SweepScoreStep (GetTotals (fastCube A cs1 cs2) [cs1, cs2] [i1, lo] 0) (GetTotals (fastCube A cs1 cs2) [cs1, cs2] [i1, lo] 2)) + (SweepScoreStep (GetTotals (fastCube A cs1 cs2) [cs1, cs2] [i1, hi] 1) (GetTotals (fastCube A cs1 cs2) [cs1, cs2] [i1, hi] 3)) : ℚ) : WithBot ℚ) := by
          rw [WithBot.coe_add, WithBot.coe_add]
          exact h
        exact le_trans (add_le_add (hoptlo3 c2lo hb2) (hopthi3 c2hi hb3))
          (WithBot.coe_le_coe.mp h3)
      · -- axis-1 candidates dominated
        intro c2 c1lo c1hi hb1 hb2 hb3
        obtain ⟨lo3, hi3, _, _, heqlo3, heqhi3, hoptlo3, hopthi3⟩ :=
          train2D_sweep2 A cs1 cs2 h1 c2
        have h := L2all c2 (List.mem_range.mpr hb1)
        rw [L2e, heqlo3, heqhi3] at h
        have h3 : (((SweepScoreStep (GetTotals (fastCube A cs1 cs2) [cs1, cs2] [lo3, c2] 0) (GetTotals (fastCube A cs1 cs2) [cs1, cs2] [lo3, c2] 1)) + (SweepScoreStep (GetTotals (fastCube A cs1 cs2) [cs1, cs2] [hi3, c2] 2) (GetTotals (fastCube A cs1 cs2) [cs1, cs2] [hi3, c2] 3)) : ℚ) : WithBot ℚ)
            ≤ (((SweepScoreStep (GetTotals (fastCube A cs1 cs2) [cs1, cs2] [i1, lo] 0) (GetTotals (fastCube A cs1 cs2) [cs1, cs2] [i1, lo] 2)) + (SweepScoreStep (GetTotals (fastCube A cs1 cs2) [cs1, cs2] [i1, hi] 1) (GetTotals (fastCube A cs1 cs2) [cs1, cs2] [i1, hi] 3)) : ℚ) : WithBot ℚ) := by
          rw [WithBot.coe_add, WithBot.coe_add]
          exact h
        exact le_trans (add_le_add (hoptlo3 c1lo hb2) (hopthi3 c1hi hb3))
          (WithBot.coe_le_coe.mp h3)
    · -- an axis-1 candidate won
      obtain ⟨lo2, hi2, hlo2lt, hhi2lt, heqlo2, heqhi2, hoptlo2, hopthi2⟩ :=
        train2D_sweep2 A cs1 cs2 h1 j2
      rw [heqlo2, heqhi2] at L2e
      refine ⟨(SweepScoreStep (GetTotals (fastCube A cs1 cs2) [cs1, cs2] [lo2, j2] 0) (GetTotals (fastCube A cs1 cs2) [cs1, cs2] [lo2, j2] 1)) + (SweepScoreStep (GetTotals (fastCube A cs1 cs2) [cs1, cs2] [hi2, j2] 2) (GetTotals (fastCube A cs1 cs2) [cs1, cs2] [hi2, j2] 3)),
        Or.inr ⟨j2, lo2, hi2, List.mem_range.mp hj2mem, hlo2lt, hhi2lt, rfl, ?_⟩,
        ?_, ?_⟩
      · simp only [TrainMultiDimensional2D]
        rw [L1e]
        dsimp only
        rw [L2e]
        rfl
      · intro c1 c2lo c2hi hb1 hb2 hb3
        obtain ⟨lo3, hi3, _, _, heqlo3, heqhi3, hoptlo3, hopthi3⟩ :=
          train2D_sweep1 A cs1 cs2 h2 c1
        have h := L1all c1 (List.mem_range.mpr hb1)
        rw [L1e, heqlo3, heqhi3] at h
        have hseed := L2seed
        rw [L2e] at hseed
        have h3 : (((SweepScoreStep (GetTotals (fastCube A cs1 cs2) [cs1, cs2] [c1, lo3] 0) (GetTotals (fastCube A cs1 cs2) [cs1, cs2] [c1, lo3] 2)) + (SweepScoreStep (GetTotals (fastCube A cs1 cs2) [cs1, cs2] [c1, hi3] 1) (GetTotals (fastCube A cs1 cs2) [cs1, cs2] [c1, hi3] 3)) : ℚ) : WithBot ℚ)
            ≤ (((SweepScoreStep (GetTotals (fastCube A cs1 cs2) [cs1, cs2] [lo2, j2] 0) (GetTotals (fastCube A cs1 cs2) [cs1, cs2] [lo2, j2] 1)) + (SweepScoreStep (GetTotals (fastCube A cs1 cs2) [cs1, cs2] [hi2, j2] 2) (GetTotals (fastCube A cs1 cs2) [cs1, cs2] [hi2, j2] 3)) : ℚ) : WithBot ℚ) := by
          rw [WithBot.coe_add, WithBot.coe_add]
          calc (((SweepScoreStep (GetTotals (fastCube A cs1 cs2) [cs1, cs2] [c1, lo3] 0) (GetTotals (fastCube A cs1 cs2) [cs1, cs2] [c1, lo3] 2)) : ℚ) : WithBot ℚ) + (((SweepScoreStep (GetTotals (fastCube A cs1 cs2) [cs1, cs2] [c1, hi3] 1) (GetTotals (fastCube A cs1 cs2) [cs1, cs2] [c1, hi3] 3)) : ℚ) : WithBot ℚ)
              ≤ ((((SweepScoreStep (GetTotals (fastCube A cs1 cs2) [cs1, cs2] [i1, lo] 0) (GetTotals (fastCube A cs1 cs2) [cs1, cs2] [i1, lo] 2)) : ℚ) : WithBot ℚ) + (((SweepScoreStep (GetTotals (fastCube A cs1 cs2) [cs1, cs2] [i1, hi] 1) (GetTotals (fastCube A cs1 cs2) [cs1, cs2] [i1, hi] 3)) : ℚ) : WithBot ℚ)) := h
            _ ≤ _ := by
                have : ((((SweepScoreStep (GetTotals (fastCube A cs1 cs2) [cs1, cs2] [i1, lo] 0) (GetTotals (fastCube A cs1 cs2) [cs1, cs2] [i1, lo] 2)) : ℚ) : WithBot ℚ) + (((SweepScoreStep (GetTotals (fastCube A cs1 cs2) [cs1, cs2] [i1, hi] 1) (GetTotals (fastCube A cs1 cs2) [cs1, cs2] [i1, hi] 3)) : ℚ) : WithBot ℚ)) ≤ (((SweepScoreStep (GetTotals (fastCube A cs1 cs2) [cs1, cs2] [lo2, j2] 0) (GetTotals (fastCube A cs1 cs2) [cs1, cs2] [lo2, j2] 1)) : ℚ) : WithBot ℚ) + (((SweepScoreStep (GetTotals (fastCube A cs1 cs2) [cs1, cs2] [hi2, j2] 2) (GetTotals (fastCube A cs1 cs2) [cs1, cs2] [hi2, j2] 3)) : ℚ) : WithBot ℚ) :=
                  hseed
                exact this
        exact le_trans (add_le_add (hoptlo3 c2lo hb2) (hopthi3 c2hi hb3))
          (WithBot.coe_le_coe.mp h3)
      · intro c2 c1lo c1hi hb1 hb2 hb3
        obtain ⟨lo3, hi3, _, _, heqlo3, heqhi3, hoptlo3, hopthi3⟩ :=
          train2D_sweep2 A cs1 cs2 h1 c2
        have h := L2all c2 (List.mem_range.mpr hb1)
        rw [L2e, heqlo3, heqhi3] at h
        have h3 : (((SweepScoreStep (GetTotals (fastCube A cs1 cs2) [cs1, cs2] [lo3, c2] 0) (GetTotals (fastCube A cs1 cs2) [cs1, cs2] [lo3, c2] 1)) + (SweepScoreStep (GetTotals (fastCube A cs1 cs2) [cs1, cs2] [hi3, c2] 2) (GetTotals (fastCube A cs1 cs2) [cs1, cs2] [hi3, c2] 3)) : ℚ) : WithBot ℚ)
            ≤ (((SweepScoreStep (GetTotals (fastCube A cs1 cs2) [cs1, cs2] [lo2, j2] 0) (GetTotals (fastCube A cs1 cs2) [cs1, cs2] [lo2, j2] 1)) + (SweepScoreStep (GetTotals (fastCube A cs1 cs2) [cs1, cs2] [hi2, j2] 2) (GetTotals (fastCube A cs1 cs2) [cs1, cs2] [hi2, j2] 3)) : ℚ) : WithBot ℚ) := by
          rw [WithBot.coe_add, WithBot.coe_add]
          exact h
        exact le_trans (add_le_add (hoptlo3 c1lo hb2) (hopthi3 c1hi hb3))
          (WithBot.coe_le_coe.mp h3)

/-- **C1**: for every 2-dimensional combination (with at least two states per
axis, so that the enumerated split space is non-empty) and every binned
residual histogram, the pair splitter emits the tensor (cuts and per-region
predictions) of an enumerated two-level candidate — a primary axis, a primary
cut on it, and independent per-side secondary cuts on the other axis — whose
additive four-quadrant score is the maximum over the entire enumerated
split space. -/
theorem trainPair_argmax {vl : ℕ} (A : ℕ → BinnedBucket vl)
    (cs1 cs2 : ℕ) (h1 : 2 ≤ cs1) (h2 : 2 ≤ cs2) :
    ∃ best : ℚ,
      ((∃ c1 c2lo c2hi, c1 < cs1 - 1 ∧ c2lo < cs2 - 1 ∧ c2hi < cs2 - 1
          ∧ best = candScoreFirst (fastCube A cs1 cs2) cs1 cs2 c1 c2lo c2hi
          ∧ TrainMultiDimensional2D A cs1 cs2
              = candEmitFirst (fastCube A cs1 cs2) cs1 cs2 c1 c2lo c2hi)
        ∨ (∃ c2 c1lo c1hi, c2 < cs2 - 1 ∧ c1lo < cs1 - 1 ∧ c1hi < cs1 - 1
          ∧ best = candScoreSecond (fastCube A cs1 cs2) cs1 cs2 c2 c1lo c1hi
          ∧ TrainMultiDimensional2D A cs1 cs2
              = candEmitSecond (fastCube A cs1 cs2) cs1 cs2 c2 c1lo c1hi))
      ∧ (∀ c1 c2lo c2hi, c1 < cs1 - 1 → c2lo < cs2 - 1 → c2hi < cs2 - 1 →
          candScoreFirst (fastCube A cs1 cs2) cs1 cs2 c1 c2lo c2hi ≤ best)
      ∧ (∀ c2 c1lo c1hi, c2 < cs2 - 1 → c1lo < cs1 - 1 → c1hi < cs1 - 1 →
          candScoreSecond (fastCube A cs1 cs2) cs1 cs2 c2 c1lo c1hi ≤ best) :=
  train2D_characterization A cs1 cs2 h1 h2

theorem trainPair_argmax_witness :
    2 ≤ 2 ∧
    (
    ∃ best : ℚ,
      ((∃ c1 c2lo c2hi, c1 < 2 - 1 ∧ c2lo < 2 - 1 ∧ c2hi < 2 - 1
          ∧ best = candScoreFirst (fastCube (fun _ => (0 : BinnedBucket 0)) 2 2) 2 2 c1 c2lo c2hi
          ∧ TrainMultiDimensional2D (fun _ => (0 : BinnedBucket 0)) 2 2
              = candEmitFirst (fastCube (fun _ => (0 : BinnedBucket 0)) 2 2) 2 2 c1 c2lo c2hi)
        ∨ (∃ c2 c1lo c1hi, c2 < 2 - 1 ∧ c1lo < 2 - 1 ∧ c1hi < 2 - 1
          ∧ best = candScoreSecond (fastCube (fun _ => (0 : BinnedBucket 0)) 2 2) 2 2 c2 c1lo c1hi
          ∧ TrainMultiDimensional2D (fun _ => (0 : BinnedBucket 0)) 2 2
              = candEmitSecond (fastCube (fun _ => (0 : BinnedBucket 0)) 2 2) 2 2 c2 c1lo c1hi))
      ∧ (∀ c1 c2lo c2hi, c1 < 2 - 1 → c2lo < 2 - 1 → c2hi < 2 - 1 →
          candScoreFirst (fastCube (fun _ => (0 : BinnedBucket 0)) 2 2) 2 2 c1 c2lo c2hi ≤ best)
      ∧ (∀ c2 c1lo c1hi, c2 < 2 - 1 → c1lo < 2 - 1 → c1hi < 2 - 1 →
          candScoreSecond (fastCube (fun _ => (0 : BinnedBucket 0)) 2 2) 2 2 c2 c1lo c1hi ≤ best)) :=
  ⟨le_refl 2, trainPair_argmax (fun _ => (0 : BinnedBucket 0)) 2 2
    (le_refl 2) (le_refl 2)⟩

theorem foldl_preserve {α β : Type} (P : α → Prop) (f : α → β → α)
    (hstep : ∀ a b, P a → P (f a b)) :
    ∀ (l : List β) (init : α), P init → P (l.foldl f init) := by
  intro l
  induction l with
  | nil => intro init h; exact h
  | cons b l ih =>
    intro init h
    rw [List.foldl_cons]
    exact ih _ (hstep init b h)

theorem add_resZero {vl : ℕ} {a b : BinnedBucket vl}
    (ha : a.sumResidualError = 0) (hb : b.sumResidualError = 0) :
    (a + b).sumResidualError = 0 := by
  rw [BinnedBucket.add_res, ha, hb, add_zero]

theorem sub_resZero {vl : ℕ} {a b : BinnedBucket vl}
    (ha : a.sumResidualError = 0) (hb : b.sumResidualError = 0) :
    (a - b).sumResidualError = 0 := by
  rw [BinnedBucket.sub_res, ha, hb, sub_zero]

theorem getD_resZero {vl : ℕ} {rs : List (ℕ → BinnedBucket vl)}
    (hr : ∀ g ∈ rs, ∀ x, (g x).sumResidualError = 0) (d : ℕ) (x : ℕ) :
    ((rs.getD d (fun _ => 0)) x).sumResidualError = 0 := by
  by_cases hd : d < rs.length
  · rw [List.getD_eq_getElem _ _ hd]
    exact hr _ (List.getElem_mem hd) x
  · rw [List.getD_eq_default _ _ (by omega)]
    rfl

theorem cascade_resZero {vl : ℕ} (cs t : List ℕ) :
    ∀ (idxs : List ℕ) (rs : List (ℕ → BinnedBucket vl))
      (acc : BinnedBucket vl),
      (∀ g ∈ rs, ∀ x, (g x).sumResidualError = 0) →
      acc.sumResidualError = 0 →
      (∀ g ∈ (idxs.foldl (cascadeStep cs t) (rs, acc)).1, ∀ x,
        (g x).sumResidualError = 0)
      ∧ ((idxs.foldl (cascadeStep cs t) (rs, acc)).2).sumResidualError
          = 0 := by
  intro idxs
  induction idxs with
  | nil => intro rs acc hr ha; exact ⟨hr, ha⟩
  | cons d idxs ih =>
    intro rs acc hr ha
    rw [List.foldl_cons]
    have hnew : ((rs.getD d (fun _ => 0)
          (tensorIndex (cs.take d) (t.take d)) + acc)).sumResidualError
        = 0 :=
      add_resZero (getD_resZero hr d _) ha
    refine ih _ _ ?_ hnew
    intro g hg x
    rcases List.mem_or_eq_of_mem_set hg with hg' | rfl
    · exact hr g hg' x
    · by_cases hx : x = tensorIndex (cs.take d) (t.take d)
      · subst hx
        rw [Function.update_same]
        exact hnew
      · rw [Function.update_noteq hx]
        exact getD_resZero hr d x

theorem step_resZero {vl : ℕ} (cs : List ℕ) (σ : FastTotalState vl)
    (t : List ℕ)
    (hm : ∀ x, (σ.main x).sumResidualError = 0)
    (hr : ∀ g ∈ σ.rings, ∀ x, (g x).sumResidualError = 0) :
    (∀ x, ((BuildFastTotalsStep cs σ t).main x).sumResidualError = 0)
    ∧ (∀ g ∈ (BuildFastTotalsStep cs σ t).rings, ∀ x,
        (g x).sumResidualError = 0) := by
  obtain ⟨hc1, hc2⟩ := cascade_resZero cs t ((List.range cs.length).reverse)
    σ.rings (σ.main (tensorIndex cs t)) hr (hm _)
  constructor
  · intro x
    show ((Function.update σ.main (tensorIndex cs t) _) x).sumResidualError
      = 0
    by_cases hx : x = tensorIndex cs t
    · subst hx
      rw [Function.update_same]
      exact hc2
    · rw [Function.update_noteq hx]
      exact hm x
  · intro g hg x
    have := foldl_preserve
      (fun rs : List (ℕ → BinnedBucket vl) =>
        ∀ g ∈ rs, ∀ x, (g x).sumResidualError = 0)
      (fun rs d => if ringWraps cs t d then rs.set d (fun _ => 0) else rs)
      (fun rs d hrs => by
        dsimp only at hrs ⊢
        by_cases hw : ringWraps cs t d
        · rw [if_pos hw]
          intro g hg x
          rcases List.mem_or_eq_of_mem_set hg with hg' | rfl
          · exact hrs g hg' x
          · rfl
        · rw [if_neg hw]; exact hrs)
      (List.range cs.length) _ hc1
    exact this g hg x

theorem fastCube_resZero {vl : ℕ} (A : ℕ → BinnedBucket vl)
    (cs1 cs2 : ℕ) (hA : ∀ x, (A x).sumResidualError = 0) :
    ∀ x, ((fastCube A cs1 cs2) x).sumResidualError = 0 := by
  have := foldl_preserve
    (fun σ : FastTotalState vl =>
      (∀ x, (σ.main x).sumResidualError = 0)
      ∧ (∀ g ∈ σ.rings, ∀ x, (g x).sumResidualError = 0))
    (BuildFastTotalsStep [cs1, cs2])
    (fun σ t hσ => step_resZero [cs1, cs2] σ t hσ.1 hσ.2)
    (gridTuples [cs1, cs2])
    ⟨A, List.replicate ([cs1, cs2]).length (fun _ => 0)⟩
    ⟨hA, by
      intro g hg x
      rw [List.eq_of_mem_replicate hg]
      rfl⟩
  exact this.1

theorem GetTotals_resZero {vl : ℕ} (cube : ℕ → BinnedBucket vl)
    (hz : ∀ x, (cube x).sumResidualError = 0) (cs p : List ℕ) (v : ℕ) :
    (GetTotals cube cs p v).sumResidualError = 0 := by
  unfold GetTotals
  by_cases hv : v = 0
  · rw [if_pos hv]
    exact hz _
  · rw [if_neg hv]
    exact foldl_preserve (fun b : BinnedBucket vl => b.sumResidualError = 0)
      _ (fun b m hb => by
        by_cases hp : (permuteStep
            (GetTotalsSetup (cs.zip p) v 1 0).1 m
            (GetTotalsSetup (cs.zip p) v 1 0).2
            (GetTotalsSetup (cs.zip p) v 1 0).1.length).2 % 2 = 1
        · rw [if_pos hp]
          exact sub_resZero hb (hz _)
        · rw [if_neg hp]
          exact add_resZero hb (hz _))
      _ _ rfl

theorem SweepScoreStep_zero {vl : ℕ} {a b : BinnedBucket vl}
    (ha : a.sumResidualError = 0) (hb : b.sumResidualError = 0) :
    SweepScoreStep a b = 0 := by
  unfold SweepScoreStep
  apply List.sum_eq_zero
  intro q hq
  rw [List.mem_map] at hq
  obtain ⟨i, _, rfl⟩ := hq
  have ha' : a.sumResidualError i = 0 := by rw [ha]; rfl
  have hb' : b.sumResidualError i = 0 := by rw [hb]; rfl
  rw [ha', hb']
  unfold ComputeNodeSplittingScore
  by_cases hca : a.cCasesInBucket = 0 <;>
    by_cases hcb : b.cCasesInBucket = 0 <;>
      simp [hca, hcb]

theorem regionPrediction_zero {vl : ℕ} {b : BinnedBucket vl}
    (hb : b.sumResidualError = 0) :
    regionPrediction b = fun _ => 0 := by
  funext i
  unfold regionPrediction ComputeSmallChangeInRegressionPredictionForOneSegment
  have hb' : b.sumResidualError i = 0 := by rw [hb]; rfl
  by_cases hc : b.cCasesInBucket = 0 <;> simp [hc, hb']

/-- On a zero-residual cube every candidate of a sweep scores zero, so the
sweep settles on cut 0. -/
theorem sweep_zero {vl : ℕ} (cube : ℕ → BinnedBucket vl)
    (hz : ∀ x, (cube x).sumResidualError = 0) (cs aiPoint : List ℕ)
    (dl isw : ℕ) (hc : 2 ≤ cs.getD isw 0) :
    SweepMultiDiemensional cube cs aiPoint dl isw (0, 0)
      = (((0 : ℚ) : WithBot ℚ), 0,
         (GetTotals cube cs (aiPoint.set isw 0) dl,
          GetTotals cube cs (aiPoint.set isw 0) (dl ||| 2 ^ isw))) := by
  obtain ⟨k, hk⟩ : ∃ k, cs.getD isw 0 - 1 = k + 1 :=
    ⟨cs.getD isw 0 - 2, by omega⟩
  have hrange : List.range (cs.getD isw 0 - 1)
      = 0 :: (List.range k).map Nat.succ := by
    rw [hk, List.range_succ_eq_map]
  have hconst : ∀ i ∈ List.range (cs.getD isw 0 - 1),
      ((SweepScoreStep (GetTotals cube cs (aiPoint.set isw i) dl)
        (GetTotals cube cs (aiPoint.set isw i) (dl ||| 2 ^ isw)) : ℚ)
          : WithBot ℚ)
        = ((0 : ℚ) : WithBot ℚ) := by
    intro i _
    rw [SweepScoreStep_zero (GetTotals_resZero cube hz _ _ _)
      (GetTotals_resZero cube hz _ _ _)]
  exact foldl_best_const
    (fun i => ((SweepScoreStep (GetTotals cube cs (aiPoint.set isw i) dl)
      (GetTotals cube cs (aiPoint.set isw i) (dl ||| 2 ^ isw)) : ℚ)
        : WithBot ℚ))
    (fun i => (i, (GetTotals cube cs (aiPoint.set isw i) dl,
      GetTotals cube cs (aiPoint.set isw i) (dl ||| 2 ^ isw))))
    _ (fun st i => rfl) 0 (List.range (cs.getD isw 0 - 1)) (0, (0, 0))
    hconst 0 ((List.range k).map Nat.succ) hrange

/-- On a zero-residual histogram the splitter emits the first candidate:
cut 0 on both axes and all-zero predictions, returning success. -/
theorem train2D_zero_residuals_aux {vl : ℕ} (A : ℕ → BinnedBucket vl)
    (cs1 cs2 : ℕ) (h1 : 2 ≤ cs1) (h2 : 2 ≤ cs2)
    (hA : ∀ x, (A x).sumResidualError = 0) :
    TrainMultiDimensional2D A cs1 cs2
      = ⟨[0], [0], List.replicate 4 (fun _ => 0), false⟩ := by
  have hcube := fastCube_resZero A cs1 cs2 hA
  have hsz : ∀ (p : List ℕ) (dl isw : ℕ), 2 ≤ [cs1, cs2].getD isw 0 →
      SweepMultiDiemensional (fastCube A cs1 cs2) [cs1, cs2] p dl isw (0, 0)
        = (((0 : ℚ) : WithBot ℚ), 0,
           (GetTotals (fastCube A cs1 cs2) [cs1, cs2] (p.set isw 0) dl,
            GetTotals (fastCube A cs1 cs2) [cs1, cs2] (p.set isw 0) (dl ||| 2 ^ isw))) :=
    fun p dl isw hc => sweep_zero (fastCube A cs1 cs2) hcube [cs1, cs2] p dl isw hc
  have hconst1 : ∀ i ∈ List.range (cs1 - 1),
      (SweepMultiDiemensional (fastCube A cs1 cs2) [cs1, cs2] [i, 0] 0 1 (0, 0)).1 + (SweepMultiDiemensional (fastCube A cs1 cs2) [cs1, cs2] [i, 0] 1 1 (0, 0)).1
        = ((0 : ℚ) : WithBot ℚ) := by
    intro i _
    rw [hsz [i, 0] 0 1 h2, hsz [i, 0] 1 1 h2]
    show ((0 : ℚ) : WithBot ℚ) + ((0 : ℚ) : WithBot ℚ) = _
    rw [← WithBot.coe_add, add_zero]
  have hconst2 : ∀ j ∈ List.range (cs2 - 1),
      (SweepMultiDiemensional (fastCube A cs1 cs2) [cs1, cs2] [0, j] 0 0 (0, 0)).1 + (SweepMultiDiemensional (fastCube A cs1 cs2) [cs1, cs2] [0, j] 2 0 (0, 0)).1
        = ((0 : ℚ) : WithBot ℚ) := by
    intro j _
    rw [hsz [0, j] 0 0 h1, hsz [0, j] 2 0 h1]
    show ((0 : ℚ) : WithBot ℚ) + ((0 : ℚ) : WithBot ℚ) = _
    rw [← WithBot.coe_add, add_zero]
  obtain ⟨k1, hk1⟩ : ∃ k, cs1 - 1 = k + 1 := ⟨cs1 - 2, by omega⟩
  have hrange1 : List.range (cs1 - 1) = 0 :: (List.range k1).map Nat.succ := by
    rw [hk1, List.range_succ_eq_map]
  have hr1 := foldl_best_const
    (fun i => (SweepMultiDiemensional (fastCube A cs1 cs2) [cs1, cs2] [i, 0] 0 1 (0, 0)).1 + (SweepMultiDiemensional (fastCube A cs1 cs2) [cs1, cs2] [i, 0] 1 1 (0, 0)).1)
    (fun i => (⟨i, (SweepMultiDiemensional (fastCube A cs1 cs2) [cs1, cs2] [i, 0] 0 1 (0, 0)).2.1, (SweepMultiDiemensional (fastCube A cs1 cs2) [cs1, cs2] [i, 0] 1 1 (0, 0)).2.1, (SweepMultiDiemensional (fastCube A cs1 cs2) [cs1, cs2] [i, 0] 0 1 (0, 0)).2.2, (SweepMultiDiemensional (fastCube A cs1 cs2) [cs1, cs2] [i, 0] 1 1 (0, 0)).2.2⟩ : PairCand vl))
    _ (fun st i => rfl) 0 (List.range (cs1 - 1)) (⟨0, 0, 0, (0, 0), (0, 0)⟩ : PairCand vl)
    hconst1 0 ((List.range k1).map Nat.succ) hrange1
  beta_reduce at hr1
  rw [hsz [0, 0] 0 1 h2, hsz [0, 0] 1 1 h2] at hr1
  have hr2 := foldl_best_noimprove
    (fun j => (SweepMultiDiemensional (fastCube A cs1 cs2) [cs1, cs2] [0, j] 0 0 (0, 0)).1 + (SweepMultiDiemensional (fastCube A cs1 cs2) [cs1, cs2] [0, j] 2 0 (0, 0)).1)
    (fun j => ((true, (⟨j, (SweepMultiDiemensional (fastCube A cs1 cs2) [cs1, cs2] [0, j] 0 0 (0, 0)).2.1, (SweepMultiDiemensional (fastCube A cs1 cs2) [cs1, cs2] [0, j] 2 0 (0, 0)).2.1, (SweepMultiDiemensional (fastCube A cs1 cs2) [cs1, cs2] [0, j] 0 0 (0, 0)).2.2, (SweepMultiDiemensional (fastCube A cs1 cs2) [cs1, cs2] [0, j] 2 0 (0, 0)).2.2⟩ : PairCand vl)) : Bool × PairCand vl))
    _ (fun st j => rfl) (List.range (cs2 - 1)) ((0 : ℚ) : WithBot ℚ)
    ((false, (⟨0, 0, 0, (0, 0), (0, 0)⟩ : PairCand vl)) : Bool × PairCand vl)
    (fun j hj => by
      beta_reduce
      rw [hconst2 j hj]
      exact lt_irrefl _)
  beta_reduce at hr2
  have hpred : ∀ (p : List ℕ) (v : ℕ),
      regionPrediction (GetTotals (fastCube A cs1 cs2) [cs1, cs2] p v)
        = fun _ => 0 :=
    fun p v => regionPrediction_zero (GetTotals_resZero (fastCube A cs1 cs2) hcube [cs1, cs2] p v)
  simp only [TrainMultiDimensional2D]
  rw [hr1]
  dsimp only
  rw [hr2]
  dsimp only
  unfold EmitFirst
  rw [if_neg (lt_irrefl 0), if_neg (lt_irrefl 0)]
  rw [hpred, hpred, hpred, hpred]
  rfl

theorem EmitFirst_mem0 {vl : ℕ} {c lo hi : ℕ}
    {LL LH HL HH : BinnedBucket vl} {d : ℕ}
    (hd : d ∈ (EmitFirst c lo hi LL LH HL HH).divisions0) : d = c := by
  unfold EmitFirst at hd
  split_ifs at hd <;> simpa using hd

theorem EmitFirst_mem1 {vl : ℕ} {c lo hi : ℕ}
    {LL LH HL HH : BinnedBucket vl} {d : ℕ}
    (hd : d ∈ (EmitFirst c lo hi LL LH HL HH).divisions1) :
    d = lo ∨ d = hi := by
  unfold EmitFirst at hd
  split_ifs at hd <;> simp at hd <;> tauto

theorem EmitSecond_mem1 {vl : ℕ} {c lo hi : ℕ}
    {LL LH HL HH : BinnedBucket vl} {d : ℕ}
    (hd : d ∈ (EmitSecond c lo hi LL LH HL HH).divisions1) : d = c := by
  unfold EmitSecond at hd
  split_ifs at hd <;> simpa using hd

theorem EmitSecond_mem0 {vl : ℕ} {c lo hi : ℕ}
    {LL LH HL HH : BinnedBucket vl} {d : ℕ}
    (hd : d ∈ (EmitSecond c lo hi LL LH HL HH).divisions0) :
    d = lo ∨ d = hi := by
  unfold EmitSecond at hd
  split_ifs at hd <;> simp at hd <;> tauto

/-- **C6 (corrected)**: every cut position the 2-dimensional splitter writes
lies in `{0, …, cStates_d − 2}` for its axis (the candidate cuts are the
loop indices `iState < cStates − 1`); contrary to the spec, position `0` is
a legal — and sometimes forced — output, and `cStates_d − 1` is never
emitted. -/
theorem train2D_cuts_lt {vl : ℕ} (A : ℕ → BinnedBucket vl)
    (cs1 cs2 : ℕ) (h1 : 2 ≤ cs1) (h2 : 2 ≤ cs2) :
    (∀ d ∈ (TrainMultiDimensional2D A cs1 cs2).divisions0, d < cs1 - 1)
    ∧ (∀ d ∈ (TrainMultiDimensional2D A cs1 cs2).divisions1, d < cs2 - 1) := by
  obtain ⟨best, hcase, _, _⟩ := train2D_characterization A cs1 cs2 h1 h2
  rcases hcase with ⟨c1, lo, hi, hb1, hb2, hb3, _, hout⟩
    | ⟨c2, lo, hi, hb1, hb2, hb3, _, hout⟩
  · rw [hout]
    unfold candEmitFirst
    constructor
    · intro d hd
      rw [EmitFirst_mem0 hd]
      exact hb1
    · intro d hd
      rcases EmitFirst_mem1 hd with rfl | rfl
      · exact hb2
      · exact hb3
  · rw [hout]
    unfold candEmitSecond
    constructor
    · intro d hd
      rcases EmitSecond_mem0 hd with rfl | rfl
      · exact hb2
      · exact hb3
    · intro d hd
      rw [EmitSecond_mem1 hd]
      exact hb1

theorem train2D_cuts_lt_witness :
    2 ≤ 2
    ∧ (∀ d ∈ (TrainMultiDimensional2D (fun _ => (0 : BinnedBucket 0)) 2 2).divisions0,
        d < 2 - 1)
    ∧ (∀ d ∈ (TrainMultiDimensional2D (fun _ => (0 : BinnedBucket 0)) 2 2).divisions1,
        d < 2 - 1) :=
  ⟨le_refl 2, train2D_cuts_lt (fun _ => (0 : BinnedBucket 0)) 2 2
    (le_refl 2) (le_refl 2)⟩

/-- Counterexample to the spec's "never proposes cuts outside
`{1, …, cStates_d − 1}`": on a 2×2 combination (with the all-zero histogram,
though any histogram forces it there) the splitter emits the cut position
`0` on axis 0. -/
theorem splitter_cut_zero_counterexample :
    0 ∈ (TrainMultiDimensional2D (fun _ => (0 : BinnedBucket 0)) 2 2).divisions0 := by
  rw [train2D_zero_residuals_aux (fun _ => (0 : BinnedBucket 0)) 2 2
    (le_refl 2) (le_refl 2) (fun x => rfl)]
  exact List.mem_singleton_self 0

/-- **C7 (corrected)**: when every residual is zero (so every sweep scores
exactly `0`), the splitter does not emit a single-region tensor: the very
first candidate (primary cut `0`, secondary cuts `0`) is accepted over the
`-∞` seed, producing one cut at position `0` on each axis, four regions of
all-zero predictions, and a success return. -/
theorem train2D_zero_residual_output {vl : ℕ} (A : ℕ → BinnedBucket vl)
    (cs1 cs2 : ℕ) (h1 : 2 ≤ cs1) (h2 : 2 ≤ cs2)
    (hA : ∀ x, (A x).sumResidualError = 0) :
    TrainMultiDimensional2D A cs1 cs2
      = ⟨[0], [0], List.replicate 4 (fun _ => 0), false⟩ :=
  train2D_zero_residuals_aux A cs1 cs2 h1 h2 hA

theorem train2D_zero_residual_output_witness :
    2 ≤ 3
    ∧ TrainMultiDimensional2D (fun _ => (⟨3, 0, 0⟩ : BinnedBucket 1)) 3 2
      = ⟨[0], [0], List.replicate 4 (fun _ => 0), false⟩ :=
  ⟨by omega, train2D_zero_residual_output (fun _ => (⟨3, 0, 0⟩ : BinnedBucket 1))
    3 2 (by omega) (le_refl 2) (fun x => rfl)⟩

/-- Counterexample to the spec's "single-region constant-0 tensor" claim:
with all-zero residuals (every sweep scores `0`, the spec's premise), the
2×2 splitter still writes a cut on each axis (`divisions0 = divisions1 =
[0]`, not the empty cut arrays of a single-region tensor) while returning
success. -/
theorem splitter_single_region_counterexample :
    (TrainMultiDimensional2D (fun _ => (0 : BinnedBucket 0)) 2 2).divisions0 = [0]
    ∧ (TrainMultiDimensional2D (fun _ => (0 : BinnedBucket 0)) 2 2).divisions1 = [0]
    ∧ (TrainMultiDimensional2D (fun _ => (0 : BinnedBucket 0)) 2 2).bError = false
    ∧ ([0] : List ℕ) ≠ [] := by
  have h := train2D_zero_residuals_aux (fun _ => (0 : BinnedBucket 0)) 2 2
    (le_refl 2) (le_refl 2) (fun x => rfl)
  exact ⟨by rw [h], by rw [h], by rw [h], by decide⟩

/-! ### Correctness of `SegmentedRegionCore::Expand`'s reverse traversal -/

namespace SegmentedRegionCore

theorem regionOf_zero (divs : List ℕ) : regionOf divs 0 = 0 := by
  unfold regionOf
  rw [List.countP_eq_zero.mpr]
  intro d _
  simp

theorem regionOf_le_length (divs : List ℕ) (x : ℕ) :
    regionOf divs x ≤ divs.length :=
  List.countP_le_length _

theorem regionOf_succ (divs : List ℕ) (p : ℕ)
    (hs : List.Pairwise (· < ·) divs) :
    regionOf divs (p + 1)
      = regionOf divs p + (if p ∈ divs then 1 else 0) := by
  induction divs with
  | nil => simp [regionOf]
  | cons d rest ih =>
    have hd : ∀ x ∈ rest, d < x := (List.pairwise_cons.mp hs).1
    have hs' : List.Pairwise (· < ·) rest := (List.pairwise_cons.mp hs).2
    unfold regionOf at ih ⊢
    rw [List.countP_cons, List.countP_cons, ih hs']
    by_cases hdp : d = p
    · subst hdp
      have hnm : ¬ d ∈ rest := fun hm => lt_irrefl d (hd d hm)
      have e1 : (if (decide (d < d + 1) = true) then (1 : ℕ) else 0) = 1 := by
        simp
      have e2 : (if (decide (d < d) = true) then (1 : ℕ) else 0) = 0 := by
        simp
      have e3 : (if d ∈ rest then (1 : ℕ) else 0) = 0 := by simp [hnm]
      have e4 : (if d ∈ d :: rest then (1 : ℕ) else 0) = 1 := by
        simp [List.mem_cons_self]
      rw [e1, e2, e3, e4]
    · have e4 : (if p ∈ d :: rest then (1 : ℕ) else 0)
          = (if p ∈ rest then (1 : ℕ) else 0) := by
        by_cases hm : p ∈ rest
        · simp [hm, List.mem_cons]
        · have hne : ¬ p = d := fun h => hdp h.symm
          simp [hm, List.mem_cons, hne]
      rw [e4]
      have e5 : (if (decide (d < p + 1) = true) then (1 : ℕ) else 0)
          = (if (decide (d < p) = true) then (1 : ℕ) else 0) := by
        by_cases hlt : d < p
        · simp [hlt, Nat.lt_succ_of_lt hlt]
        · have h1 : ¬ d < p + 1 := by omega
          simp [hlt, h1]
      rw [e5]
      ring

theorem regionOf_mono (divs : List ℕ) (p : ℕ)
    (hs : List.Pairwise (· < ·) divs) :
    regionOf divs p ≤ regionOf divs (p + 1) := by
  rw [regionOf_succ divs p hs]
  omega

theorem regionOf_full (divs : List ℕ) (rc : ℕ)
    (hb : ∀ d ∈ divs, d + 1 < rc) :
    regionOf divs (rc - 1) = divs.length := by
  unfold regionOf
  rw [List.countP_eq_length.mpr]
  intro d hd
  have := hb d hd
  simp
  omega

theorem regionOf_range (n x : ℕ) (hx : x ≤ n) :
    regionOf (List.range n) x = x := by
  unfold regionOf
  obtain ⟨k, rfl⟩ : ∃ k, n = x + k := ⟨n - x, by omega⟩
  rw [List.range_add, List.countP_append]
  have h1 : (List.range x).countP (fun d => decide (d < x)) = x := by
    rw [List.countP_eq_length.mpr, List.length_range]
    intro d hd
    simp [List.mem_range.mp hd]
  have h2 : ((List.range k).map (fun y => x + y)).countP
      (fun d => decide (d < x)) = 0 := by
    rw [List.countP_eq_zero.mpr]
    intro d hd
    rw [List.mem_map] at hd
    obtain ⟨y, _, rfl⟩ := hd
    simp only [decide_eq_true_eq]
    omega
  rw [h1, h2]
  omega

/-- The largest division below `p + 1` witnesses whether `p` is itself a
division: for strictly ascending divisions with at least one below `p + 1`,
`p ≤ divs[regionOf divs (p+1) - 1]` exactly when `p ∈ divs`. -/
theorem regionOf_getD (divs : List ℕ) (p : ℕ)
    (hs : List.Pairwise (· < ·) divs)
    (hr : 1 ≤ regionOf divs (p + 1)) :
    (p ≤ divs.getD (regionOf divs (p + 1) - 1) 0) ↔ p ∈ divs := by
  induction divs with
  | nil => simp [regionOf] at hr
  | cons d rest ih =>
    have hd : ∀ x ∈ rest, d < x := fun x hx => (List.pairwise_cons.mp hs).1 x hx
    have hs' : List.Pairwise (· < ·) rest := (List.pairwise_cons.mp hs).2
    by_cases hdlt : d < p + 1
    · have hre : regionOf (d :: rest) (p + 1) = regionOf rest (p + 1) + 1 := by
        unfold regionOf
        rw [List.countP_cons]
        simp [hdlt]
      rw [hre]
      by_cases hr' : 1 ≤ regionOf rest (p + 1)
      · have hgd : (d :: rest).getD (regionOf rest (p + 1) + 1 - 1) 0
            = rest.getD (regionOf rest (p + 1) - 1) 0 := by
          have h1 : regionOf rest (p + 1) + 1 - 1 = (regionOf rest (p + 1) - 1) + 1 := by
            omega
          rw [h1]
          rfl
        rw [hgd, ih hs' hr']
        have hdnep : d ≠ p := by
          intro he
          subst he
          unfold regionOf at hr'
          rw [List.countP_eq_zero.mpr] at hr'
          · omega
          · intro x hx
            have := hd x hx
            simp
            omega
        constructor
        · intro h
          exact List.mem_cons_of_mem _ h
        · intro h
          rcases List.mem_cons.mp h with he | h'
          · exact absurd he.symm hdnep
          · exact h'
      · have hz : regionOf rest (p + 1) = 0 := by omega
        rw [hz]
        have hgd : (d :: rest).getD 0 0 = d := rfl
        simp only [zero_add, Nat.sub_self, hgd]
        have hnorest : p ∉ rest := by
          intro hm
          unfold regionOf at hz
          rw [List.countP_eq_zero] at hz
          have := hz p hm
          simp at this
        constructor
        · intro h
          have : d = p := by omega
          rw [this]
          exact List.mem_cons_self p rest
        · intro h
          rcases List.mem_cons.mp h with he | h'
          · omega
          · exact absurd h' hnorest
    · exfalso
      have : regionOf (d :: rest) (p + 1) = 0 := by
        unfold regionOf
        rw [List.countP_eq_zero.mpr]
        intro x hx
        rcases List.mem_cons.mp hx with rfl | hx'
        · simp; omega
        · have := hd x hx'
          simp
          omega
      omega

/-- A strictly ascending list of `k` naturals all below `k` is `0,…,k−1`. -/
theorem increasing_bounded_eq_range (l : List ℕ) (k : ℕ)
    (hs : List.Pairwise (· < ·) l) (hb : ∀ d ∈ l, d < k)
    (hl : l.length = k) : l = List.range k := by
  have hnd : l.Nodup := hs.imp (fun h => Nat.ne_of_lt h)
  have hsub : l.toFinset ⊆ (List.range k).toFinset := by
    intro x hx
    rw [List.mem_toFinset] at hx
    rw [List.mem_toFinset, List.mem_range]
    exact hb x hx
  have hcard : (List.range k).toFinset.card ≤ l.toFinset.card := by
    rw [List.toFinset_card_of_nodup hnd,
      List.toFinset_card_of_nodup (List.nodup_range _), hl,
      List.length_range]
  have hfeq : l.toFinset = (List.range k).toFinset :=
    Finset.eq_of_subset_of_card_le hsub hcard
  have hperm : l.Perm (List.range k) :=
    List.perm_of_nodup_nodup_toFinset_eq hnd (List.nodup_range _) hfeq
  exact List.eq_of_perm_of_sorted hperm hs (List.pairwise_lt_range _)

end SegmentedRegionCore

namespace SegmentedRegionCore

/-- The predecessor of a grid tuple in flat order (coordinate 0 fastest). -/
def predT : List ℕ → List ℕ → List ℕ
  | rc :: rcs, 0 :: ps => (rc - 1) :: predT rcs ps
  | _ :: _, (p + 1) :: ps => p :: ps
  | _, _ => []

/-- The odometer stack of `Expand` when the cell being written is grid point
`ps` of the requested dense grid. -/
def stackFor : List (List ℕ) → List ℕ → List ℕ → List (ℤ × ℤ × ℤ)
  | divs :: dims, rc :: rcs, p :: ps =>
    ((regionOf divs p : ℤ) - 1, (p : ℤ) - 1, (rc : ℤ) - 2)
      :: stackFor dims rcs ps
  | _, _, _ => []

/-- Per-dimension well-formedness for `Expand`: strictly ascending divisions
whose values leave at least one state above them. -/
def dimWF (divs : List ℕ) (rc : ℕ) : Prop :=
  List.Pairwise (· < ·) divs ∧ (∀ d ∈ divs, d + 1 < rc) ∧ 1 ≤ rc

theorem predT_lt : ∀ (rcs ps : List ℕ),
    List.Forall₂ (fun p rc => p < rc) ps rcs →
    List.Forall₂ (fun p rc => p < rc) (predT rcs ps) rcs := by
  intro rcs ps h
  induction h with
  | nil => exact List.Forall₂.nil
  | cons hpr htail ih =>
    rename_i p rc ps' rcs'
    cases p with
    | zero => exact List.Forall₂.cons (by omega) ih
    | succ p' => exact List.Forall₂.cons (by omega) htail

/-- One odometer step of `Expand`'s reverse traversal: from the stack and
flat old-region cursor of grid point `ps`, the walk produces the stack and
cursor of the flat predecessor of `ps`. -/
theorem ExpandWalk_spec :
    ∀ (dims : List (List ℕ)) (rcs ps : List ℕ),
      List.Forall₂ dimWF dims rcs →
      List.Forall₂ (fun p rc => p < rc) ps rcs →
      (∃ x ∈ ps, x ≠ 0) →
      ∀ (base mult : ℕ),
      ExpandWalk dims (stackFor dims rcs ps)
          (base + mult * tensorIndex (dims.map (fun divs => divs.length + 1))
            (List.zipWith regionOf dims ps)) mult
        = (stackFor dims rcs (predT rcs ps),
           base + mult * tensorIndex (dims.map (fun divs => divs.length + 1))
             (List.zipWith regionOf dims (predT rcs ps))) := by
  intro dims
  induction dims with
  | nil =>
    intro rcs ps hWF hlt hne base mult
    cases hWF
    cases hlt
    obtain ⟨x, hx, _⟩ := hne
    exact absurd hx (List.not_mem_nil x)
  | cons divs dims' ih =>
    intro rcs ps hWF hlt hne base mult
    rcases hWF with _ | ⟨hWF1, hWF'⟩
    rename_i rc rcs'
    rcases hlt with _ | ⟨hp, hlt'⟩
    rename_i p ps'
    obtain ⟨hsort, hbound, hrc⟩ := hWF1
    cases p with
    | succ p' =>
      simp only [stackFor, predT, ExpandWalk, List.zipWith_cons_cons,
        List.map_cons, tensorIndex_cons]
      by_cases hr : 1 ≤ regionOf divs (p' + 1)
      · rw [if_pos (by
          have h1 : (1 : ℤ) ≤ (regionOf divs (p' + 1) : ℤ) := by
            exact_mod_cast hr
          omega)]
        have htn : ((regionOf divs (p' + 1) : ℤ) - 1).toNat
            = regionOf divs (p' + 1) - 1 := by omega
        rw [htn]
        have hchange : (if ((p' + 1 : ℕ) : ℤ) - 1
              ≤ ((divs.getD (regionOf divs (p' + 1) - 1) 0 : ℕ) : ℤ)
            then (1 : ℕ) else 0) = (if p' ∈ divs then 1 else 0) := by
          have hiff := regionOf_getD divs p' hsort hr
          by_cases hm : p' ∈ divs
          · rw [if_pos hm, if_pos (by
              have h2 := hiff.mpr hm
              push_cast
              omega)]
          · rw [if_neg hm, if_neg (by
              intro hle
              push_cast at hle
              exact hm (hiff.mp (by omega)))]
        rw [hchange]
        have hsucc := regionOf_succ divs p' hsort
        rw [Prod.mk.injEq]
        by_cases hm : p' ∈ divs
        · rw [if_pos hm] at hsucc ⊢
          constructor
          · have ha : (regionOf divs (p' + 1) : ℤ) - 1 - ((1 : ℕ) : ℤ)
                = (regionOf divs p' : ℤ) - 1 := by
              rw [hsucc]
              push_cast
              ring
            have hb : (((p' + 1 : ℕ) : ℤ) - 1) - 1 = ((p' : ℕ) : ℤ) - 1 := by
              push_cast
              ring
            rw [ha, hb]
          · have hc : base + mult * (regionOf divs (p' + 1)
                + (divs.length + 1)
                  * tensorIndex (dims'.map (fun divs => divs.length + 1))
                    (List.zipWith regionOf dims' ps'))
                = (base + mult * (regionOf divs p'
                  + (divs.length + 1)
                    * tensorIndex (dims'.map (fun divs => divs.length + 1))
                      (List.zipWith regionOf dims' ps'))) + 1 * mult := by
              rw [hsucc]
              ring
            rw [hc, Nat.add_sub_cancel]
        · rw [if_neg hm] at hsucc ⊢
          rw [add_zero] at hsucc
          constructor
          · have ha : (regionOf divs (p' + 1) : ℤ) - 1 - ((0 : ℕ) : ℤ)
                = (regionOf divs p' : ℤ) - 1 := by
              rw [hsucc]
              push_cast
              ring
            have hb : (((p' + 1 : ℕ) : ℤ) - 1) - 1 = ((p' : ℕ) : ℤ) - 1 := by
              push_cast
              ring
            rw [ha, hb]
          · rw [hsucc, Nat.zero_mul, Nat.sub_zero]
      · have hr0 : regionOf divs (p' + 1) = 0 := by omega
        have hrp : regionOf divs p' = 0 := by
          have := regionOf_mono divs p' hsort
          omega
        rw [if_neg (by
          rw [hr0]
          norm_num)]
        rw [if_pos (by push_cast; omega)]
        rw [Prod.mk.injEq]
        constructor
        · have hb : (((p' + 1 : ℕ) : ℤ) - 1) - 1 = ((p' : ℕ) : ℤ) - 1 := by
            push_cast
            ring
          rw [hb, hr0, hrp]
        · rw [hr0, hrp]
    | zero =>
      have hne' : ∃ x ∈ ps', x ≠ 0 := by
        obtain ⟨x, hx, hxne⟩ := hne
        rcases List.mem_cons.mp hx with rfl | hx'
        · exact absurd rfl hxne
        · exact ⟨x, hx', hxne⟩
      simp only [stackFor, predT, ExpandWalk, List.zipWith_cons_cons,
        List.map_cons, tensorIndex_cons, regionOf_zero]
      rw [if_neg (by norm_num), if_neg (by norm_num)]
      have harg : base + mult * (0 + (divs.length + 1)
            * tensorIndex (dims'.map (fun divs => divs.length + 1))
              (List.zipWith regionOf dims' ps'))
          + divs.length * mult
          = (base + divs.length * mult) + mult * (1 + divs.length)
            * tensorIndex (dims'.map (fun divs => divs.length + 1))
              (List.zipWith regionOf dims' ps') := by
        ring
      rw [harg, ih rcs' ps' hWF' hlt' hne' (base + divs.length * mult)
        (mult * (1 + divs.length))]
      rw [Prod.mk.injEq]
      constructor
      · have ha : (regionOf divs (rc - 1) : ℤ) - 1 = (divs.length : ℤ) - 1 := by
          rw [regionOf_full divs rc hbound]
        have hb : ((rc - 1 : ℕ) : ℤ) - 1 = (rc : ℤ) - 2 := by omega
        rw [ha, hb]
      · have hc : base + mult * (regionOf divs (rc - 1)
            + (divs.length + 1)
              * tensorIndex (dims'.map (fun divs => divs.length + 1))
                (List.zipWith regionOf dims' (predT rcs' ps')))
            = (base + divs.length * mult) + mult * (1 + divs.length)
              * tensorIndex (dims'.map (fun divs => divs.length + 1))
                (List.zipWith regionOf dims' (predT rcs' ps')) := by
          rw [regionOf_full divs rc hbound]
          ring
        rw [hc]

end SegmentedRegionCore

theorem gridTuples_getElem {rcs ps : List ℕ} (h : ps ∈ gridTuples rcs)
    (hlt : tensorIndex rcs ps < (gridTuples rcs).length) :
    (gridTuples rcs)[tensorIndex rcs ps] = ps := by
  apply tensorIndex_injOn (List.getElem_mem hlt) h
  have hmap := map_tensorIndex_gridTuples rcs
  have h1 : (List.range rcs.prod)[tensorIndex rcs ps]?
      = ((gridTuples rcs).map (tensorIndex rcs))[tensorIndex rcs ps]? := by
    rw [hmap]
  rw [List.getElem?_map, List.getElem?_eq_getElem hlt] at h1
  have h2 : (List.range rcs.prod)[tensorIndex rcs ps]?
      = some (tensorIndex rcs ps) := by
    rw [List.getElem?_eq_getElem (by
      rw [gridTuples_length] at hlt
      simpa using hlt)]
    rw [List.getElem_range]
  rw [h2] at h1
  exact (Option.some.inj h1).symm

theorem gridTuples_take_succ {rcs ps : List ℕ} (h : ps ∈ gridTuples rcs) :
    (gridTuples rcs).take (tensorIndex rcs ps + 1)
      = (gridTuples rcs).take (tensorIndex rcs ps) ++ [ps] := by
  have hlt : tensorIndex rcs ps < (gridTuples rcs).length := by
    rw [gridTuples_length]
    exact tensorIndex_lt_prod h
  rw [List.take_succ, List.getElem?_eq_getElem hlt, gridTuples_getElem h hlt]
  rfl

theorem exists_ne_zero_of_tensorIndex_pos :
    ∀ (rcs ps : List ℕ), 0 < tensorIndex rcs ps → ∃ x ∈ ps, x ≠ 0 := by
  intro rcs
  induction rcs with
  | nil =>
    intro ps h
    cases ps with
    | nil => simp [tensorIndex] at h
    | cons p ps => simp [tensorIndex] at h
  | cons rc rcs ih =>
    intro ps h
    cases ps with
    | nil => simp at h
    | cons p ps =>
      rw [tensorIndex_cons] at h
      by_cases hp : p = 0
      · subst hp
        have h2 : 0 < tensorIndex rcs ps := by
          rcases Nat.eq_zero_or_pos (tensorIndex rcs ps) with h3 | h3
          · rw [h3] at h; simp at h
          · exact h3
        obtain ⟨x, hx, hxne⟩ := ih ps h2
        exact ⟨x, List.mem_cons_of_mem _ hx, hxne⟩
      · exact ⟨p, List.mem_cons_self _ _, hp⟩

theorem tensorIndex_predT :
    ∀ (rcs ps : List ℕ), List.Forall₂ (· < ·) ps rcs →
      0 < tensorIndex rcs ps →
      tensorIndex rcs (SegmentedRegionCore.predT rcs ps) + 1
        = tensorIndex rcs ps := by
  intro rcs ps h
  induction h with
  | nil => intro h0; simp at h0
  | cons hpr htail ih =>
    rename_i p rc ps' rcs'
    intro h0
    cases p with
    | zero =>
      rw [tensorIndex_cons] at h0
      simp only [Nat.zero_add] at h0
      have htpos : 0 < tensorIndex rcs' ps' := by
        rcases Nat.eq_zero_or_pos (tensorIndex rcs' ps') with h3 | h3
        · rw [h3, Nat.mul_zero] at h0; simp at h0
        · exact h3
      have hrec := ih htpos
      simp only [SegmentedRegionCore.predT, tensorIndex_cons]
      obtain ⟨k, hk⟩ : ∃ k, tensorIndex rcs' ps' = k + 1 :=
        ⟨tensorIndex rcs' ps' - 1, by omega⟩
      rw [hk] at hrec ⊢
      have hpred : tensorIndex rcs' (SegmentedRegionCore.predT rcs' ps') = k := by
        omega
      rw [hpred, Nat.mul_succ]
      generalize rc * k = K
      omega
    | succ p' =>
      simp only [SegmentedRegionCore.predT, tensorIndex_cons]
      omega

theorem mem_gridTuples_predT {rcs ps : List ℕ} (h : ps ∈ gridTuples rcs) :
    SegmentedRegionCore.predT rcs ps ∈ gridTuples rcs :=
  mem_gridTuples.mpr
    (SegmentedRegionCore.predT_lt rcs ps (mem_gridTuples.mp h))

namespace SegmentedRegionCore

/-- One-step unfolding of `ExpandValuesLoop` at a positive count. -/
theorem ExpandValuesLoop_succ (dims : List (List ℕ)) (vals : List ℚ)
    (vl count : ℕ) (stack : List (ℤ × ℤ × ℤ)) (i1 : ℕ) (acc : List ℚ) :
    ExpandValuesLoop dims vals vl (count + 1) stack i1 acc =
      (if count = 0 then regionSlice vals vl i1 ++ acc
       else
         ExpandValuesLoop dims vals vl count
           (ExpandWalk dims stack i1 1).1 (ExpandWalk dims stack i1 1).2
           (regionSlice vals vl i1 ++ acc)) := rfl

/-- The reverse value traversal of `Expand`, started at grid point `ps`,
writes out the slices of the first `tensorIndex rcs ps + 1` grid points in
order. -/
theorem ExpandValuesLoop_spec (dims : List (List ℕ)) (rcs : List ℕ)
    (vals : List ℚ) (vl : ℕ) (hWF : List.Forall₂ dimWF dims rcs) :
    ∀ (n : ℕ) (ps : List ℕ), ps ∈ gridTuples rcs →
      tensorIndex rcs ps = n →
      ∀ acc,
      ExpandValuesLoop dims vals vl (n + 1) (stackFor dims rcs ps)
          (tensorIndex (dims.map (fun divs => divs.length + 1))
            (List.zipWith regionOf dims ps)) acc
        = ((gridTuples rcs).take (n + 1)).flatMap
            (fun q => regionSlice vals vl
              (tensorIndex (dims.map (fun divs => divs.length + 1))
                (List.zipWith regionOf dims q))) ++ acc := by
  intro n
  induction n with
  | zero =>
    intro ps hmem hidx acc
    have htake := gridTuples_take_succ hmem
    rw [hidx] at htake
    have htake0 : (gridTuples rcs).take 0 = [] := rfl
    rw [htake, htake0, List.nil_append]
    simp only [ExpandValuesLoop]
    simp [List.flatMap_cons]
  | succ m ih =>
    intro ps hmem hidx acc
    have hlt := mem_gridTuples.mp hmem
    have hne : ∃ x ∈ ps, x ≠ 0 :=
      exists_ne_zero_of_tensorIndex_pos rcs ps (by omega)
    have hwalk := ExpandWalk_spec dims rcs ps hWF hlt hne 0 1
    simp only [Nat.zero_add, Nat.one_mul] at hwalk
    have hpredidx : tensorIndex rcs (predT rcs ps) = m := by
      have := tensorIndex_predT rcs ps hlt (by omega)
      omega
    show ExpandValuesLoop dims vals vl (m + 1 + 1) _ _ _ = _
    rw [ExpandValuesLoop_succ]
    rw [if_neg (by omega)]
    rw [hwalk]
    dsimp only
    rw [ih (predT rcs ps) (mem_gridTuples_predT hmem) hpredidx]
    have htake := gridTuples_take_succ hmem
    rw [hidx] at htake
    rw [htake, List.flatMap_append]
    simp only [List.flatMap_cons, List.flatMap_nil, List.append_nil]
    rw [List.append_assoc]

end SegmentedRegionCore

/-- Chunk indexing in a concatenation of uniform-length slices. -/
theorem flatMap_getD_uniform : ∀ (l : List (List ℕ)) (f : List ℕ → List ℚ)
    (vl k iv : ℕ), (∀ a ∈ l, (f a).length = vl) → k < l.length → iv < vl →
    (l.flatMap f).getD (k * vl + iv) 0 = (f (l.getD k [])).getD iv 0 := by
  intro l
  induction l with
  | nil =>
    intro f vl k iv hf hk hiv
    simp at hk
  | cons a l ih =>
    intro f vl k iv hf hk hiv
    rw [List.flatMap_cons]
    have hlen : (f a).length = vl := hf a (List.mem_cons_self _ _)
    cases k with
    | zero =>
      rw [Nat.zero_mul, Nat.zero_add]
      rw [List.getD_append _ _ _ _ (by omega)]
      rfl
    | succ k =>
      have hidx : (k + 1) * vl + iv = (f a).length + (k * vl + iv) := by
        rw [hlen]; ring
      rw [hidx, List.getD_append_right _ _ _ _ (by omega),
        Nat.add_sub_cancel_left]
      rw [ih f vl k iv (fun x hx => hf x (List.mem_cons_of_mem _ hx))
        (by simp only [List.length_cons] at hk; omega) hiv]
      rfl

theorem gridTuples_getD {rcs ps : List ℕ} (h : ps ∈ gridTuples rcs) :
    (gridTuples rcs).getD (tensorIndex rcs ps) [] = ps := by
  have hlt : tensorIndex rcs ps < (gridTuples rcs).length := by
    rw [gridTuples_length]
    exact tensorIndex_lt_prod h
  rw [List.getD_eq_getElem?_getD, List.getElem?_eq_getElem hlt,
    gridTuples_getElem h hlt]
  rfl

/-- The flat index of the top grid tuple is the last one. -/
theorem tensorIndex_top : ∀ (cs : List ℕ), (∀ c ∈ cs, 1 ≤ c) →
    tensorIndex cs (cs.map (fun c => c - 1)) = cs.prod - 1 := by
  intro cs
  induction cs with
  | nil => intro h; rfl
  | cons c cs ih =>
    intro h
    have hc : 1 ≤ c := h c (List.mem_cons_self _ _)
    have hp : 0 < cs.prod :=
      List.prod_pos (fun a ha => by
        have := h a (List.mem_cons_of_mem _ ha); omega)
    rw [List.map_cons, tensorIndex_cons,
      ih (fun a ha => h a (List.mem_cons_of_mem _ ha)), List.prod_cons]
    obtain ⟨c2, rfl⟩ : ∃ c2, c = c2 + 1 := ⟨c - 1, by omega⟩
    obtain ⟨p2, hp2⟩ : ∃ p2, cs.prod = p2 + 1 := ⟨cs.prod - 1, by omega⟩
    rw [hp2]
    simp only [Nat.add_sub_cancel]
    rw [show (c2 + 1) * (p2 + 1) = (c2 + (c2 + 1) * p2) + 1 by ring,
      Nat.add_sub_cancel]

theorem top_mem_gridTuples : ∀ (rcs : List ℕ), (∀ rc ∈ rcs, 1 ≤ rc) →
    rcs.map (fun rc => rc - 1) ∈ gridTuples rcs := by
  intro rcs
  induction rcs with
  | nil =>
    intro _
    rw [mem_gridTuples]
    exact List.Forall₂.nil
  | cons rc rcs ih =>
    intro h
    rw [mem_gridTuples, List.map_cons]
    refine List.Forall₂.cons ?_ ?_
    · have := h rc (List.mem_cons_self _ _)
      omega
    · rw [← mem_gridTuples]
      exact ih (fun a ha => h a (List.mem_cons_of_mem _ ha))

namespace SegmentedRegionCore

theorem rcs_pos_of_WF {dims : List (List ℕ)} {rcs : List ℕ}
    (h : List.Forall₂ dimWF dims rcs) : ∀ rc ∈ rcs, 1 ≤ rc := by
  induction h with
  | nil =>
    intro rc hrc
    simp at hrc
  | cons hdr htail ih =>
    intro rc hrc
    rcases List.mem_cons.mp hrc with rfl | hrc'
    · exact hdr.2.2
    · exact ih rc hrc'

/-- `Expand`'s initial odometer stack is the one for the top grid tuple. -/
theorem stackFor_top {dims : List (List ℕ)} {rcs : List ℕ}
    (h : List.Forall₂ dimWF dims rcs) :
    stackFor dims rcs (rcs.map (fun rc => rc - 1))
      = dims.zipWith (fun divs rc =>
          (((divs.length : ℤ) - 1, (rc : ℤ) - 2, (rc : ℤ) - 2))) rcs := by
  induction h with
  | nil => rfl
  | cons hdr htail ih =>
    rename_i divs rc dims' rcs'
    rw [List.map_cons]
    show (((regionOf divs (rc - 1) : ℤ) - 1, ((rc - 1 : ℕ) : ℤ) - 1,
        (rc : ℤ) - 2) :: stackFor dims' rcs' (rcs'.map (fun rc => rc - 1)))
      = _
    rw [regionOf_full divs rc hdr.2.1, ih]
    have h2 : ((rc - 1 : ℕ) : ℤ) - 1 = (rc : ℤ) - 2 := by
      have := hdr.2.2
      omega
    rw [h2]
    rfl

theorem zipWith_regionOf_top {dims : List (List ℕ)} {rcs : List ℕ}
    (h : List.Forall₂ dimWF dims rcs) :
    List.zipWith regionOf dims (rcs.map (fun rc => rc - 1))
      = dims.map List.length := by
  induction h with
  | nil => rfl
  | cons hdr htail ih =>
    rename_i divs rc dims' rcs'
    rw [List.map_cons, List.zipWith_cons_cons, regionOf_full divs rc hdr.2.1,
      ih, List.map_cons]

/-- The division arrays written by `Expand` are the identity sequences: when
a dimension keeps its old array (`SegmentedRegion.h:405-407`) that array was
already `0, 1, …, rc - 2`. -/
theorem newDims_eq {dims : List (List ℕ)} {rcs : List ℕ}
    (h : List.Forall₂ dimWF dims rcs) :
    dims.zipWith (fun divs rc => if rc - 1 = divs.length then divs
      else List.range (rc - 1)) rcs
      = rcs.map (fun rc => List.range (rc - 1)) := by
  induction h with
  | nil => rfl
  | cons hdr htail ih =>
    rename_i divs rc dims' rcs'
    rw [List.zipWith_cons_cons, ih, List.map_cons]
    congr 1
    by_cases hc : rc - 1 = divs.length
    · rw [if_pos hc]
      exact increasing_bounded_eq_range divs (rc - 1) hdr.1
        (fun d hd => by have := hdr.2.1 d hd; omega) hc.symm
    · rw [if_neg hc]

theorem zipWith_regionOf_mem : ∀ (dims : List (List ℕ)) (q : List ℕ),
    dims.length = q.length →
    List.zipWith regionOf dims q
      ∈ gridTuples (dims.map (fun divs => divs.length + 1)) := by
  intro dims
  induction dims with
  | nil =>
    intro q h
    rw [List.zipWith_nil_left]
    exact List.mem_singleton.mpr rfl
  | cons divs dims ih =>
    intro q h
    cases q with
    | nil => simp at h
    | cons x q =>
      rw [List.map_cons, List.zipWith_cons_cons, mem_gridTuples]
      refine List.Forall₂.cons ?_ ?_
      · have := regionOf_le_length divs x
        omega
      · rw [← mem_gridTuples]
        exact ih q (by simp only [List.length_cons] at h; omega)

theorem map_len_range_sub_one : ∀ (rcs : List ℕ), (∀ rc ∈ rcs, 1 ≤ rc) →
    (rcs.map (fun rc => List.range (rc - 1))).map
      (fun divs => divs.length + 1) = rcs := by
  intro rcs
  induction rcs with
  | nil => intro _; rfl
  | cons rc rcs ih =>
    intro h
    simp only [List.map_cons, List.length_range]
    rw [ih (fun a ha => h a (List.mem_cons_of_mem _ ha))]
    have := h rc (List.mem_cons_self _ _)
    rw [show rc - 1 + 1 = rc by omega]

theorem zipWith_regionOf_range {rcs ps : List ℕ}
    (h : List.Forall₂ (· < ·) ps rcs) :
    List.zipWith regionOf (rcs.map (fun rc => List.range (rc - 1))) ps
      = ps := by
  induction h with
  | nil => rfl
  | cons hpr htail ih =>
    rename_i p rc ps' rcs'
    rw [List.map_cons, List.zipWith_cons_cons, ih,
      regionOf_range _ _ (by omega)]

theorem regionSlice_length (vals : List ℚ) (vl i1 : ℕ)
    (h : (i1 + 1) * vl ≤ vals.length) :
    (regionSlice vals vl i1).length = vl := by
  unfold regionSlice
  rw [List.length_take, List.length_drop]
  have he : (i1 + 1) * vl = i1 * vl + vl := by ring
  omega

theorem regionSlice_getD (vals : List ℚ) (vl i1 iv : ℕ) (hiv : iv < vl) :
    (regionSlice vals vl i1).getD iv 0 = vals.getD (i1 * vl + iv) 0 := by
  unfold regionSlice
  rw [List.getD_eq_getElem?_getD, List.getD_eq_getElem?_getD,
    List.getElem?_take, if_pos hiv, List.getElem?_drop]

end SegmentedRegionCore

namespace SegmentedRegionCore

/-- **C5** (amended).  `Expand` on a not-yet-expanded segmented tensor with
well-formed axes (strictly ascending cuts, every cut below `rc - 1`, at least
one state) succeeds, flags the tensor expanded, overwrites each axis's cut
array with the identity sequence `0, …, rc_d - 2`, and the dense value grid
agrees at every grid point and vector slot with the original
piecewise-constant function under `GetValue` semantics, in which a state
equal to a cut value belongs to that cut's own (low) region — so the spec's
Scenario 5 produces values `[10,10,10,20,20]`, not `[10,10,20,20,20]`. -/
theorem expand_spec (s : SegmentedRegionCore) (acD : List ℕ)
    (hexp : s.bExpanded = false)
    (hWF : List.Forall₂ dimWF s.aDimensions acD)
    (hvals : s.aValues.length = s.cRegions * s.cVectorLength) :
    (Expand s acD).2 = false ∧
      (Expand s acD).1.bExpanded = true ∧
      (Expand s acD).1.aDimensions
        = acD.map (fun rc => List.range (rc - 1)) ∧
      ∀ p ∈ gridTuples acD, ∀ iv, iv < s.cVectorLength →
        valueAt (Expand s acD).1 p iv = valueAt s p iv := by
  obtain ⟨vl, dims, vals, bexp⟩ := s
  dsimp only at hexp hWF hvals ⊢
  subst hexp
  have hrcpos : ∀ rc ∈ acD, 1 ≤ rc := rcs_pos_of_WF hWF
  have hprodpos : 0 < acD.prod :=
    List.prod_pos (fun a ha => by have := hrcpos a ha; omega)
  have hdimlen : dims.length = acD.length := hWF.length_eq
  have hND := newDims_eq hWF
  have hE : Expand ⟨vl, dims, vals, false⟩ acD
      = ({ cVectorLength := vl,
           aDimensions := dims.zipWith
             (fun divs rc => if rc - 1 = divs.length then divs
               else List.range (rc - 1)) acD,
           aValues := ExpandValuesLoop dims vals vl acD.prod
             (dims.zipWith (fun divs rc =>
               (((divs.length : ℤ) - 1, (rc : ℤ) - 2, (rc : ℤ) - 2))) acD)
             (cRegions ⟨vl, dims, vals, false⟩ - 1) [],
           bExpanded := true }, false) := rfl
  have htopmem : acD.map (fun rc => rc - 1) ∈ gridTuples acD :=
    top_mem_gridTuples acD hrcpos
  have htopidx : tensorIndex acD (acD.map (fun rc => rc - 1))
      = acD.prod - 1 := tensorIndex_top acD hrcpos
  have hstack := stackFor_top hWF
  have hregtop := zipWith_regionOf_top hWF
  have hstartidx : tensorIndex (dims.map (fun divs => divs.length + 1))
      (List.zipWith regionOf dims (acD.map (fun rc => rc - 1)))
      = cRegions ⟨vl, dims, vals, false⟩ - 1 := by
    rw [hregtop]
    have h1 : (dims.map (fun divs => divs.length + 1)).map (fun c => c - 1)
        = dims.map List.length := by
      rw [List.map_map]
      apply List.map_congr_left
      intro a _
      simp [Function.comp]
    rw [← h1, tensorIndex_top _ (by
      intro c hc
      rw [List.mem_map] at hc
      obtain ⟨d, _, rfl⟩ := hc
      omega)]
    rfl
  have hloop := ExpandValuesLoop_spec dims acD vals vl hWF (acD.prod - 1)
    (acD.map (fun rc => rc - 1)) htopmem (by rw [htopidx]) []
  rw [hstack, hstartidx] at hloop
  rw [show acD.prod - 1 + 1 = acD.prod from by omega] at hloop
  have htake : (gridTuples acD).take acD.prod = gridTuples acD := by
    rw [← gridTuples_length, List.take_length]
  rw [htake, List.append_nil] at hloop
  refine ⟨rfl, rfl, ?_, ?_⟩
  · show dims.zipWith (fun divs rc => if rc - 1 = divs.length then divs
      else List.range (rc - 1)) acD = _
    exact hND
  · intro p hp iv hiv
    rw [hE]
    simp only [valueAt]
    rw [hND, map_len_range_sub_one acD hrcpos,
      zipWith_regionOf_range (mem_gridTuples.mp hp), hloop]
    have huniform : ∀ q ∈ gridTuples acD,
        ((fun q => regionSlice vals vl
          (tensorIndex (dims.map (fun divs => divs.length + 1))
            (List.zipWith regionOf dims q))) q).length = vl := by
      intro q hq
      apply regionSlice_length
      have hqlen : dims.length = q.length :=
        hdimlen.trans (mem_gridTuples.mp hq).length_eq.symm
      have hlt := tensorIndex_lt_prod (zipWith_regionOf_mem dims q hqlen)
      calc (tensorIndex (dims.map (fun divs => divs.length + 1))
            (List.zipWith regionOf dims q) + 1) * vl
          ≤ (dims.map (fun divs => divs.length + 1)).prod * vl :=
            Nat.mul_le_mul_right vl hlt
        _ = vals.length := by rw [hvals]; rfl
    have hklt : tensorIndex acD p < (gridTuples acD).length := by
      rw [gridTuples_length]
      exact tensorIndex_lt_prod hp
    have hfm := flatMap_getD_uniform (gridTuples acD)
      (fun q => regionSlice vals vl
        (tensorIndex (dims.map (fun divs => divs.length + 1))
          (List.zipWith regionOf dims q)))
      vl (tensorIndex acD p) iv huniform hklt hiv
    rw [hfm, gridTuples_getD hp]
    exact regionSlice_getD vals vl _ iv hiv

/-- Concrete instance of `expand_spec`: Scenario 5's tensor. -/
theorem expand_spec_witness :
    (Expand ⟨1, [[2]], [10, 20], false⟩ [5]).2 = false ∧
      (Expand ⟨1, [[2]], [10, 20], false⟩ [5]).1.bExpanded = true ∧
      (Expand ⟨1, [[2]], [10, 20], false⟩ [5]).1.aDimensions
        = [5].map (fun rc => List.range (rc - 1)) ∧
      ∀ p ∈ gridTuples [5], ∀ iv, iv < 1 →
        valueAt (Expand ⟨1, [[2]], [10, 20], false⟩ [5]).1 p iv
          = valueAt ⟨1, [[2]], [10, 20], false⟩ p iv :=
  expand_spec ⟨1, [[2]], [10, 20], false⟩ [5] rfl
    (List.Forall₂.cons ⟨by decide, by decide, by decide⟩ List.Forall₂.nil)
    (by decide)

end SegmentedRegionCore

/-! ### Segmented tensor addition (`SegmentedRegionCore::Add`, `SegmentedRegion.h:424-655`) -/

namespace SegmentedRegionCore

/-- Two-pointer merge of the forward counting loop of `Add`
(`SegmentedRegion.h:465-484`): each iteration emits one new division and
advances the first cursor when `d1 <= d2` and the second when `d2 <= d1`;
the reverse division loop (lines 618-647) writes this same sequence from the
top.  `fuel` bounds the iteration count by the total number of divisions,
exactly as the source loop consumes at least one division per iteration. -/
def mergeDivsF : ℕ → List ℕ → List ℕ → List ℕ
  | _, l1, [] => l1
  | _, [], l2 => l2
  | 0, _, _ => []
  | fuel + 1, d1 :: t1, d2 :: t2 =>
    if d1 ≤ d2 then
      if d2 ≤ d1 then d1 :: mergeDivsF fuel t1 t2
      else d1 :: mergeDivsF fuel t1 (d2 :: t2)
    else d2 :: mergeDivsF fuel (d1 :: t1) t2

def mergeDivs (l1 l2 : List ℕ) : List ℕ :=
  mergeDivsF (l1.length + l2.length) l1 l2

theorem mergeDivsF_nil_right : ∀ (fuel : ℕ) (l1 : List ℕ),
    mergeDivsF fuel l1 [] = l1 := by
  intro fuel l1
  cases fuel <;> cases l1 <;> rfl

theorem mergeDivsF_nil_left : ∀ (fuel : ℕ) (l2 : List ℕ),
    mergeDivsF fuel [] l2 = l2 := by
  intro fuel l2
  cases fuel <;> cases l2 <;> rfl

theorem mergeDivsF_succ (fuel d1 d2 : ℕ) (t1 t2 : List ℕ) :
    mergeDivsF (fuel + 1) (d1 :: t1) (d2 :: t2)
      = if d1 ≤ d2 then
          if d2 ≤ d1 then d1 :: mergeDivsF fuel t1 t2
          else d1 :: mergeDivsF fuel t1 (d2 :: t2)
        else d2 :: mergeDivsF fuel (d1 :: t1) t2 := rfl

theorem mergeDivsF_congr : ∀ (f1 : ℕ) (f2 : ℕ) (l1 l2 : List ℕ),
    l1.length + l2.length ≤ f1 → l1.length + l2.length ≤ f2 →
    mergeDivsF f1 l1 l2 = mergeDivsF f2 l1 l2 := by
  intro f1
  induction f1 with
  | zero =>
    intro f2 l1 l2 h1 h2
    cases l1 with
    | nil => rw [mergeDivsF_nil_left, mergeDivsF_nil_left]
    | cons d1 t1 =>
      cases l2 with
      | nil => rw [mergeDivsF_nil_right, mergeDivsF_nil_right]
      | cons d2 t2 => simp at h1
  | succ f1 ih =>
    intro f2 l1 l2 h1 h2
    cases l1 with
    | nil => rw [mergeDivsF_nil_left, mergeDivsF_nil_left]
    | cons d1 t1 =>
      cases l2 with
      | nil => rw [mergeDivsF_nil_right, mergeDivsF_nil_right]
      | cons d2 t2 =>
        cases f2 with
        | zero => simp at h2
        | succ f2 =>
          rw [mergeDivsF_succ, mergeDivsF_succ]
          simp only [List.length_cons] at h1 h2
          by_cases hle : d1 ≤ d2
          · by_cases hge : d2 ≤ d1
            · rw [if_pos hle, if_pos hge, if_pos hle, if_pos hge,
                ih f2 t1 t2 (by omega) (by omega)]
            · rw [if_pos hle, if_neg hge, if_pos hle, if_neg hge,
                ih f2 t1 (d2 :: t2) (by simp; omega) (by simp; omega)]
          · rw [if_neg hle, if_neg hle,
              ih f2 (d1 :: t1) t2 (by simp; omega) (by simp; omega)]

theorem mergeDivs_nil_right (l1 : List ℕ) : mergeDivs l1 [] = l1 :=
  mergeDivsF_nil_right _ l1

theorem mergeDivs_nil_left (l2 : List ℕ) : mergeDivs [] l2 = l2 :=
  mergeDivsF_nil_left _ l2

theorem mergeDivs_cons_cons (d1 d2 : ℕ) (t1 t2 : List ℕ) :
    mergeDivs (d1 :: t1) (d2 :: t2)
      = if d1 ≤ d2 then
          if d2 ≤ d1 then d1 :: mergeDivs t1 t2
          else d1 :: mergeDivs t1 (d2 :: t2)
        else d2 :: mergeDivs (d1 :: t1) t2 := by
  show mergeDivsF ((d1 :: t1).length + (d2 :: t2).length) _ _ = _
  rw [show (d1 :: t1).length + (d2 :: t2).length
    = (t1.length + t2.length + 1) + 1 by simp; omega]
  rw [mergeDivsF_succ]
  by_cases hle : d1 ≤ d2
  · by_cases hge : d2 ≤ d1
    · rw [if_pos hle, if_pos hge, if_pos hle, if_pos hge,
        mergeDivsF_congr _ (t1.length + t2.length) t1 t2 (by omega) (by omega)]
      rfl
    · rw [if_pos hle, if_neg hge, if_pos hle, if_neg hge,
        mergeDivsF_congr _ (t1.length + (d2 :: t2).length) t1 (d2 :: t2)
          (by simp only [List.length_cons]; omega)
          (by simp only [List.length_cons]; omega)]
      rfl
  · rw [if_neg hle, if_neg hle,
      mergeDivsF_congr _ ((d1 :: t1).length + t2.length) (d1 :: t1) t2
        (by simp only [List.length_cons]; omega)
        (by simp only [List.length_cons]; omega)]
    rfl

theorem mem_mergeDivs_aux : ∀ (n : ℕ) (l1 l2 : List ℕ),
    l1.length + l2.length ≤ n →
    ∀ x, x ∈ mergeDivs l1 l2 ↔ x ∈ l1 ∨ x ∈ l2 := by
  intro n
  induction n with
  | zero =>
    intro l1 l2 hn x
    cases l1 with
    | nil => rw [mergeDivs_nil_left]; simp
    | cons d1 t1 => simp at hn
  | succ n ih =>
    intro l1 l2 hn x
    cases l1 with
    | nil => rw [mergeDivs_nil_left]; simp
    | cons d1 t1 =>
      cases l2 with
      | nil => rw [mergeDivs_nil_right]; simp
      | cons d2 t2 =>
        simp only [List.length_cons] at hn
        rw [mergeDivs_cons_cons]
        by_cases hle : d1 ≤ d2
        · by_cases hge : d2 ≤ d1
          · have heq : d1 = d2 := by omega
            rw [if_pos hle, if_pos hge, List.mem_cons,
              ih t1 t2 (by omega) x]
            subst heq
            simp [List.mem_cons]
            tauto
          · rw [if_pos hle, if_neg hge, List.mem_cons,
              ih t1 (d2 :: t2) (by simp only [List.length_cons]; omega) x]
            simp [List.mem_cons]
            tauto
        · rw [if_neg hle, List.mem_cons,
            ih (d1 :: t1) t2 (by simp only [List.length_cons]; omega) x]
          simp [List.mem_cons]
          tauto

theorem mem_mergeDivs (l1 l2 : List ℕ) (x : ℕ) :
    x ∈ mergeDivs l1 l2 ↔ x ∈ l1 ∨ x ∈ l2 :=
  mem_mergeDivs_aux (l1.length + l2.length) l1 l2 (le_refl _) x

theorem mergeDivs_sorted_aux : ∀ (n : ℕ) (l1 l2 : List ℕ),
    l1.length + l2.length ≤ n →
    List.Pairwise (· < ·) l1 → List.Pairwise (· < ·) l2 →
    List.Pairwise (· < ·) (mergeDivs l1 l2) := by
  intro n
  induction n with
  | zero =>
    intro l1 l2 hn h1 h2
    cases l1 with
    | nil => rw [mergeDivs_nil_left]; exact h2
    | cons d1 t1 => simp at hn
  | succ n ih =>
    intro l1 l2 hn h1 h2
    cases l1 with
    | nil => rw [mergeDivs_nil_left]; exact h2
    | cons d1 t1 =>
      cases l2 with
      | nil => rw [mergeDivs_nil_right]; exact h1
      | cons d2 t2 =>
        simp only [List.length_cons] at hn
        rcases List.pairwise_cons.mp h1 with ⟨hd1, ht1⟩
        rcases List.pairwise_cons.mp h2 with ⟨hd2, ht2⟩
        rw [mergeDivs_cons_cons]
        by_cases hle : d1 ≤ d2
        · by_cases hge : d2 ≤ d1
          · have heq : d1 = d2 := by omega
            rw [if_pos hle, if_pos hge, List.pairwise_cons]
            refine ⟨?_, ih t1 t2 (by omega) ht1 ht2⟩
            intro y hy
            rcases (mem_mergeDivs t1 t2 y).mp hy with hy1 | hy2
            · exact hd1 y hy1
            · rw [heq]; exact hd2 y hy2
          · rw [if_pos hle, if_neg hge, List.pairwise_cons]
            refine ⟨?_, ih t1 (d2 :: t2)
              (by simp only [List.length_cons]; omega) ht1 h2⟩
            intro y hy
            rcases (mem_mergeDivs t1 (d2 :: t2) y).mp hy with hy1 | hy2
            · exact hd1 y hy1
            · rcases List.mem_cons.mp hy2 with rfl | hy2b
              · omega
              · have := hd2 y hy2b; omega
        · rw [if_neg hle, List.pairwise_cons]
          refine ⟨?_, ih (d1 :: t1) t2
            (by simp only [List.length_cons]; omega) h1 ht2⟩
          intro y hy
          rcases (mem_mergeDivs (d1 :: t1) t2 y).mp hy with hy1 | hy2
          · rcases List.mem_cons.mp hy1 with rfl | hy1b
            · omega
            · have := hd1 y hy1b; omega
          · exact hd2 y hy2

theorem mergeDivs_sorted (l1 l2 : List ℕ)
    (h1 : List.Pairwise (· < ·) l1) (h2 : List.Pairwise (· < ·) l2) :
    List.Pairwise (· < ·) (mergeDivs l1 l2) :=
  mergeDivs_sorted_aux (l1.length + l2.length) l1 l2 (le_refl _) h1 h2

end SegmentedRegionCore

namespace SegmentedRegionCore

theorem countP_window (l : List ℕ) (a b : ℕ) (hab : a ≤ b) :
    l.countP (fun d => decide (d < b))
      = l.countP (fun d => decide (d < a))
        + l.countP (fun d => decide (a ≤ d ∧ d < b)) := by
  induction l with
  | nil => rfl
  | cons d t ih =>
    rw [List.countP_cons, List.countP_cons, List.countP_cons, ih]
    by_cases h1 : d < a
    · have h2 : d < b := by omega
      have h3 : ¬(a ≤ d ∧ d < b) := by omega
      rw [if_pos (by simpa using h2), if_pos (by simpa using h1),
        if_neg (by simpa using h3)]
      omega
    · by_cases h2 : d < b
      · have h3 : a ≤ d ∧ d < b := by omega
        rw [if_pos (by simpa using h2), if_neg (by simpa using h1),
          if_pos (by simpa using h3)]
        omega
      · have h3 : ¬(a ≤ d ∧ d < b) := by omega
        rw [if_neg (by simpa using h2), if_neg (by simpa using h1),
          if_neg (by simpa using h3)]
        omega

theorem countP_eq_ite_mem (l : List ℕ) (hnd : l.Nodup) (M : ℕ) :
    l.countP (fun d => decide (d = M)) = if M ∈ l then 1 else 0 := by
  induction l with
  | nil => simp
  | cons a t ih =>
    rcases List.nodup_cons.mp hnd with ⟨hna, hnd2⟩
    rw [List.countP_cons, ih hnd2]
    by_cases haM : a = M
    · subst haM
      simp [hna]
    · have hMa : ¬ M = a := fun h => haM h.symm
      simp [haM, hMa, List.mem_cons]

theorem sorted_take_countP (l : List ℕ) (x : ℕ)
    (hs : List.Pairwise (· < ·) l) :
    l.take (l.countP (fun d => decide (d < x)))
      = l.filter (fun d => decide (d < x)) := by
  induction l with
  | nil => rfl
  | cons d t ih =>
    rcases List.pairwise_cons.mp hs with ⟨hd, ht⟩
    rw [List.countP_cons, List.filter_cons]
    by_cases hdx : d < x
    · rw [if_pos (by simpa using hdx)]
      rw [if_pos (by simpa using hdx)]
      rw [List.take_succ_cons, ih ht]
    · have ht0 : t.countP (fun e => decide (e < x)) = 0 :=
        List.countP_eq_zero.mpr (fun y hy => by
          have := hd y hy
          simp only [decide_eq_true_eq]
          omega)
      have hf : t.filter (fun e => decide (e < x)) = [] := by
        have := ht0
        rw [List.countP_eq_length_filter] at this
        exact List.eq_nil_of_length_eq_zero this
      rw [if_neg (by simpa using hdx)]
      simp [ht0, hdx, hf]

theorem sorted_getD_lt (l : List ℕ) (hs : List.Pairwise (· < ·) l)
    (i j : ℕ) (hij : i < j) (hj : j < l.length) :
    l.getD i 0 < l.getD j 0 := by
  have hi : i < l.length := lt_trans hij hj
  rw [List.getD_eq_getElem?_getD, List.getElem?_eq_getElem hi,
    List.getD_eq_getElem?_getD, List.getElem?_eq_getElem hj]
  exact List.pairwise_iff_getElem.mp hs i j hi hj hij

theorem getD_lt_of_lt_regionOf (divs : List ℕ) (x i : ℕ)
    (hs : List.Pairwise (· < ·) divs) (hi : i < regionOf divs x) :
    divs.getD i 0 < x := by
  have hle : regionOf divs x ≤ divs.length := regionOf_le_length divs x
  have htake : divs.take (regionOf divs x)
      = divs.filter (fun d => decide (d < x)) := sorted_take_countP divs x hs
  have h1 : (divs.take (regionOf divs x)).getD i 0 = divs.getD i 0 := by
    rw [List.getD_eq_getElem?_getD, List.getElem?_take, if_pos hi,
      ← List.getD_eq_getElem?_getD]
  rw [← h1, htake]
  have hflen : i < (divs.filter (fun d => decide (d < x))).length := by
    rw [← List.countP_eq_length_filter]
    exact hi
  have heq : (divs.filter (fun d => decide (d < x))).getD i 0
      = (divs.filter (fun d => decide (d < x))).get ⟨i, hflen⟩ := by
    rw [List.getD_eq_getElem?_getD, List.getElem?_eq_getElem hflen]
    rfl
  rw [heq]
  have hmem := List.get_mem (divs.filter (fun d => decide (d < x))) i hflen
  have := List.of_mem_filter hmem
  simpa using this

/-- The lowest state value of region `r` of a division array (`0` for the
bottom region, one above the `r-1`-st division otherwise). -/
def bndAt (merged : List ℕ) (r : ℕ) : ℕ :=
  if r = 0 then 0 else merged.getD (r - 1) 0 + 1

theorem regionOf_bnd_succ (divs merged : List ℕ)
    (hsub : ∀ x ∈ divs, x ∈ merged)
    (hms : List.Pairwise (· < ·) merged) (hds : divs.Nodup)
    (r : ℕ) (hr : r < merged.length) :
    regionOf divs (merged.getD r 0 + 1)
      = regionOf divs (bndAt merged r)
        + (if merged.getD r 0 ∈ divs then 1 else 0) := by
  have hab : bndAt merged r ≤ merged.getD r 0 + 1 := by
    unfold bndAt
    by_cases hr0 : r = 0
    · simp [hr0]
    · rw [if_neg hr0]
      have := sorted_getD_lt merged hms (r - 1) r (by omega) hr
      omega
  unfold regionOf
  rw [countP_window divs (bndAt merged r) (merged.getD r 0 + 1) hab]
  congr 1
  rw [← countP_eq_ite_mem divs hds (merged.getD r 0)]
  apply List.countP_congr
  intro d hd
  have hdm : d ∈ merged := hsub d hd
  obtain ⟨j, hj, hdj⟩ := List.getElem_of_mem hdm
  have hdj2 : merged.getD j 0 = d := by
    rw [List.getD_eq_getElem?_getD, List.getElem?_eq_getElem hj]
    exact hdj
  simp only [decide_eq_true_eq]
  unfold bndAt
  rcases Nat.lt_trichotomy j r with hjr | hjr | hjr
  · have f3 : d < merged.getD r 0 := by
      rw [← hdj2]
      exact sorted_getD_lt merged hms j r hjr hr
    have f1 : d ≤ merged.getD (r - 1) 0 := by
      rcases Nat.lt_or_ge j (r - 1) with h | h
      · have := sorted_getD_lt merged hms j (r - 1) h (by omega)
        omega
      · have hje : j = r - 1 := by omega
        rw [← hdj2, hje]
    rw [if_neg (by omega)]
    omega
  · have f5 : d = merged.getD r 0 := by rw [← hdj2, hjr]
    by_cases hr0 : r = 0
    · rw [if_pos hr0]
      omega
    · rw [if_neg hr0]
      have := sorted_getD_lt merged hms (r - 1) r (by omega) hr
      omega
  · have f4 : merged.getD r 0 < d := by
      rw [← hdj2]
      exact sorted_getD_lt merged hms r j hjr hj
    by_cases hr0 : r = 0
    · rw [if_pos hr0]
      omega
    · rw [if_neg hr0]
      omega

theorem regionOf_bnd_top (divs merged : List ℕ)
    (hsub : ∀ x ∈ divs, x ∈ merged)
    (hms : List.Pairwise (· < ·) merged) :
    regionOf divs (bndAt merged merged.length) = divs.length := by
  cases merged with
  | nil =>
    have hnil : divs = [] := List.eq_nil_iff_forall_not_mem.mpr
      (fun a ha => (List.not_mem_nil a) (hsub a ha))
    rw [hnil]
    rfl
  | cons m t =>
    unfold bndAt regionOf
    rw [if_neg (by simp)]
    apply List.countP_eq_length.mpr
    intro d hd
    obtain ⟨j, hj, hdj⟩ := List.getElem_of_mem (hsub d hd)
    have hdj2 : (m :: t).getD j 0 = d := by
      rw [List.getD_eq_getElem?_getD, List.getElem?_eq_getElem hj]
      exact hdj
    simp only [decide_eq_true_eq]
    rcases Nat.lt_or_ge j ((m :: t).length - 1) with h | h
    · have hlt := sorted_getD_lt (m :: t) hms j ((m :: t).length - 1) h
        (by rw [List.length_cons]; omega)
      rw [hdj2] at hlt
      omega
    · have hje : j = (m :: t).length - 1 := by
        rw [List.length_cons] at hj h ⊢
        omega
      rw [← hdj2, hje]
      omega

theorem regionOf_bnd_regionOf (divs merged : List ℕ)
    (hsub : ∀ x ∈ divs, x ∈ merged)
    (hms : List.Pairwise (· < ·) merged) (x : ℕ) :
    regionOf divs (bndAt merged (regionOf merged x)) = regionOf divs x := by
  unfold regionOf
  apply List.countP_congr
  intro w hw
  simp only [decide_eq_true_eq]
  have hwm := hsub w hw
  by_cases hr0 : merged.countP (fun d => decide (d < x)) = 0
  · rw [hr0]
    unfold bndAt
    rw [if_pos rfl]
    constructor
    · intro h
      omega
    · intro hwx
      exfalso
      have hpos : 0 < merged.countP (fun d => decide (d < x)) :=
        List.countP_pos.mpr ⟨w, hwm, by simpa using hwx⟩
      omega
  · unfold bndAt
    rw [if_neg hr0]
    have hrlen : merged.countP (fun d => decide (d < x)) ≤ merged.length :=
      List.countP_le_length _
    have htake : merged.take (merged.countP (fun d => decide (d < x)))
        = merged.filter (fun d => decide (d < x)) :=
      sorted_take_countP merged x hms
    have hb1 : merged.getD (merged.countP (fun d => decide (d < x)) - 1) 0
        < x :=
      getD_lt_of_lt_regionOf merged x
        (merged.countP (fun d => decide (d < x)) - 1) hms (by
          unfold regionOf
          omega)
    constructor
    · intro h
      omega
    · intro hwx
      have hwf : w ∈ merged.take (merged.countP (fun d => decide (d < x))) := by
        rw [htake]
        exact List.mem_filter.mpr ⟨hwm, by simpa using hwx⟩
      obtain ⟨j, hjlen, hwj⟩ := List.getElem_of_mem hwf
      have hjr : j < merged.countP (fun d => decide (d < x)) := by
        rw [List.length_take] at hjlen
        omega
      have hj2 : j < merged.length := by
        rw [List.length_take] at hjlen
        omega
      have hwj2 : merged.getD j 0 = w := by
        have e1 : merged[j]? = (merged.take
            (merged.countP (fun d => decide (d < x))))[j]? := by
          rw [List.getElem?_take, if_pos hjr]
        rw [List.getD_eq_getElem?_getD, e1, List.getElem?_eq_getElem hjlen]
        exact hwj
      rcases Nat.lt_or_ge j (merged.countP (fun d => decide (d < x)) - 1)
        with h | h
      · have hlt := sorted_getD_lt merged hms j
          (merged.countP (fun d => decide (d < x)) - 1) h (by omega)
        rw [hwj2] at hlt
        omega
      · have hje : j = merged.countP (fun d => decide (d < x)) - 1 := by
          omega
        rw [← hwj2, hje]
        omega

end SegmentedRegionCore

namespace SegmentedRegionCore

/-- One step of the two-cursor reverse-traversal odometer of `Add`
(`SegmentedRegion.h:539-590`).  Each stack entry holds the two division
cursors `(pDivision1, pDivision2)` as ℤ indices into the respective division
arrays (`-1` = one before the start).  The value cursors are kept as flat
region indexes `i1`, `i2` into the two value arrays (the source pointers are
`&aValues[cVectorLength * (i + 1) - 1]`, and its `multiplication` is
`cVectorLength *` our region-unit `mult`).  In the wrap branch the source
moves each cursor by `-multiplication + multiplication * (1 + cDivisions)`,
a net `+ cDivisions * mult` regions. -/
def AddWalk : List (List ℕ × List ℕ) → List (ℤ × ℤ) → ℕ → ℕ → ℕ → ℕ →
    List (ℤ × ℤ) × ℕ × ℕ
  | (divs1, divs2) :: restDims, (pD1, pD2) :: restStack, i1, i2, mult1,
      mult2 =>
    if 0 ≤ pD1 then
      if 0 ≤ pD2 then
        -- both cursors on a division, SegmentedRegion.h:546-558
        let d1 : ℤ := (divs1.getD pD1.toNat 0 : ℕ)
        let d2 : ℤ := (divs2.getD pD2.toNat 0 : ℕ)
        let c1 : ℕ := if d2 ≤ d1 then 1 else 0
        let c2 : ℕ := if d1 ≤ d2 then 1 else 0
        ((pD1 - c1, pD2 - c2) :: restStack, i1 - c1 * mult1, i2 - c2 * mult2)
      else
        -- SegmentedRegion.h:559-563
        ((pD1 - 1, pD2) :: restStack, i1 - mult1, i2)
    else
      if 0 ≤ pD2 then
        -- SegmentedRegion.h:565-568
        ((pD1, pD2 - 1) :: restStack, i1, i2 - mult2)
      else
        -- wrap: SegmentedRegion.h:569-588
        let res := AddWalk restDims restStack (i1 + divs1.length * mult1)
          (i2 + divs2.length * mult2) (mult1 * (1 + divs1.length))
          (mult2 * (1 + divs2.length))
        (((divs1.length : ℤ) - 1, (divs2.length : ℤ) - 1) :: res.1, res.2)
  | _, _, i1, i2, _, _ => ([], i1, i2)

/-- The reverse value traversal of `Add` (`SegmentedRegion.h:512-591`):
`count` regions of the result remain to be written; each iteration writes the
`cVectorLength`-slice sum of the two source regions at the top and, unless
the bottom is reached (`aValuesEnd == pValueTop`, line 527), steps the
odometer. -/
def AddValuesLoop (aDimensions : List (List ℕ × List ℕ))
    (aValues1 aValues2 : List ℚ) (vl : ℕ) :
    ℕ → List (ℤ × ℤ) → ℕ → ℕ → List ℚ → List ℚ
  | 0, _, _, _, acc => acc
  | count + 1, stack, i1, i2, acc =>
    let acc' := List.zipWith (· + ·) (regionSlice aValues1 vl i1)
      (regionSlice aValues2 vl i2) ++ acc
    if count = 0 then acc'
    else
      let step := AddWalk aDimensions stack i1 i2 1 1
      AddValuesLoop aDimensions aValues1 aValues2 vl count step.1
        step.2.1 step.2.2 acc'

/-- `SegmentedRegionCore::Add` (`SegmentedRegion.h:424-655`).  Returns the
new state and the error flag (`false` = success; allocation is modelled as
always succeeding).  The counting loop (lines 447-492) yields the merged
division count per dimension and the starting stack; the reverse value loop
(lines 512-591) produces the new value array; the reverse division loop
(lines 597-652) writes the merged division arrays. -/
def Add (s rhs : SegmentedRegionCore) : SegmentedRegionCore × Bool :=
  let dims := s.aDimensions.zip rhs.aDimensions
  let mergedDims := dims.map (fun pr => mergeDivs pr.1 pr.2)
  let cNewValues := (mergedDims.map (fun divs => divs.length + 1)).prod
  let stack0 := dims.map (fun pr =>
    (((pr.1.length : ℤ) - 1, (pr.2.length : ℤ) - 1)))
  let newValues := AddValuesLoop dims s.aValues rhs.aValues s.cVectorLength
    cNewValues stack0 (s.cRegions - 1) (rhs.cRegions - 1) []
  ({ cVectorLength := s.cVectorLength, aDimensions := mergedDims,
     aValues := newValues, bExpanded := s.bExpanded }, false)

/-- Per-dimension region counts of the merged grid. -/
def nrcsOf (dims : List (List ℕ × List ℕ)) : List ℕ :=
  dims.map (fun pr => (mergeDivs pr.1 pr.2).length + 1)

/-- First-tensor region tuple of merged-grid tuple `ps`. -/
def mapT1 (dims : List (List ℕ × List ℕ)) (ps : List ℕ) : List ℕ :=
  List.zipWith (fun pr r => regionOf pr.1 (bndAt (mergeDivs pr.1 pr.2) r))
    dims ps

/-- Second-tensor region tuple of merged-grid tuple `ps`. -/
def mapT2 (dims : List (List ℕ × List ℕ)) (ps : List ℕ) : List ℕ :=
  List.zipWith (fun pr r => regionOf pr.2 (bndAt (mergeDivs pr.1 pr.2) r))
    dims ps

/-- The odometer stack of `Add` when the cell being written is merged-grid
point `ps`. -/
def addStackFor (dims : List (List ℕ × List ℕ)) (ps : List ℕ) :
    List (ℤ × ℤ) :=
  List.zipWith (fun pr r =>
    (((regionOf pr.1 (bndAt (mergeDivs pr.1 pr.2) r) : ℤ) - 1,
      (regionOf pr.2 (bndAt (mergeDivs pr.1 pr.2) r) : ℤ) - 1))) dims ps

/-- Both division arrays of a dimension pair are strictly ascending. -/
def pairWF (pr : List ℕ × List ℕ) : Prop :=
  List.Pairwise (· < ·) pr.1 ∧ List.Pairwise (· < ·) pr.2

theorem bndAt_succ (merged : List ℕ) (p : ℕ) :
    bndAt merged (p + 1) = merged.getD p 0 + 1 := by
  unfold bndAt
  rw [if_neg (by omega), Nat.add_sub_cancel]

theorem bndAt_zero (merged : List ℕ) : bndAt merged 0 = 0 := rfl

theorem getD_mem_of_lt (l : List ℕ) (i : ℕ) (hi : i < l.length) :
    l.getD i 0 ∈ l := by
  have he : l.getD i 0 = l.get ⟨i, hi⟩ := by
    rw [List.getD_eq_getElem?_getD, List.getElem?_eq_getElem hi]
    rfl
  rw [he]
  exact List.get_mem l i hi

theorem regionOf_pos_of_mem (divs : List ℕ) (M : ℕ) (hm : M ∈ divs) :
    1 ≤ regionOf divs (M + 1) := by
  unfold regionOf
  have hpos : 0 < List.countP (fun d => decide (d < M + 1)) divs := by
    apply List.countP_pos.mpr
    refine ⟨M, hm, ?_⟩
    show decide (M < M + 1) = true
    rw [decide_eq_true_eq]
    omega
  omega

theorem regionOf_zero_not_mem (divs : List ℕ) (M : ℕ)
    (hr : regionOf divs (M + 1) = 0) : M ∉ divs := by
  intro hm
  have := regionOf_pos_of_mem divs M hm
  omega

theorem merge_top_le (divs : List ℕ) (hs : List.Pairwise (· < ·) divs)
    (M : ℕ) (hr : 1 ≤ regionOf divs (M + 1)) :
    divs.getD (regionOf divs (M + 1) - 1) 0 ≤ M := by
  have := getD_lt_of_lt_regionOf divs (M + 1) (regionOf divs (M + 1) - 1)
    hs (by omega)
  omega

/-- In the both-cursor branch of `Add`'s odometer, the comparison
`d2 <= d1` holds exactly when the division being crossed belongs to the
first tensor. -/
theorem merge_cmp_iff (divs1 divs2 : List ℕ)
    (h1s : List.Pairwise (· < ·) divs1) (h2s : List.Pairwise (· < ·) divs2)
    (M : ℕ) (hor : M ∈ divs1 ∨ M ∈ divs2)
    (hr1 : 1 ≤ regionOf divs1 (M + 1))
    (hr2 : 1 ≤ regionOf divs2 (M + 1)) :
    divs2.getD (regionOf divs2 (M + 1) - 1) 0
      ≤ divs1.getD (regionOf divs1 (M + 1) - 1) 0 ↔ M ∈ divs1 := by
  have hle1 := merge_top_le divs1 h1s M hr1
  have hle2 := merge_top_le divs2 h2s M hr2
  have hiff1 := regionOf_getD divs1 M h1s hr1
  have hiff2 := regionOf_getD divs2 M h2s hr2
  constructor
  · intro h
    rcases hor with hm | hm
    · exact hm
    · have := hiff2.mpr hm
      exact hiff1.mp (by omega)
  · intro hm
    have := hiff1.mpr hm
    omega

end SegmentedRegionCore

namespace SegmentedRegionCore

theorem nrcsOf_cons (divs1 divs2 : List ℕ) (dims' : List (List ℕ × List ℕ)) :
    nrcsOf ((divs1, divs2) :: dims')
      = ((mergeDivs divs1 divs2).length + 1) :: nrcsOf dims' := rfl

theorem mapT1_cons (divs1 divs2 : List ℕ) (dims' : List (List ℕ × List ℕ))
    (p : ℕ) (ps' : List ℕ) :
    mapT1 ((divs1, divs2) :: dims') (p :: ps')
      = regionOf divs1 (bndAt (mergeDivs divs1 divs2) p)
        :: mapT1 dims' ps' := rfl

theorem mapT2_cons (divs1 divs2 : List ℕ) (dims' : List (List ℕ × List ℕ))
    (p : ℕ) (ps' : List ℕ) :
    mapT2 ((divs1, divs2) :: dims') (p :: ps')
      = regionOf divs2 (bndAt (mergeDivs divs1 divs2) p)
        :: mapT2 dims' ps' := rfl

theorem addStackFor_cons (divs1 divs2 : List ℕ)
    (dims' : List (List ℕ × List ℕ)) (p : ℕ) (ps' : List ℕ) :
    addStackFor ((divs1, divs2) :: dims') (p :: ps')
      = ((regionOf divs1 (bndAt (mergeDivs divs1 divs2) p) : ℤ) - 1,
         (regionOf divs2 (bndAt (mergeDivs divs1 divs2) p) : ℤ) - 1)
        :: addStackFor dims' ps' := rfl

/-- One odometer step of `Add`'s reverse traversal: from the stack and the
two flat region cursors of merged-grid point `ps`, the walk produces the
stack and cursors of the flat predecessor of `ps`. -/
theorem AddWalk_spec :
    ∀ (dims : List (List ℕ × List ℕ)) (ps : List ℕ),
      (∀ pr ∈ dims, pairWF pr) →
      List.Forall₂ (fun p nrc => p < nrc) ps (nrcsOf dims) →
      (∃ x ∈ ps, x ≠ 0) →
      ∀ (b1 b2 m1 m2 : ℕ),
      AddWalk dims (addStackFor dims ps)
          (b1 + m1 * tensorIndex (dims.map (fun pr => pr.1.length + 1))
            (mapT1 dims ps))
          (b2 + m2 * tensorIndex (dims.map (fun pr => pr.2.length + 1))
            (mapT2 dims ps)) m1 m2
        = (addStackFor dims (predT (nrcsOf dims) ps),
           b1 + m1 * tensorIndex (dims.map (fun pr => pr.1.length + 1))
             (mapT1 dims (predT (nrcsOf dims) ps)),
           b2 + m2 * tensorIndex (dims.map (fun pr => pr.2.length + 1))
             (mapT2 dims (predT (nrcsOf dims) ps))) := by
  intro dims
  induction dims with
  | nil =>
    intro ps hWF hlt hne b1 b2 m1 m2
    cases hlt
    obtain ⟨x, hx, _⟩ := hne
    exact absurd hx (List.not_mem_nil x)
  | cons pr dims' ih =>
    intro ps hWF hlt hne b1 b2 m1 m2
    obtain ⟨divs1, divs2⟩ := pr
    rw [show nrcsOf ((divs1, divs2) :: dims')
      = ((mergeDivs divs1 divs2).length + 1) :: nrcsOf dims' from rfl] at hlt
    rcases hlt with _ | ⟨hp, hlt'⟩
    rename_i p ps'
    have h1s : List.Pairwise (· < ·) divs1 :=
      (hWF _ (List.mem_cons_self _ _)).1
    have h2s : List.Pairwise (· < ·) divs2 :=
      (hWF _ (List.mem_cons_self _ _)).2
    have hWF' : ∀ q ∈ dims', pairWF q :=
      fun q hq => hWF q (List.mem_cons_of_mem _ hq)
    have hms : List.Pairwise (· < ·) (mergeDivs divs1 divs2) :=
      mergeDivs_sorted divs1 divs2 h1s h2s
    have h1sub : ∀ x ∈ divs1, x ∈ mergeDivs divs1 divs2 :=
      fun x hx => (mem_mergeDivs divs1 divs2 x).mpr (Or.inl hx)
    have h2sub : ∀ x ∈ divs2, x ∈ mergeDivs divs1 divs2 :=
      fun x hx => (mem_mergeDivs divs1 divs2 x).mpr (Or.inr hx)
    have h1nd : divs1.Nodup := h1s.imp (fun h => Nat.ne_of_lt h)
    have h2nd : divs2.Nodup := h2s.imp (fun h => Nat.ne_of_lt h)
    cases p with
    | succ p' =>
      simp only [addStackFor_cons, mapT1_cons, mapT2_cons, nrcsOf_cons, predT,
        List.map_cons, tensorIndex_cons]
      simp only [AddWalk]
      rw [bndAt_succ]
      have hp' : p' < (mergeDivs divs1 divs2).length := by omega
      have hMmem : (mergeDivs divs1 divs2).getD p' 0 ∈ mergeDivs divs1 divs2 :=
        getD_mem_of_lt _ p' hp'
      have hMor := (mem_mergeDivs divs1 divs2 _).mp hMmem
      have hsucc1 := regionOf_bnd_succ divs1 (mergeDivs divs1 divs2) h1sub
        hms h1nd p' hp'
      have hsucc2 := regionOf_bnd_succ divs2 (mergeDivs divs1 divs2) h2sub
        hms h2nd p' hp'
      by_cases hr1 : 1 ≤ regionOf divs1 ((mergeDivs divs1 divs2).getD p' 0 + 1)
      · by_cases hr2 : 1 ≤ regionOf divs2
            ((mergeDivs divs1 divs2).getD p' 0 + 1)
        · rw [if_pos (by omega), if_pos (by omega)]
          rw [show ((regionOf divs1 ((mergeDivs divs1 divs2).getD p' 0 + 1)
              : ℤ) - 1).toNat
            = regionOf divs1 ((mergeDivs divs1 divs2).getD p' 0 + 1) - 1
            from by omega]
          rw [show ((regionOf divs2 ((mergeDivs divs1 divs2).getD p' 0 + 1)
              : ℤ) - 1).toNat
            = regionOf divs2 ((mergeDivs divs1 divs2).getD p' 0 + 1) - 1
            from by omega]
          have hiff1 := merge_cmp_iff divs1 divs2 h1s h2s
            ((mergeDivs divs1 divs2).getD p' 0) hMor hr1 hr2
          have hiff2 := merge_cmp_iff divs2 divs1 h2s h1s
            ((mergeDivs divs1 divs2).getD p' 0) hMor.symm hr2 hr1
          have hchange1 : (if ((divs2.getD (regionOf divs2
                  ((mergeDivs divs1 divs2).getD p' 0 + 1) - 1) 0 : ℕ) : ℤ)
                ≤ ((divs1.getD (regionOf divs1
                  ((mergeDivs divs1 divs2).getD p' 0 + 1) - 1) 0 : ℕ) : ℤ)
              then (1 : ℕ) else 0)
              = (if (mergeDivs divs1 divs2).getD p' 0 ∈ divs1 then 1
                else 0) := by
            by_cases hm : (mergeDivs divs1 divs2).getD p' 0 ∈ divs1
            · rw [if_pos hm, if_pos (by exact_mod_cast hiff1.mpr hm)]
            · rw [if_neg hm, if_neg (by
                intro hle
                exact hm (hiff1.mp (by exact_mod_cast hle)))]
          have hchange2 : (if ((divs1.getD (regionOf divs1
                  ((mergeDivs divs1 divs2).getD p' 0 + 1) - 1) 0 : ℕ) : ℤ)
                ≤ ((divs2.getD (regionOf divs2
                  ((mergeDivs divs1 divs2).getD p' 0 + 1) - 1) 0 : ℕ) : ℤ)
              then (1 : ℕ) else 0)
              = (if (mergeDivs divs1 divs2).getD p' 0 ∈ divs2 then 1
                else 0) := by
            by_cases hm : (mergeDivs divs1 divs2).getD p' 0 ∈ divs2
            · rw [if_pos hm, if_pos (by exact_mod_cast hiff2.mpr hm)]
            · rw [if_neg hm, if_neg (by
                intro hle
                exact hm (hiff2.mp (by exact_mod_cast hle)))]
          rw [hchange1, hchange2]
          rw [Prod.mk.injEq, Prod.mk.injEq]
          refine ⟨?_, ?_, ?_⟩
          · rw [List.cons.injEq, Prod.mk.injEq]
            refine ⟨⟨?_, ?_⟩, rfl⟩
            · by_cases hm : (mergeDivs divs1 divs2).getD p' 0 ∈ divs1
              · rw [if_pos hm] at hsucc1 ⊢
                omega
              · rw [if_neg hm] at hsucc1 ⊢
                omega
            · by_cases hm : (mergeDivs divs1 divs2).getD p' 0 ∈ divs2
              · rw [if_pos hm] at hsucc2 ⊢
                omega
              · rw [if_neg hm] at hsucc2 ⊢
                omega
          · by_cases hm : (mergeDivs divs1 divs2).getD p' 0 ∈ divs1
            · rw [if_pos hm] at hsucc1 ⊢
              rw [show b1 + m1 * (regionOf divs1
                    ((mergeDivs divs1 divs2).getD p' 0 + 1)
                    + (divs1.length + 1)
                      * tensorIndex (dims'.map (fun pr => pr.1.length + 1))
                        (mapT1 dims' ps'))
                  = (b1 + m1 * (regionOf divs1
                      (bndAt (mergeDivs divs1 divs2) p')
                      + (divs1.length + 1)
                        * tensorIndex (dims'.map (fun pr => pr.1.length + 1))
                          (mapT1 dims' ps'))) + 1 * m1 from by
                rw [hsucc1]; ring]
              rw [Nat.add_sub_cancel]
            · rw [if_neg hm] at hsucc1 ⊢
              rw [hsucc1, Nat.zero_mul, Nat.sub_zero, Nat.add_zero]
          · by_cases hm : (mergeDivs divs1 divs2).getD p' 0 ∈ divs2
            · rw [if_pos hm] at hsucc2 ⊢
              rw [show b2 + m2 * (regionOf divs2
                    ((mergeDivs divs1 divs2).getD p' 0 + 1)
                    + (divs2.length + 1)
                      * tensorIndex (dims'.map (fun pr => pr.2.length + 1))
                        (mapT2 dims' ps'))
                  = (b2 + m2 * (regionOf divs2
                      (bndAt (mergeDivs divs1 divs2) p')
                      + (divs2.length + 1)
                        * tensorIndex (dims'.map (fun pr => pr.2.length + 1))
                          (mapT2 dims' ps'))) + 1 * m2 from by
                rw [hsucc2]; ring]
              rw [Nat.add_sub_cancel]
            · rw [if_neg hm] at hsucc2 ⊢
              rw [hsucc2, Nat.zero_mul, Nat.sub_zero, Nat.add_zero]
        · have hr2z : regionOf divs2
              ((mergeDivs divs1 divs2).getD p' 0 + 1) = 0 := by omega
          have hm2 : (mergeDivs divs1 divs2).getD p' 0 ∉ divs2 :=
            regionOf_zero_not_mem divs2 _ hr2z
          have hm1 : (mergeDivs divs1 divs2).getD p' 0 ∈ divs1 :=
            hMor.resolve_right hm2
          rw [if_pos (by omega), if_neg (by omega)]
          rw [if_pos hm1] at hsucc1
          rw [if_neg hm2] at hsucc2
          rw [Prod.mk.injEq, Prod.mk.injEq]
          refine ⟨?_, ?_, ?_⟩
          · rw [List.cons.injEq, Prod.mk.injEq]
            refine ⟨⟨by omega, by omega⟩, rfl⟩
          · rw [show b1 + m1 * (regionOf divs1
                  ((mergeDivs divs1 divs2).getD p' 0 + 1)
                  + (divs1.length + 1)
                    * tensorIndex (dims'.map (fun pr => pr.1.length + 1))
                      (mapT1 dims' ps'))
                = (b1 + m1 * (regionOf divs1
                    (bndAt (mergeDivs divs1 divs2) p')
                    + (divs1.length + 1)
                      * tensorIndex (dims'.map (fun pr => pr.1.length + 1))
                        (mapT1 dims' ps'))) + m1 from by
              rw [hsucc1]; ring]
            rw [Nat.add_sub_cancel]
          · rw [hsucc2, Nat.add_zero]
      · by_cases hr2 : 1 ≤ regionOf divs2
            ((mergeDivs divs1 divs2).getD p' 0 + 1)
        · have hr1z : regionOf divs1
              ((mergeDivs divs1 divs2).getD p' 0 + 1) = 0 := by omega
          have hm1 : (mergeDivs divs1 divs2).getD p' 0 ∉ divs1 :=
            regionOf_zero_not_mem divs1 _ hr1z
          have hm2 : (mergeDivs divs1 divs2).getD p' 0 ∈ divs2 :=
            hMor.resolve_left hm1
          rw [if_neg (by omega), if_pos (by omega)]
          rw [if_neg hm1] at hsucc1
          rw [if_pos hm2] at hsucc2
          rw [Prod.mk.injEq, Prod.mk.injEq]
          refine ⟨?_, ?_, ?_⟩
          · rw [List.cons.injEq, Prod.mk.injEq]
            refine ⟨⟨by omega, by omega⟩, rfl⟩
          · rw [hsucc1, Nat.add_zero]
          · rw [show b2 + m2 * (regionOf divs2
                  ((mergeDivs divs1 divs2).getD p' 0 + 1)
                  + (divs2.length + 1)
                    * tensorIndex (dims'.map (fun pr => pr.2.length + 1))
                      (mapT2 dims' ps'))
                = (b2 + m2 * (regionOf divs2
                    (bndAt (mergeDivs divs1 divs2) p')
                    + (divs2.length + 1)
                      * tensorIndex (dims'.map (fun pr => pr.2.length + 1))
                        (mapT2 dims' ps'))) + m2 from by
              rw [hsucc2]; ring]
            rw [Nat.add_sub_cancel]
        · exfalso
          rcases hMor with hm | hm
          · exact hr1 (regionOf_pos_of_mem divs1 _ hm)
          · exact hr2 (regionOf_pos_of_mem divs2 _ hm)
    | zero =>
      have hne' : ∃ x ∈ ps', x ≠ 0 := by
        obtain ⟨x, hx, hxne⟩ := hne
        rcases List.mem_cons.mp hx with rfl | hx'
        · exact absurd rfl hxne
        · exact ⟨x, hx', hxne⟩
      have htop1 := regionOf_bnd_top divs1 (mergeDivs divs1 divs2) h1sub hms
      have htop2 := regionOf_bnd_top divs2 (mergeDivs divs1 divs2) h2sub hms
      simp only [addStackFor_cons, mapT1_cons, mapT2_cons, nrcsOf_cons, predT,
        List.map_cons, tensorIndex_cons, bndAt_zero,
        regionOf_zero, Nat.add_sub_cancel, Nat.cast_zero]
      simp only [AddWalk]
      rw [show List.map (fun pr => (mergeDivs pr.1 pr.2).length + 1) dims'
        = nrcsOf dims' from rfl]
      rw [if_neg (by norm_num), if_neg (by norm_num)]
      have harg1 : b1 + m1 * (0 + (divs1.length + 1)
            * tensorIndex (dims'.map (fun pr => pr.1.length + 1))
              (mapT1 dims' ps'))
          + divs1.length * m1
          = (b1 + divs1.length * m1) + m1 * (1 + divs1.length)
            * tensorIndex (dims'.map (fun pr => pr.1.length + 1))
              (mapT1 dims' ps') := by
        ring
      have harg2 : b2 + m2 * (0 + (divs2.length + 1)
            * tensorIndex (dims'.map (fun pr => pr.2.length + 1))
              (mapT2 dims' ps'))
          + divs2.length * m2
          = (b2 + divs2.length * m2) + m2 * (1 + divs2.length)
            * tensorIndex (dims'.map (fun pr => pr.2.length + 1))
              (mapT2 dims' ps') := by
        ring
      rw [harg1, harg2, ih ps' hWF' hlt' hne' (b1 + divs1.length * m1)
        (b2 + divs2.length * m2) (m1 * (1 + divs1.length))
        (m2 * (1 + divs2.length))]
      rw [Prod.mk.injEq, Prod.mk.injEq]
      refine ⟨?_, ?_, ?_⟩
      · rw [List.cons.injEq, Prod.mk.injEq]
        refine ⟨⟨?_, ?_⟩, rfl⟩
        · rw [htop1]
        · rw [htop2]
      · rw [show b1 + m1 * (regionOf divs1
              (bndAt (mergeDivs divs1 divs2) (mergeDivs divs1 divs2).length)
              + (divs1.length + 1)
                * tensorIndex (dims'.map (fun pr => pr.1.length + 1))
                  (mapT1 dims' (predT (nrcsOf dims') ps')))
            = (b1 + divs1.length * m1) + m1 * (1 + divs1.length)
              * tensorIndex (dims'.map (fun pr => pr.1.length + 1))
                (mapT1 dims' (predT (nrcsOf dims') ps')) from by
          rw [htop1]; ring]
      · rw [show b2 + m2 * (regionOf divs2
              (bndAt (mergeDivs divs1 divs2) (mergeDivs divs1 divs2).length)
              + (divs2.length + 1)
                * tensorIndex (dims'.map (fun pr => pr.2.length + 1))
                  (mapT2 dims' (predT (nrcsOf dims') ps')))
            = (b2 + divs2.length * m2) + m2 * (1 + divs2.length)
              * tensorIndex (dims'.map (fun pr => pr.2.length + 1))
                (mapT2 dims' (predT (nrcsOf dims') ps')) from by
          rw [htop2]; ring]

end SegmentedRegionCore

namespace SegmentedRegionCore

/-- One-step unfolding of `AddValuesLoop` at a positive count. -/
theorem AddValuesLoop_succ (dims : List (List ℕ × List ℕ))
    (vals1 vals2 : List ℚ) (vl count : ℕ) (stack : List (ℤ × ℤ))
    (i1 i2 : ℕ) (acc : List ℚ) :
    AddValuesLoop dims vals1 vals2 vl (count + 1) stack i1 i2 acc =
      (if count = 0 then
        List.zipWith (· + ·) (regionSlice vals1 vl i1)
          (regionSlice vals2 vl i2) ++ acc
       else
        AddValuesLoop dims vals1 vals2 vl count
          (AddWalk dims stack i1 i2 1 1).1
          (AddWalk dims stack i1 i2 1 1).2.1
          (AddWalk dims stack i1 i2 1 1).2.2
          (List.zipWith (· + ·) (regionSlice vals1 vl i1)
            (regionSlice vals2 vl i2) ++ acc)) := rfl

/-- The reverse value traversal of `Add`, started at merged-grid point `ps`,
writes out the summed slices of the first `tensorIndex (nrcsOf dims) ps + 1`
grid points in order. -/
theorem AddValuesLoop_spec (dims : List (List ℕ × List ℕ))
    (vals1 vals2 : List ℚ) (vl : ℕ) (hWF : ∀ pr ∈ dims, pairWF pr) :
    ∀ (n : ℕ) (ps : List ℕ), ps ∈ gridTuples (nrcsOf dims) →
      tensorIndex (nrcsOf dims) ps = n →
      ∀ acc,
      AddValuesLoop dims vals1 vals2 vl (n + 1) (addStackFor dims ps)
          (tensorIndex (dims.map (fun pr => pr.1.length + 1)) (mapT1 dims ps))
          (tensorIndex (dims.map (fun pr => pr.2.length + 1)) (mapT2 dims ps))
          acc
        = ((gridTuples (nrcsOf dims)).take (n + 1)).flatMap
            (fun q => List.zipWith (· + ·)
              (regionSlice vals1 vl
                (tensorIndex (dims.map (fun pr => pr.1.length + 1))
                  (mapT1 dims q)))
              (regionSlice vals2 vl
                (tensorIndex (dims.map (fun pr => pr.2.length + 1))
                  (mapT2 dims q)))) ++ acc := by
  intro n
  induction n with
  | zero =>
    intro ps hmem hidx acc
    have htake := gridTuples_take_succ hmem
    rw [hidx] at htake
    have htake0 : (gridTuples (nrcsOf dims)).take 0 = [] := rfl
    rw [htake, htake0, List.nil_append]
    simp only [AddValuesLoop]
    simp [List.flatMap_cons]
  | succ m ih =>
    intro ps hmem hidx acc
    have hlt := mem_gridTuples.mp hmem
    have hne : ∃ x ∈ ps, x ≠ 0 :=
      exists_ne_zero_of_tensorIndex_pos (nrcsOf dims) ps (by omega)
    have hwalk := AddWalk_spec dims ps hWF hlt hne 0 0 1 1
    simp only [Nat.zero_add, Nat.one_mul] at hwalk
    have hpredidx : tensorIndex (nrcsOf dims) (predT (nrcsOf dims) ps)
        = m := by
      have := tensorIndex_predT (nrcsOf dims) ps hlt (by omega)
      omega
    show AddValuesLoop dims vals1 vals2 vl (m + 1 + 1) _ _ _ _ = _
    rw [AddValuesLoop_succ]
    rw [if_neg (by omega)]
    rw [hwalk]
    dsimp only
    rw [ih (predT (nrcsOf dims) ps) (mem_gridTuples_predT hmem) hpredidx]
    have htake := gridTuples_take_succ hmem
    rw [hidx] at htake
    rw [htake, List.flatMap_append]
    simp only [List.flatMap_cons, List.flatMap_nil, List.append_nil]
    rw [List.append_assoc]

end SegmentedRegionCore

namespace SegmentedRegionCore

/-- `Add`'s initial odometer stack is the one for the top merged-grid
tuple. -/
theorem addStackFor_top : ∀ (dims : List (List ℕ × List ℕ)),
    (∀ pr ∈ dims, pairWF pr) →
    addStackFor dims ((nrcsOf dims).map (fun nrc => nrc - 1))
      = dims.map (fun pr =>
          (((pr.1.length : ℤ) - 1, (pr.2.length : ℤ) - 1))) := by
  intro dims
  induction dims with
  | nil => intro _; rfl
  | cons pr dims' ih =>
    intro h
    obtain ⟨divs1, divs2⟩ := pr
    have h1s : List.Pairwise (· < ·) divs1 := (h _ (List.mem_cons_self _ _)).1
    have h2s : List.Pairwise (· < ·) divs2 := (h _ (List.mem_cons_self _ _)).2
    have hms := mergeDivs_sorted divs1 divs2 h1s h2s
    rw [nrcsOf_cons, List.map_cons, addStackFor_cons, Nat.add_sub_cancel,
      regionOf_bnd_top divs1 _
        (fun x hx => (mem_mergeDivs _ _ x).mpr (Or.inl hx)) hms,
      regionOf_bnd_top divs2 _
        (fun x hx => (mem_mergeDivs _ _ x).mpr (Or.inr hx)) hms,
      ih (fun q hq => h q (List.mem_cons_of_mem _ hq)), List.map_cons]

theorem mapT1_top : ∀ (dims : List (List ℕ × List ℕ)),
    (∀ pr ∈ dims, pairWF pr) →
    mapT1 dims ((nrcsOf dims).map (fun nrc => nrc - 1))
      = dims.map (fun pr => pr.1.length) := by
  intro dims
  induction dims with
  | nil => intro _; rfl
  | cons pr dims' ih =>
    intro h
    obtain ⟨divs1, divs2⟩ := pr
    have h1s : List.Pairwise (· < ·) divs1 := (h _ (List.mem_cons_self _ _)).1
    have h2s : List.Pairwise (· < ·) divs2 := (h _ (List.mem_cons_self _ _)).2
    have hms := mergeDivs_sorted divs1 divs2 h1s h2s
    rw [nrcsOf_cons, List.map_cons, mapT1_cons, Nat.add_sub_cancel,
      regionOf_bnd_top divs1 _
        (fun x hx => (mem_mergeDivs _ _ x).mpr (Or.inl hx)) hms,
      ih (fun q hq => h q (List.mem_cons_of_mem _ hq)), List.map_cons]

theorem mapT2_top : ∀ (dims : List (List ℕ × List ℕ)),
    (∀ pr ∈ dims, pairWF pr) →
    mapT2 dims ((nrcsOf dims).map (fun nrc => nrc - 1))
      = dims.map (fun pr => pr.2.length) := by
  intro dims
  induction dims with
  | nil => intro _; rfl
  | cons pr dims' ih =>
    intro h
    obtain ⟨divs1, divs2⟩ := pr
    have h1s : List.Pairwise (· < ·) divs1 := (h _ (List.mem_cons_self _ _)).1
    have h2s : List.Pairwise (· < ·) divs2 := (h _ (List.mem_cons_self _ _)).2
    have hms := mergeDivs_sorted divs1 divs2 h1s h2s
    rw [nrcsOf_cons, List.map_cons, mapT2_cons, Nat.add_sub_cancel,
      regionOf_bnd_top divs2 _
        (fun x hx => (mem_mergeDivs _ _ x).mpr (Or.inr hx)) hms,
      ih (fun q hq => h q (List.mem_cons_of_mem _ hq)), List.map_cons]

theorem mapT1_mem : ∀ (dims : List (List ℕ × List ℕ)) (q : List ℕ),
    dims.length = q.length →
    mapT1 dims q ∈ gridTuples (dims.map (fun pr => pr.1.length + 1)) := by
  intro dims
  induction dims with
  | nil =>
    intro q h
    have hz : mapT1 [] q = [] := List.zipWith_nil_left
    rw [hz]
    exact List.mem_singleton.mpr rfl
  | cons pr dims' ih =>
    intro q h
    obtain ⟨divs1, divs2⟩ := pr
    cases q with
    | nil => simp at h
    | cons x q' =>
      rw [List.map_cons, mapT1_cons, mem_gridTuples]
      refine List.Forall₂.cons ?_ ?_
      · show regionOf divs1 (bndAt (mergeDivs divs1 divs2) x)
          < divs1.length + 1
        have := regionOf_le_length divs1 (bndAt (mergeDivs divs1 divs2) x)
        omega
      · rw [← mem_gridTuples]
        exact ih q' (by simp only [List.length_cons] at h; omega)

theorem mapT2_mem : ∀ (dims : List (List ℕ × List ℕ)) (q : List ℕ),
    dims.length = q.length →
    mapT2 dims q ∈ gridTuples (dims.map (fun pr => pr.2.length + 1)) := by
  intro dims
  induction dims with
  | nil =>
    intro q h
    have hz : mapT2 [] q = [] := List.zipWith_nil_left
    rw [hz]
    exact List.mem_singleton.mpr rfl
  | cons pr dims' ih =>
    intro q h
    obtain ⟨divs1, divs2⟩ := pr
    cases q with
    | nil => simp at h
    | cons x q' =>
      rw [List.map_cons, mapT2_cons, mem_gridTuples]
      refine List.Forall₂.cons ?_ ?_
      · show regionOf divs2 (bndAt (mergeDivs divs1 divs2) x)
          < divs2.length + 1
        have := regionOf_le_length divs2 (bndAt (mergeDivs divs1 divs2) x)
        omega
      · rw [← mem_gridTuples]
        exact ih q' (by simp only [List.length_cons] at h; omega)

/-- Reading the merged grid at the merged-region tuple of a state point
recovers the first tensor's own region tuple at that point. -/
theorem mapT1_compat : ∀ (dims : List (List ℕ × List ℕ)) (p : List ℕ),
    (∀ pr ∈ dims, pairWF pr) →
    mapT1 dims (List.zipWith regionOf
        (dims.map (fun pr => mergeDivs pr.1 pr.2)) p)
      = List.zipWith regionOf (dims.map Prod.fst) p := by
  intro dims
  induction dims with
  | nil => intro p _; rfl
  | cons pr dims' ih =>
    intro p h
    obtain ⟨divs1, divs2⟩ := pr
    cases p with
    | nil => rfl
    | cons x p' =>
      have h1s : List.Pairwise (· < ·) divs1 :=
        (h _ (List.mem_cons_self _ _)).1
      have h2s : List.Pairwise (· < ·) divs2 :=
        (h _ (List.mem_cons_self _ _)).2
      have hms := mergeDivs_sorted divs1 divs2 h1s h2s
      rw [List.map_cons, List.map_cons, List.zipWith_cons_cons,
        List.zipWith_cons_cons, mapT1_cons,
        regionOf_bnd_regionOf divs1 (mergeDivs divs1 divs2)
          (fun y hy => (mem_mergeDivs _ _ y).mpr (Or.inl hy)) hms x,
        ih p' (fun q hq => h q (List.mem_cons_of_mem _ hq))]

theorem mapT2_compat : ∀ (dims : List (List ℕ × List ℕ)) (p : List ℕ),
    (∀ pr ∈ dims, pairWF pr) →
    mapT2 dims (List.zipWith regionOf
        (dims.map (fun pr => mergeDivs pr.1 pr.2)) p)
      = List.zipWith regionOf (dims.map Prod.snd) p := by
  intro dims
  induction dims with
  | nil => intro p _; rfl
  | cons pr dims' ih =>
    intro p h
    obtain ⟨divs1, divs2⟩ := pr
    cases p with
    | nil => rfl
    | cons x p' =>
      have h1s : List.Pairwise (· < ·) divs1 :=
        (h _ (List.mem_cons_self _ _)).1
      have h2s : List.Pairwise (· < ·) divs2 :=
        (h _ (List.mem_cons_self _ _)).2
      have hms := mergeDivs_sorted divs1 divs2 h1s h2s
      rw [List.map_cons, List.map_cons, List.zipWith_cons_cons,
        List.zipWith_cons_cons, mapT2_cons,
        regionOf_bnd_regionOf divs2 (mergeDivs divs1 divs2)
          (fun y hy => (mem_mergeDivs _ _ y).mpr (Or.inr hy)) hms x,
        ih p' (fun q hq => h q (List.mem_cons_of_mem _ hq))]

theorem zipWith_add_getD (s1 s2 : List ℚ) (iv : ℕ)
    (h1 : iv < s1.length) (h2 : iv < s2.length) :
    (List.zipWith (· + ·) s1 s2).getD iv 0
      = s1.getD iv 0 + s2.getD iv 0 := by
  have hlen : iv < (List.zipWith (· + ·) s1 s2).length := by
    rw [List.length_zipWith]
    omega
  rw [List.getD_eq_getElem?_getD, List.getElem?_eq_getElem hlen,
    List.getD_eq_getElem?_getD, List.getElem?_eq_getElem h1,
    List.getD_eq_getElem?_getD, List.getElem?_eq_getElem h2]
  show (List.zipWith (· + ·) s1 s2)[iv] = s1[iv] + s2[iv]
  exact List.getElem_zipWith

end SegmentedRegionCore

namespace SegmentedRegionCore

theorem getD_all_zero (l : List ℚ) (h : ∀ v ∈ l, v = 0) (n : ℕ) :
    l.getD n 0 = 0 := by
  by_cases hn : n < l.length
  · have he : l.getD n 0 = l.get ⟨n, hn⟩ := by
      rw [List.getD_eq_getElem?_getD, List.getElem?_eq_getElem hn]
      rfl
    rw [he]
    exact h _ (List.get_mem l n hn)
  · rw [List.getD_eq_getElem?_getD, List.getElem?_eq_none (by omega)]
    rfl

/-- `Add`'s division phase yields, on each axis, a strictly ascending array
whose members are exactly the union of the two input cut sets. -/
theorem mergeDims_forall : ∀ (l : List (List ℕ × List ℕ)),
    (∀ pr ∈ l, pairWF pr) →
    List.Forall₂ (fun mg pr => List.Pairwise (· < ·) mg ∧
        ∀ x : ℕ, (x ∈ mg ↔ x ∈ Prod.fst pr ∨ x ∈ Prod.snd pr))
      (l.map (fun pr => mergeDivs pr.1 pr.2)) l := by
  intro l
  induction l with
  | nil => intro _; exact List.Forall₂.nil
  | cons pr l ih =>
    intro h
    obtain ⟨d1, d2⟩ := pr
    rw [List.map_cons]
    refine List.Forall₂.cons ⟨?_, ?_⟩
      (ih (fun q hq => h q (List.mem_cons_of_mem _ hq)))
    · exact mergeDivs_sorted d1 d2 (h _ (List.mem_cons_self _ _)).1
        (h _ (List.mem_cons_self _ _)).2
    · intro x
      exact mem_mergeDivs d1 d2 x

end SegmentedRegionCore

namespace SegmentedRegionCore

/-- **C4**.  For segmented tensors of equal dimensionality with strictly
ascending cut arrays and dense value arrays, `Add` succeeds, each axis of the
result carries the sorted union of the two input cut sets, and the result
evaluated as a piecewise-constant function equals the pointwise sum of the
inputs; adding an all-zero tensor leaves the represented function unchanged.
In particular Scenario 4: cut `[2]`, values `[10, 20]` plus cut `[3]`,
values `[1, 2]` yields cuts `[2, 3]` and values `[11, 21, 22]`. -/
theorem add_spec :
    (∀ (A B : SegmentedRegionCore),
      A.aDimensions.length = B.aDimensions.length →
      (∀ divs ∈ A.aDimensions, List.Pairwise (· < ·) divs) →
      (∀ divs ∈ B.aDimensions, List.Pairwise (· < ·) divs) →
      B.cVectorLength = A.cVectorLength →
      A.aValues.length = A.cRegions * A.cVectorLength →
      B.aValues.length = B.cRegions * B.cVectorLength →
      (Add A B).2 = false ∧
      List.Forall₂ (fun mg pr => List.Pairwise (· < ·) mg ∧
          ∀ x : ℕ, (x ∈ mg ↔ x ∈ Prod.fst pr ∨ x ∈ Prod.snd pr))
        (Add A B).1.aDimensions (A.aDimensions.zip B.aDimensions) ∧
      (∀ p : List ℕ, p.length = A.aDimensions.length →
        ∀ iv, iv < A.cVectorLength →
        valueAt (Add A B).1 p iv = valueAt A p iv + valueAt B p iv) ∧
      ((∀ v ∈ B.aValues, v = 0) →
        ∀ p : List ℕ, p.length = A.aDimensions.length →
        ∀ iv, iv < A.cVectorLength →
        valueAt (Add A B).1 p iv = valueAt A p iv))
    ∧ Add ⟨1, [[2]], [10, 20], false⟩ ⟨1, [[3]], [1, 2], false⟩
        = ({ cVectorLength := 1, aDimensions := [[2, 3]],
             aValues := [11, 21, 22], bExpanded := false }, false) := by
  constructor
  · intro A B hdim hWFA hWFB hvl hvalsA hvalsB
    obtain ⟨vlA, dimsA, valsA, expA⟩ := A
    obtain ⟨vlB, dimsB, valsB, expB⟩ := B
    dsimp only at hdim hWFA hWFB hvl hvalsA hvalsB ⊢
    have hvl2 : vlA = vlB := hvl.symm
    subst hvl2
    have hWF : ∀ pr ∈ dimsA.zip dimsB, pairWF pr := by
      intro pr hpr
      obtain ⟨d1, d2⟩ := pr
      obtain ⟨h1, h2⟩ := List.of_mem_zip hpr
      exact ⟨hWFA _ h1, hWFB _ h2⟩
    have hE : Add ⟨vlA, dimsA, valsA, expA⟩ ⟨vlA, dimsB, valsB, expB⟩
        = ({ cVectorLength := vlA,
             aDimensions := (dimsA.zip dimsB).map
               (fun pr => mergeDivs pr.1 pr.2),
             aValues := AddValuesLoop (dimsA.zip dimsB) valsA valsB vlA
               ((((dimsA.zip dimsB).map
                   (fun pr => mergeDivs pr.1 pr.2)).map
                 (fun divs => divs.length + 1)).prod)
               ((dimsA.zip dimsB).map (fun pr =>
                 (((pr.1.length : ℤ) - 1, (pr.2.length : ℤ) - 1))))
               (cRegions ⟨vlA, dimsA, valsA, expA⟩ - 1)
               (cRegions ⟨vlA, dimsB, valsB, expB⟩ - 1) [],
             bExpanded := expA }, false) := rfl
    have hnrcs : ((dimsA.zip dimsB).map
          (fun pr => mergeDivs pr.1 pr.2)).map (fun divs => divs.length + 1)
        = nrcsOf (dimsA.zip dimsB) := by
      rw [List.map_map]
      rfl
    have hfst : (dimsA.zip dimsB).map Prod.fst = dimsA :=
      List.map_fst_zip dimsA dimsB (le_of_eq hdim)
    have hsnd : (dimsA.zip dimsB).map Prod.snd = dimsB :=
      List.map_snd_zip dimsA dimsB (le_of_eq hdim.symm)
    have hcs1 : (dimsA.zip dimsB).map (fun pr => pr.1.length + 1)
        = dimsA.map (fun divs => divs.length + 1) := by
      have h2 : (dimsA.zip dimsB).map (fun pr => pr.1.length + 1)
          = ((dimsA.zip dimsB).map Prod.fst).map
            (fun divs => divs.length + 1) := by
        rw [List.map_map]
        rfl
      rw [h2, hfst]
    have hcs2 : (dimsA.zip dimsB).map (fun pr => pr.2.length + 1)
        = dimsB.map (fun divs => divs.length + 1) := by
      have h2 : (dimsA.zip dimsB).map (fun pr => pr.2.length + 1)
          = ((dimsA.zip dimsB).map Prod.snd).map
            (fun divs => divs.length + 1) := by
        rw [List.map_map]
        rfl
      rw [h2, hsnd]
    have hrc1 : ∀ nrc ∈ nrcsOf (dimsA.zip dimsB), 1 ≤ nrc := by
      intro nrc h
      rw [nrcsOf, List.mem_map] at h
      obtain ⟨pr, _, rfl⟩ := h
      omega
    have htopmem := top_mem_gridTuples (nrcsOf (dimsA.zip dimsB)) hrc1
    have htopidx := tensorIndex_top (nrcsOf (dimsA.zip dimsB)) hrc1
    have hprodpos : 0 < (nrcsOf (dimsA.zip dimsB)).prod :=
      List.prod_pos (fun a ha => by have := hrc1 a ha; omega)
    have hstart1 : tensorIndex
        ((dimsA.zip dimsB).map (fun pr => pr.1.length + 1))
        (mapT1 (dimsA.zip dimsB)
          ((nrcsOf (dimsA.zip dimsB)).map (fun nrc => nrc - 1)))
        = cRegions ⟨vlA, dimsA, valsA, expA⟩ - 1 := by
      rw [mapT1_top _ hWF]
      have h1 : ((dimsA.zip dimsB).map (fun pr => pr.1.length + 1)).map
            (fun c => c - 1)
          = (dimsA.zip dimsB).map (fun pr => pr.1.length) := by
        rw [List.map_map]
        apply List.map_congr_left
        intro a _
        simp
      rw [← h1, tensorIndex_top _ (by
        intro c hc
        rw [List.mem_map] at hc
        obtain ⟨pr, _, rfl⟩ := hc
        omega), hcs1]
      rfl
    have hstart2 : tensorIndex
        ((dimsA.zip dimsB).map (fun pr => pr.2.length + 1))
        (mapT2 (dimsA.zip dimsB)
          ((nrcsOf (dimsA.zip dimsB)).map (fun nrc => nrc - 1)))
        = cRegions ⟨vlA, dimsB, valsB, expB⟩ - 1 := by
      rw [mapT2_top _ hWF]
      have h1 : ((dimsA.zip dimsB).map (fun pr => pr.2.length + 1)).map
            (fun c => c - 1)
          = (dimsA.zip dimsB).map (fun pr => pr.2.length) := by
        rw [List.map_map]
        apply List.map_congr_left
        intro a _
        simp
      rw [← h1, tensorIndex_top _ (by
        intro c hc
        rw [List.mem_map] at hc
        obtain ⟨pr, _, rfl⟩ := hc
        omega), hcs2]
      rfl
    have hloop := AddValuesLoop_spec (dimsA.zip dimsB) valsA valsB vlA hWF
      ((nrcsOf (dimsA.zip dimsB)).prod - 1)
      ((nrcsOf (dimsA.zip dimsB)).map (fun nrc => nrc - 1)) htopmem
      (by rw [htopidx]) []
    rw [addStackFor_top _ hWF, hstart1, hstart2] at hloop
    rw [show (nrcsOf (dimsA.zip dimsB)).prod - 1 + 1
      = (nrcsOf (dimsA.zip dimsB)).prod from by omega] at hloop
    rw [show (gridTuples (nrcsOf (dimsA.zip dimsB))).take
          ((nrcsOf (dimsA.zip dimsB)).prod)
        = gridTuples (nrcsOf (dimsA.zip dimsB)) from by
          rw [← gridTuples_length, List.take_length],
      List.append_nil] at hloop
    have hqlen : ∀ q ∈ gridTuples (nrcsOf (dimsA.zip dimsB)),
        (dimsA.zip dimsB).length = q.length := by
      intro q hq'
      have hql := (mem_gridTuples.mp hq').length_eq
      rw [nrcsOf, List.length_map] at hql
      omega
    have hslice1 : ∀ q ∈ gridTuples (nrcsOf (dimsA.zip dimsB)),
        (regionSlice valsA vlA
          (tensorIndex ((dimsA.zip dimsB).map (fun pr => pr.1.length + 1))
            (mapT1 (dimsA.zip dimsB) q))).length = vlA := by
      intro q hq'
      apply regionSlice_length
      have hm := mapT1_mem (dimsA.zip dimsB) q (hqlen q hq')
      have hlt := tensorIndex_lt_prod hm
      calc (tensorIndex ((dimsA.zip dimsB).map (fun pr => pr.1.length + 1))
            (mapT1 (dimsA.zip dimsB) q) + 1) * vlA
          ≤ ((dimsA.zip dimsB).map (fun pr => pr.1.length + 1)).prod * vlA :=
            Nat.mul_le_mul_right vlA hlt
        _ = valsA.length := by
            rw [hcs1, hvalsA]
            rfl
    have hslice2 : ∀ q ∈ gridTuples (nrcsOf (dimsA.zip dimsB)),
        (regionSlice valsB vlA
          (tensorIndex ((dimsA.zip dimsB).map (fun pr => pr.2.length + 1))
            (mapT2 (dimsA.zip dimsB) q))).length = vlA := by
      intro q hq'
      apply regionSlice_length
      have hm := mapT2_mem (dimsA.zip dimsB) q (hqlen q hq')
      have hlt := tensorIndex_lt_prod hm
      calc (tensorIndex ((dimsA.zip dimsB).map (fun pr => pr.2.length + 1))
            (mapT2 (dimsA.zip dimsB) q) + 1) * vlA
          ≤ ((dimsA.zip dimsB).map (fun pr => pr.2.length + 1)).prod * vlA :=
            Nat.mul_le_mul_right vlA hlt
        _ = valsB.length := by
            rw [hcs2, hvalsB]
            rfl
    have huniform : ∀ q ∈ gridTuples (nrcsOf (dimsA.zip dimsB)),
        ((fun q => List.zipWith (· + ·)
          (regionSlice valsA vlA
            (tensorIndex ((dimsA.zip dimsB).map (fun pr => pr.1.length + 1))
              (mapT1 (dimsA.zip dimsB) q)))
          (regionSlice valsB vlA
            (tensorIndex ((dimsA.zip dimsB).map (fun pr => pr.2.length + 1))
              (mapT2 (dimsA.zip dimsB) q)))) q).length = vlA := by
      intro q hq'
      show (List.zipWith (· + ·)
        (regionSlice valsA vlA
          (tensorIndex ((dimsA.zip dimsB).map (fun pr => pr.1.length + 1))
            (mapT1 (dimsA.zip dimsB) q)))
        (regionSlice valsB vlA
          (tensorIndex ((dimsA.zip dimsB).map (fun pr => pr.2.length + 1))
            (mapT2 (dimsA.zip dimsB) q)))).length = vlA
      rw [List.length_zipWith, hslice1 q hq', hslice2 q hq']
      omega
    have hpoint : ∀ p : List ℕ, p.length = dimsA.length →
        ∀ iv, iv < vlA →
        valueAt (Add ⟨vlA, dimsA, valsA, expA⟩ ⟨vlA, dimsB, valsB, expB⟩).1
            p iv
          = valueAt ⟨vlA, dimsA, valsA, expA⟩ p iv
            + valueAt ⟨vlA, dimsB, valsB, expB⟩ p iv := by
      intro p hplen iv hiv
      rw [hE]
      simp only [valueAt]
      rw [hnrcs]
      have hq : List.zipWith regionOf ((dimsA.zip dimsB).map
            (fun pr => mergeDivs pr.1 pr.2)) p
          ∈ gridTuples (nrcsOf (dimsA.zip dimsB)) := by
        have hmem := zipWith_regionOf_mem ((dimsA.zip dimsB).map
          (fun pr => mergeDivs pr.1 pr.2)) p (by
            rw [List.length_map, List.length_zip, hplen]
            omega)
        rw [hnrcs] at hmem
        exact hmem
      rw [hloop]
      have hklt : tensorIndex (nrcsOf (dimsA.zip dimsB))
          (List.zipWith regionOf ((dimsA.zip dimsB).map
            (fun pr => mergeDivs pr.1 pr.2)) p)
          < (gridTuples (nrcsOf (dimsA.zip dimsB))).length := by
        rw [gridTuples_length]
        exact tensorIndex_lt_prod hq
      have hfm := flatMap_getD_uniform
        (gridTuples (nrcsOf (dimsA.zip dimsB)))
        (fun q => List.zipWith (· + ·)
          (regionSlice valsA vlA
            (tensorIndex ((dimsA.zip dimsB).map (fun pr => pr.1.length + 1))
              (mapT1 (dimsA.zip dimsB) q)))
          (regionSlice valsB vlA
            (tensorIndex ((dimsA.zip dimsB).map (fun pr => pr.2.length + 1))
              (mapT2 (dimsA.zip dimsB) q))))
        vlA (tensorIndex (nrcsOf (dimsA.zip dimsB))
          (List.zipWith regionOf ((dimsA.zip dimsB).map
            (fun pr => mergeDivs pr.1 pr.2)) p)) iv
        huniform hklt hiv
      rw [hfm, gridTuples_getD hq]
      beta_reduce
      rw [zipWith_add_getD _ _ iv
        (by rw [hslice1 _ hq]; exact hiv)
        (by rw [hslice2 _ hq]; exact hiv)]
      rw [regionSlice_getD valsA vlA _ iv hiv,
        regionSlice_getD valsB vlA _ iv hiv]
      rw [mapT1_compat (dimsA.zip dimsB) p hWF,
        mapT2_compat (dimsA.zip dimsB) p hWF, hfst, hsnd, hcs1, hcs2]
    refine ⟨rfl, ?_, hpoint, ?_⟩
    · show List.Forall₂ _ ((dimsA.zip dimsB).map
        (fun pr => mergeDivs pr.1 pr.2)) _
      exact mergeDims_forall _ hWF
    · intro hzero p hplen iv hiv
      rw [hpoint p hplen iv hiv]
      have hz : valueAt ⟨vlA, dimsB, valsB, expB⟩ p iv = 0 := by
        simp only [valueAt]
        exact getD_all_zero valsB hzero _
      rw [hz, add_zero]
  · rw [show Add ⟨1, [[2]], [10, 20], false⟩ ⟨1, [[3]], [1, 2], false⟩
      = ({ cVectorLength := 1, aDimensions := [[2, 3]],
           aValues := [(10 : ℚ) + 1, 20 + 1, 20 + 2], bExpanded := false },
         false) from rfl]
    have hv : [(10 : ℚ) + 1, 20 + 1, 20 + 2] = [11, 21, 22] := by norm_num
    rw [hv]

end SegmentedRegionCore

namespace SegmentedRegionCore

/-- Concrete instance of `add_spec`: Scenario 4's tensors, evaluated at the
state point `[3]`. -/
theorem add_spec_witness :
    (Add ⟨1, [[2]], [10, 20], false⟩ ⟨1, [[3]], [1, 2], false⟩).2 = false ∧
    valueAt (Add ⟨1, [[2]], [10, 20], false⟩ ⟨1, [[3]], [1, 2], false⟩).1
        [3] 0
      = valueAt ⟨1, [[2]], [10, 20], false⟩ [3] 0
        + valueAt ⟨1, [[3]], [1, 2], false⟩ [3] 0 := by
  obtain ⟨h1, h2, h3, h4⟩ := add_spec.1 ⟨1, [[2]], [10, 20], false⟩
    ⟨1, [[3]], [1, 2], false⟩ rfl (by decide) (by decide) rfl rfl rfl
  exact ⟨h1, h3 [3] (by decide) 0 (by decide)⟩

end SegmentedRegionCore
